import Mathlib

/-!
# Pintos file system core: inode layer, directory layer, file system facade

A shallow embedding of `src/filesys/inode.c`, `src/filesys/directory.c` and
`src/filesys/filesys.c`.  C state is passed explicitly:

* `Store` is the block device together with the free-map bitmap;
* `inode` is the in-memory `struct inode`, operated on by value at the inode
  layer;
* a function returns `none` when the C code would trip an `ASSERT` or index an
  array out of its bounds.

`off_t`, `size_t` and `block_sector_t` values are natural numbers; every
operation below is stated for non-negative offsets and sizes.
-/

namespace Pintos

/-! ## Constants of the headers -/

/-- Modelled from the spec: `BLOCK_SECTOR_SIZE` of `devices/block.h`, the fixed
sector size ("e.g. 512 bytes"). -/
def BLOCK_SECTOR_SIZE : Nat := 512

/-- Modelled from the spec: `TABLE_SIZE` of `filesys/inode.h`.  An indirection
block is one sector made of a 4-byte `length` followed by `TABLE_SIZE` 4-byte
sector numbers, hence `4 + 4 * 127 = 512`. -/
def TABLE_SIZE : Nat := 127

/-- Modelled from the spec: `NUM_TABLES` of `filesys/inode.h`.  A disk inode is
exactly one sector holding `length`, `magic`, `is_dir`, `parent_directory` and
`indirection[NUM_TABLES]`, hence `16 + 4 * 124 = 512`. -/
def NUM_TABLES : Nat := 124

/-- Modelled from the spec: `NAME_MAX` of `filesys/directory.h`. -/
def NAME_MAX : Nat := 14

/-- Modelled from the spec: `INODE_MAGIC` of `filesys/inode.h`, the fixed
sentinel stored in every disk inode. -/
def INODE_MAGIC : Nat := 0x494e4f44

/-- Modelled from the spec: sector 0 is reserved for the free-map. -/
def FREE_MAP_SECTOR : Nat := 0

/-- Modelled from the spec: sector 1 is the root directory's inode. -/
def ROOT_DIR_SECTOR : Nat := 1

/-- The value `(block_sector_t) -1` that `byte_to_sector` returns for "no such
sector". -/
def NO_SECTOR : Nat := 4294967295

/-! ## Bytes -/

/-- The four bytes of a 32-bit little-endian integer. -/
def put32 (v : Nat) : List Nat :=
  [v % 256, v / 256 % 256, v / 65536 % 256, v / 16777216 % 256]

/-- The 32-bit little-endian integer stored at byte offset `i` of `bs`. -/
def get32 (bs : List Nat) (i : Nat) : Nat :=
  bs.getD i 0 + 256 * bs.getD (i + 1) 0 + 65536 * bs.getD (i + 2) 0
    + 16777216 * bs.getD (i + 3) 0

/-- A sector of zero bytes (`static char zeros[BLOCK_SECTOR_SIZE]`, or a
`calloc`ed sector-sized object). -/
def zeros : List Nat := List.replicate BLOCK_SECTOR_SIZE 0

/-! ## Block device and free-map -/

/-- The block device (`fs_device`) and the free-map bitmap. -/
structure Store where
  /-- Contents of every sector of `fs_device`. -/
  disk : Nat → List Nat
  /-- The free-map: bit `s` is `true` when sector `s` is allocated. -/
  free_map : List Bool

/-- Models `block_read (fs_device, sector, buf)`: the bytes of the sector. -/
def block_read (st : Store) (sector : Nat) : List Nat := st.disk sector

/-- Models `block_write (fs_device, sector, buf)`: copies exactly one sector
from `buf`. -/
def block_write (st : Store) (sector : Nat) (buf : List Nat) : Store :=
  { st with disk := fun x => if x = sector then buf.take BLOCK_SECTOR_SIZE else st.disk x }

/-- Modelled from the spec: `free_map_allocate (1, &sector)` of
`filesys/free-map.c`, which reserves one sector (the first free bit of the
bitmap) and yields it, or fails when no sector is free. -/
def free_map_allocate (st : Store) : Option (Nat × Store) :=
  let i := st.free_map.indexOf false
  if i < st.free_map.length then
    some (i, { st with free_map := st.free_map.set i true })
  else none

/-- Modelled from the spec: `free_map_release (sector, 1)` of
`filesys/free-map.c`, which returns one sector to the free-map. -/
def free_map_release (st : Store) (sector : Nat) : Store :=
  { st with free_map := st.free_map.set sector false }

/-! ## On-disk structures -/

/-- Models `struct indirection_block`. -/
structure indirection_block where
  /-- Number of allocated sectors. -/
  length : Nat
  /-- Array of sectors. -/
  sectors : List Nat

/-- The sector image of an indirection block. -/
def indirection_block.bytes (ind : indirection_block) : List Nat :=
  put32 ind.length ++ (List.range TABLE_SIZE).flatMap (fun i => put32 (ind.sectors.getD i 0))

/-- The indirection block read from a sector image. -/
def indirection_block.ofBytes (bs : List Nat) : indirection_block :=
  { length := get32 bs 0
    sectors := (List.range TABLE_SIZE).map (fun i => get32 bs (4 + 4 * i)) }

/-- Models `struct inode_disk`.  Modelled from the spec: the order of the
fields (`filesys/inode.h` is not among the sources). -/
structure inode_disk where
  /-- File size in bytes. -/
  length : Nat
  /-- Magic number. -/
  magic : Nat
  /-- Nonzero for a directory. -/
  is_dir : Nat
  /-- Sector of the parent directory's inode. -/
  parent_directory : Nat
  /-- Sectors of the indirection blocks. -/
  indirection : List Nat

/-- The sector image of a disk inode. -/
def inode_disk.bytes (d : inode_disk) : List Nat :=
  put32 d.length ++ put32 d.magic ++ put32 d.is_dir ++ put32 d.parent_directory
    ++ (List.range NUM_TABLES).flatMap (fun i => put32 (d.indirection.getD i 0))

/-- The disk inode read from a sector image. -/
def inode_disk.ofBytes (bs : List Nat) : inode_disk :=
  { length := get32 bs 0
    magic := get32 bs 4
    is_dir := get32 bs 8
    parent_directory := get32 bs 12
    indirection := (List.range NUM_TABLES).map (fun i => get32 bs (16 + 4 * i)) }

/-- A pointer to a `struct list_elem` of the open-inode list: the list's head
or tail sentinel, the `elem` of the in-memory inode at a heap address, or
null. -/
inductive Link where
  | head
  | tail
  | node (addr : Nat)
  | null
  deriving DecidableEq

/-- Models the in-memory `struct inode` (the reader/writer lock is left out:
the embedding is sequential). -/
structure inode where
  /-- Links of `elem` in the open-inode list. -/
  elem_prev : Link
  /-- Links of `elem` in the open-inode list. -/
  elem_next : Link
  /-- Sector number of disk location. -/
  sector : Nat
  /-- Number of openers. -/
  open_cnt : Int
  /-- True if deleted. -/
  removed : Bool
  /-- 0: writes ok, >0: deny writes. -/
  deny_write_cnt : Int
  /-- Inode content. -/
  data : inode_disk

/-! ## Inode layer (`inode.c`) -/

/-- Models `byte_to_i_block`; C division truncates toward zero. -/
def byte_to_i_block (pos : Int) : Int :=
  Int.tdiv pos ((TABLE_SIZE : Int) * (BLOCK_SECTOR_SIZE : Int))

/-- Models `ind_block_explode`'s release loop over `ind->sectors[i]`,
`i < n`, starting at `i`. -/
def explode_loop (ind : indirection_block) : Nat → Nat → Store → Store
  | 0, _, st => st
  | n + 1, i, st => explode_loop ind n (i + 1) (free_map_release st (ind.sectors.getD i 0))

/-- Models `ind_block_explode`: frees the sectors listed in the block at
`sector`, then the block.  `ind->length` is an `int`: a header with the sign
bit set runs no iteration, one above `TABLE_SIZE` reads past the array. -/
def ind_block_explode (st : Store) (sector : Nat) : Option Store :=
  let ind := indirection_block.ofBytes (block_read st sector)
  if 2147483648 ≤ ind.length then some (free_map_release st sector)
  else if TABLE_SIZE < ind.length then none
  else some (free_map_release (explode_loop ind ind.length 0 st) sector)

/-- Models `add_sector`: allocates one zeroed data sector and appends it to
the indirection block at `sector`.  `ind->length` is an `int`: the `ASSERT`s
fail for a header from `TABLE_SIZE` up, and a header with the sign bit set
passes them and, once the allocation succeeded, indexes in front of the
array (`none` in both cases). -/
def add_sector (st : Store) (sector : Nat) : Option (Bool × Store) :=
  let ind := indirection_block.ofBytes (block_read st sector)
  if ind.length < 2147483648 ∧ TABLE_SIZE ≤ ind.length then none
  else
    match free_map_allocate st with
    | none => some (false, st)
    | some (s, st1) =>
      if 2147483648 ≤ ind.length then none
      else
        let ind1 : indirection_block :=
          { length := ind.length + 1, sectors := ind.sectors.set ind.length s }
        let st2 := block_write st1 sector ind1.bytes
        let st3 := block_write st2 s zeros
        some (true, st3)

/-- Models `fill_indirection_block`'s loop with `n` iterations left. -/
def fill_loop (sector : Nat) : Nat → Store → Option (Bool × Store)
  | 0, st => some (true, st)
  | n + 1, st =>
    match add_sector st sector with
    | none => none
    | some (false, st1) => some (false, st1)
    | some (true, st1) => fill_loop sector n st1

/-- Models `fill_indirection_block`. -/
def fill_indirection_block (st : Store) (sector : Nat) : Option (Bool × Store) :=
  fill_loop sector TABLE_SIZE st

/-- Models `init_indirection_block`: writes a `calloc`ed block. -/
def init_indirection_block (st : Store) (sector : Nat) : Store :=
  block_write st sector zeros

/-- Models `bytes_to_sectors`, that is `DIV_ROUND_UP (size, BLOCK_SECTOR_SIZE)`. -/
def bytes_to_sectors (size : Nat) : Nat :=
  (size + BLOCK_SECTOR_SIZE - 1) / BLOCK_SECTOR_SIZE

/-- Models `byte_to_sector`: `some NO_SECTOR` stands for the returned `-1`,
`none` for an index past `indirection[NUM_TABLES]`. -/
def byte_to_sector (st : Store) (ino : inode) (pos : Nat) : Option Nat :=
  if pos < ino.data.length then
    let i := pos / (TABLE_SIZE * BLOCK_SECTOR_SIZE)
    if NUM_TABLES ≤ i then none
    else
      let t := ino.data.indirection.getD i 0
      let table := indirection_block.ofBytes (block_read st t)
      let index := (pos / BLOCK_SECTOR_SIZE) % TABLE_SIZE
      some (table.sectors.getD index 0)
  else some NO_SECTOR

/-- The in-memory inode with `data.length` increased by `growth`. -/
def inode.bump (ino : inode) (growth : Nat) : inode :=
  { ino with data := { ino.data with length := ino.data.length + growth } }

/-- The in-memory inode with `data.indirection[i]` set to `s`. -/
def inode.setIndirection (ino : inode) (i s : Nat) : inode :=
  { ino with data := { ino.data with indirection := ino.data.indirection.set i s } }

/-- Models `grow_inode`: grows the inode by `growth` bytes.  The value of
`add_sector` is ignored, as in the source; `none` when the `ASSERT` fails or a
slot past `indirection[NUM_TABLES - 1]` is read or written. -/
def grow_inode (st : Store) (ino : inode) (growth : Nat) : Option (Bool × inode × Store) :=
  if bytes_to_sectors ino.data.length = bytes_to_sectors (ino.data.length + growth) then
    let ino1 := ino.bump growth
    some (true, ino1, block_write st ino.sector ino1.data.bytes)
  else if BLOCK_SECTOR_SIZE < growth then none
  else
    let last := byte_to_i_block ((ino.data.length : Int) + (growth : Int) - 1)
    if byte_to_i_block ((ino.data.length : Int) - 1) = last then
      if (NUM_TABLES : Int) ≤ last then none
      else
        match add_sector st (ino.data.indirection.getD last.toNat 0) with
        | none => none
        | some (_, st1) =>
          let ino1 := ino.bump growth
          some (true, ino1, block_write st1 ino.sector ino1.data.bytes)
    else
      match free_map_allocate st with
      | none => some (false, ino, st)
      | some (s, st1) =>
        if (NUM_TABLES : Int) ≤ last then none
        else
          let ino1 := ino.setIndirection last.toNat s
          let st2 := init_indirection_block st1 s
          match add_sector st2 s with
          | none => none
          | some (_, st3) =>
            let ino2 := ino1.bump growth
            some (true, ino2, block_write st3 ino.sector ino2.data.bytes)

/-- Models the first loop of `inode_create`: for `i < num_tables` allocate,
initialise and fill `indirection[i]`; `n` iterations are left.  `none` when a
sector is stored past `indirection[NUM_TABLES - 1]`. -/
def create_tables : Nat → Nat → inode_disk → Store → Option (Bool × inode_disk × Store)
  | 0, _, d, st => some (true, d, st)
  | n + 1, i, d, st =>
    match free_map_allocate st with
    | none => some (false, d, st)
    | some (s, st1) =>
      if NUM_TABLES ≤ i then none
      else
        let d1 := { d with indirection := d.indirection.set i s }
        let st2 := init_indirection_block st1 s
        match fill_indirection_block st2 s with
        | none => none
        | some (false, st3) => some (false, d1, st3)
        | some (true, st3) => create_tables n (i + 1) d1 st3

/-- Models the last loop of `inode_create`: `n` calls of `add_sector (table)`. -/
def create_rest (table : Nat) : Nat → Store → Option (Bool × Store)
  | 0, st => some (true, st)
  | n + 1, st =>
    match add_sector st table with
    | none => none
    | some (false, st1) => some (false, st1)
    | some (true, st1) => create_rest table n st1

/-- Models `inode_create` (the `calloc` of the disk inode succeeding). -/
def inode_create (st : Store) (sector length is_dir : Nat) : Option (Bool × Store) :=
  let sectors := bytes_to_sectors length
  let disk_inode : inode_disk :=
    { length := length, magic := INODE_MAGIC, is_dir := is_dir, parent_directory := 0
      indirection := List.replicate NUM_TABLES 0 }
  let num_tables := sectors / TABLE_SIZE
  match create_tables num_tables 0 disk_inode st with
  | none => none
  | some (false, _, st1) => some (false, st1)
  | some (true, d1, st1) =>
    match free_map_allocate st1 with
    | none => some (false, st1)
    | some (table, st2) =>
      if NUM_TABLES ≤ num_tables then none
      else
        let d2 := { d1 with indirection := d1.indirection.set num_tables table }
        let st3 := init_indirection_block st2 table
        let sectors_left := sectors - num_tables * TABLE_SIZE
        match create_rest table sectors_left st3 with
        | none => none
        | some (false, st4) => some (false, st4)
        | some (true, st4) => some (true, block_write st4 sector d2.bytes)

/-- Models `inode_length`. -/
def inode_length (ino : inode) : Nat := ino.data.length

/-- Models the loop of `inode_read_at`; the first argument bounds the number
of iterations, the accumulator is `(bytes_read, buffer[0 .. bytes_read))`. -/
def read_loop (st : Store) (ino : inode) :
    Nat → Nat → Nat → Nat × List Nat → Option (Nat × List Nat)
  | 0, _, _, acc => some acc
  | fuel + 1, size, offset, acc =>
    if size = 0 then some acc
    else
      match byte_to_sector st ino offset with
      | none => none
      | some sector_idx =>
        if sector_idx = NO_SECTOR then some acc
        else
          let sector_ofs := offset % BLOCK_SECTOR_SIZE
          let inode_left := inode_length ino - offset
          let sector_left := BLOCK_SECTOR_SIZE - sector_ofs
          let min_left := if inode_left < sector_left then inode_left else sector_left
          let chunk_size := if size < min_left then size else min_left
          if chunk_size = 0 then some acc
          else
            let chunk :=
              if sector_ofs = 0 ∧ chunk_size = BLOCK_SECTOR_SIZE then
                block_read st sector_idx
              else
                ((block_read st sector_idx).drop sector_ofs).take chunk_size
            read_loop st ino fuel (size - chunk_size) (offset + chunk_size)
              (acc.1 + chunk_size, acc.2 ++ chunk)

/-- Models `inode_read_at` (the bounce buffer allocated): the number of bytes
read and the bytes stored in the caller's buffer. -/
def inode_read_at (st : Store) (ino : inode) (size offset : Nat) : Option (Nat × List Nat) :=
  read_loop st ino size size offset (0, [])

/-- Models the growth loop of `inode_write_at`; the first argument bounds the
number of iterations.  The result is `false` when `grow_inode` failed. -/
def growth_loop : Nat → Store → inode → Nat → Option (Bool × inode × Store)
  | 0, st, ino, _ => some (true, ino, st)
  | fuel + 1, st, ino, target =>
    if ino.data.length < target then
      let min :=
        if BLOCK_SECTOR_SIZE < target - ino.data.length then BLOCK_SECTOR_SIZE
        else target - ino.data.length
      match grow_inode st ino min with
      | none => none
      | some (false, ino1, st1) => some (false, ino1, st1)
      | some (true, ino1, st1) => growth_loop fuel st1 ino1 target
    else some (true, ino, st)

/-- Models the copy loop of `inode_write_at`; the first argument bounds the
number of iterations, `buffer` is what is left of the caller's buffer. -/
def write_loop (ino : inode) :
    Nat → Store → List Nat → Nat → Nat → Nat → Option (Nat × Store)
  | 0, st, _, _, _, bytes_written => some (bytes_written, st)
  | fuel + 1, st, buffer, size, offset, bytes_written =>
    if size = 0 then some (bytes_written, st)
    else
      let sector_ofs := offset % BLOCK_SECTOR_SIZE
      let sector_left := BLOCK_SECTOR_SIZE - sector_ofs
      let min_left := sector_left
      let chunk_size := if size < min_left then size else min_left
      if chunk_size = 0 then some (bytes_written, st)
      else
        match byte_to_sector st ino offset with
        | none => none
        | some sector_idx =>
          if sector_idx = NO_SECTOR then some (bytes_written, st)
          else
            let st1 :=
              if sector_ofs = 0 ∧ chunk_size = BLOCK_SECTOR_SIZE then
                block_write st sector_idx buffer
              else
                let bounce :=
                  if 0 < sector_ofs ∨ chunk_size < sector_left then block_read st sector_idx
                  else zeros
                block_write st sector_idx
                  (bounce.take sector_ofs ++ buffer.take chunk_size
                    ++ bounce.drop (sector_ofs + chunk_size))
            write_loop ino fuel st1 (buffer.drop chunk_size) (size - chunk_size)
              (offset + chunk_size) (bytes_written + chunk_size)

/-- Models `inode_write_at` (the bounce buffer allocated): the number of bytes
written, the in-memory inode and the device afterwards. -/
def inode_write_at (st : Store) (ino : inode) (buffer : List Nat) (size offset : Nat) :
    Option (Nat × inode × Store) :=
  if ino.deny_write_cnt ≠ 0 then some (0, ino, st)
  else
    match growth_loop (offset + size - ino.data.length) st ino (offset + size) with
    | none => none
    | some (false, ino1, st1) => some (0, ino1, st1)
    | some (true, ino1, st1) =>
      match write_loop ino1 size st1 buffer size offset 0 with
      | none => none
      | some (n, st2) => some (n, ino1, st2)

/-- Models `inode_deny_write`; `none` when the `ASSERT` fails. -/
def inode_deny_write (ino : inode) : Option inode :=
  let ino1 := { ino with deny_write_cnt := ino.deny_write_cnt + 1 }
  if ino1.deny_write_cnt ≤ ino1.open_cnt then some ino1 else none

/-- Models `inode_allow_write`; `none` when an `ASSERT` fails. -/
def inode_allow_write (ino : inode) : Option inode :=
  if ino.data.is_dir ≠ 0 then some ino
  else if 0 < ino.deny_write_cnt ∧ ino.deny_write_cnt ≤ ino.open_cnt then
    some { ino with deny_write_cnt := ino.deny_write_cnt - 1 }
  else none

/-- Models `inode_create` with the outcome of `calloc (1, sizeof *disk_inode)`
as a parameter: with a null `disk_inode` the body is skipped and `success`,
which was initialised to `true`, is returned. -/
def inode_create_calloc (calloc_ok : Bool) (st : Store) (sector length is_dir : Nat) :
    Option (Bool × Store) :=
  if calloc_ok then inode_create st sector length is_dir else some (true, st)

/-! ## In-memory inodes and the open-inode list -/

/-- Models `struct dir`: the address of the in-memory inode and the current
position. -/
structure dir where
  /-- Backing store. -/
  inode : Nat
  /-- Current position. -/
  pos : Nat

/-- Modelled from the spec: `struct file` of `filesys/file.c`, a handle that
pairs an in-memory inode with a cursor. -/
structure file where
  /-- File's inode. -/
  inode : Nat
  /-- Current position. -/
  pos : Nat
  /-- Has `file_deny_write` been called? -/
  deny_write : Bool

/-- The state of the file system: the device and free-map, the heap of
in-memory inodes (`none` once freed), the sentinels of `open_inodes`, and the
running thread's `cur_directory`. -/
structure FS where
  /-- Block device and free-map. -/
  store : Store
  /-- In-memory inodes by address. -/
  heap : List (Option inode)
  /-- Value of `open_inodes.head.next`. -/
  head_next : Link
  /-- Value of `open_inodes.tail.prev`. -/
  tail_prev : Link
  /-- Value of `thread_current ()->cur_directory`. -/
  cur_directory : Option dir

/-- The fields of an in-memory inode other than the links of its `elem`. -/
def inode.payload (ino : inode) : Nat × Int × Bool × Int × inode_disk :=
  (ino.sector, ino.open_cnt, ino.removed, ino.deny_write_cnt, ino.data)

/-- The in-memory inode at address `a`; `none` for a freed object. -/
def FS.deref (st : FS) (a : Nat) : Option inode := st.heap.getD a none

/-- Stores `ino` at address `a`. -/
def FS.assign (st : FS) (a : Nat) (ino : inode) : FS :=
  { st with heap := st.heap.set a (some ino) }

/-- Replaces the device and free-map. -/
def FS.withStore (st : FS) (s : Store) : FS := { st with store := s }

/-- Reads `e->prev`. -/
def get_prev (st : FS) : Link → Option Link
  | .head => some .null
  | .tail => some st.tail_prev
  | .node a => (st.deref a).map (fun ino => ino.elem_prev)
  | .null => none

/-- Performs `e->next = v`. -/
def set_next (st : FS) : Link → Link → Option FS
  | .head, v => some { st with head_next := v }
  | .node a, v => (st.deref a).map (fun ino => st.assign a { ino with elem_next := v })
  | _, _ => none

/-- Performs `e->prev = v`. -/
def set_prev (st : FS) : Link → Link → Option FS
  | .tail, v => some { st with tail_prev := v }
  | .node a, v => (st.deref a).map (fun ino => st.assign a { ino with elem_prev := v })
  | _, _ => none

/-- Models `list_push_front (&open_inodes, &inode->elem)` of
`lib/kernel/list.c`, that is `list_insert (list_begin (list), elem)`. -/
def list_push_front (st : FS) (a : Nat) : Option FS :=
  let before := st.head_next
  match get_prev st before, st.deref a with
  | some bp, some ino =>
    let st1 := st.assign a { ino with elem_prev := bp, elem_next := before }
    match set_next st1 bp (.node a) with
    | some st2 => set_prev st2 before (.node a)
    | none => none
  | _, _ => none

/-- Models `list_remove (&inode->elem)` of `lib/kernel/list.c` for the object
at address `a`:
`elem->prev->next = elem->next; elem->next->prev = elem->prev`. -/
def list_remove (st : FS) (a : Nat) : Option FS :=
  match st.deref a with
  | none => none
  | some ino =>
    if ino.elem_prev = .null ∨ ino.elem_next = .null then none
    else
      match set_next st ino.elem_prev ino.elem_next with
      | some st1 => set_prev st1 ino.elem_next ino.elem_prev
      | none => none

/-- Models `inode_init`: `list_init (&open_inodes)`. -/
def inode_init (st : FS) : FS := { st with head_next := .tail, tail_prev := .head }

/-- Models the search loop of `inode_open` from list element `e`; the first
argument bounds the number of steps.  The result is the address of the open
inode for `sector`, if any. -/
def find_open (st : FS) (sector : Nat) : Nat → Link → Option (Option Nat)
  | 0, _ => none
  | fuel + 1, e =>
    match e with
    | .tail => some none
    | .node a =>
      match st.deref a with
      | none => none
      | some ino => if ino.sector = sector then some (some a) else find_open st sector fuel ino.elem_next
    | _ => none

/-- Models `inode_reopen`. -/
def inode_reopen (st : FS) (p : Option Nat) : Option FS :=
  match p with
  | none => some st
  | some a => (st.deref a).map (fun ino => st.assign a { ino with open_cnt := ino.open_cnt + 1 })

/-- Models `inode_open` (with `malloc` succeeding): the address of the
in-memory inode for `sector`. -/
def inode_open (st : FS) (sector : Nat) : Option (Nat × FS) :=
  match find_open st sector (st.heap.length + 1) st.head_next with
  | none => none
  | some (some a) => (inode_reopen st (some a)).map (fun st1 => (a, st1))
  | some none =>
    let a := st.heap.length
    let ino : inode :=
      { elem_prev := .null, elem_next := .null, sector := sector, open_cnt := 1
        removed := false, deny_write_cnt := 0
        data := inode_disk.ofBytes (block_read st.store sector) }
    (list_push_front { st with heap := st.heap ++ [some ino] } a).map (fun st1 => (a, st1))

/-- Models `inode_get_inumber`. -/
def inode_get_inumber (st : FS) (a : Nat) : Option Nat := (st.deref a).map (fun ino => ino.sector)

/-- Models the deallocation loop of `inode_close`, `i <= limit`, with `n`
iterations left. -/
def close_loop (d : inode_disk) : Nat → Nat → Store → Option Store
  | 0, _, s => some s
  | n + 1, i, s =>
    if NUM_TABLES ≤ i then none
    else
      match ind_block_explode s (d.indirection.getD i 0) with
      | none => none
      | some s1 => close_loop d n (i + 1) s1

/-- Models `inode_close`. -/
def inode_close (st : FS) (p : Option Nat) : Option FS :=
  match p with
  | none => some st
  | some a =>
    match st.deref a with
    | none => none
    | some ino =>
      let ino1 := { ino with open_cnt := ino.open_cnt - 1 }
      let st1 := st.assign a ino1
      if ino1.open_cnt = 0 then
        match list_remove st1 a with
        | none => none
        | some st2 =>
          let limit := bytes_to_sectors ino1.data.length / TABLE_SIZE
          let released :=
            if ino1.removed then
              (close_loop ino1.data (limit + 1) 0 st2.store).map
                (fun s => free_map_release s ino1.sector)
            else some st2.store
          released.map (fun s => { st2 with store := s, heap := st2.heap.set a none })
      else some st1

/-- Models `inode_remove`. -/
def inode_remove (st : FS) (a : Nat) : Option FS :=
  (st.deref a).map (fun ino => st.assign a { ino with removed := true })

/-- The call `inode_read_at (p, ...)` on the in-memory inode at address `a`. -/
def FS.read_at (st : FS) (a size offset : Nat) : Option (Nat × List Nat) :=
  match st.deref a with
  | none => none
  | some ino => inode_read_at st.store ino size offset

/-- The call `inode_write_at (p, ...)` on the in-memory inode at address `a`. -/
def FS.write_at (st : FS) (a : Nat) (buffer : List Nat) (size offset : Nat) :
    Option (Nat × FS) :=
  match st.deref a with
  | none => none
  | some ino =>
    match inode_write_at st.store ino buffer size offset with
    | none => none
    | some (n, ino1, s1) => some (n, (st.assign a ino1).withStore s1)

/-- Reads `e->next`. -/
def get_next (st : FS) : Link → Option Link
  | .head => some st.head_next
  | .node a => (st.deref a).map (fun ino => ino.elem_next)
  | .tail => some .null
  | .null => none

/-- The `open_cnt` of the in-memory inode that the open-inode list holds for
`sector`. -/
def open_cnt_of (fs : FS) (sector : Nat) : Option Int :=
  match find_open fs sector (fs.heap.length + 1) fs.head_next with
  | some (some a) => (fs.deref a).map (fun ino => ino.open_cnt)
  | _ => none

/-- A call of the inode layer on the open-inode list; a pointer argument is an
address or null. -/
inductive RegCall where
  | call_open (sector : Nat)
  | call_reopen (p : Option Nat)
  | call_close (p : Option Nat)

/-- Runs calls of the inode layer one after the other. -/
def run_reg : List RegCall → FS → Option FS
  | [], fs => some fs
  | .call_open sector :: cs, fs =>
    match inode_open fs sector with
    | none => none
    | some (_, fs1) => run_reg cs fs1
  | .call_reopen p :: cs, fs =>
    match inode_reopen fs p with
    | none => none
    | some fs1 => run_reg cs fs1
  | .call_close p :: cs, fs =>
    match inode_close fs p with
    | none => none
    | some fs1 => run_reg cs fs1

/-! ## Directory layer (`directory.c`)

A C string is the list of its bytes before the terminating NUL. -/

/-- The byte `'/'`. -/
def SLASH : Nat := 47

/-- The byte `'.'`. -/
def DOT : Nat := 46

/-- Models `struct dir_entry` as it lies in memory: `name` is the whole
`char[NAME_MAX + 1]` array, `in_use` the byte of the `bool`. -/
structure dir_entry where
  /-- Sector number of header. -/
  inode_sector : Nat
  /-- Null terminated file name (all `NAME_MAX + 1` bytes). -/
  name : List Nat
  /-- In use or free?  (Nonzero: in use.) -/
  in_use : Nat

/-- The value of `sizeof (struct dir_entry)`. -/
def DIR_ENTRY_SIZE : Nat := 20

/-- The object representation of a directory entry. -/
def dir_entry.bytes (e : dir_entry) : List Nat :=
  put32 e.inode_sector ++ (e.name ++ List.replicate (NAME_MAX + 1) 0).take (NAME_MAX + 1)
    ++ [e.in_use]

/-- The directory entry with a given object representation. -/
def dir_entry.ofBytes (bs : List Nat) : dir_entry :=
  { inode_sector := get32 bs 0
    name := ((bs.drop 4).take (NAME_MAX + 1) ++ List.replicate (NAME_MAX + 1) 0).take (NAME_MAX + 1)
    in_use := bs.getD 19 0 }

/-- The C string held in `e.name`. -/
def dir_entry.cname (e : dir_entry) : List Nat := e.name.takeWhile (fun c => c ≠ 0)

/-- Models `strlcpy (e.name, name, sizeof e.name)`: at most `NAME_MAX` bytes
and a NUL are stored, the rest of the array keeps its bytes. -/
def dir_entry.strlcpy_name (e : dir_entry) (name : List Nat) : dir_entry :=
  let n := min name.length NAME_MAX
  { e with name := name.take n ++ [0] ++ e.name.drop (n + 1) }

/-- An object `struct dir_entry e;` before anything is stored in it (modelled
as zero bytes). -/
def dir_entry.blank : dir_entry :=
  { inode_sector := 0, name := List.replicate (NAME_MAX + 1) 0, in_use := 0 }

/-- Models `inode_read_at (inode, &e, sizeof e, ofs)`: the number of bytes
read and the object `e` afterwards, of which only the bytes read changed. -/
def read_entry (st : FS) (a : Nat) (e : dir_entry) (ofs : Nat) : Option (Nat × dir_entry) :=
  match st.read_at a DIR_ENTRY_SIZE ofs with
  | none => none
  | some (n, out) => some (n, dir_entry.ofBytes (out ++ e.bytes.drop out.length))

/-- Models `dir_create`. -/
def dir_create (st : Store) (sector entry_cnt : Nat) : Option (Bool × Store) :=
  inode_create st sector (entry_cnt * DIR_ENTRY_SIZE) 1

/-- Models `dir_open` (with `calloc` succeeding). -/
def dir_open (st : FS) (p : Option Nat) : Option (Option dir × FS) :=
  match p with
  | some a => some (some { inode := a, pos := 0 }, st)
  | none => some (none, st)

/-- Models `dir_open_root`. -/
def dir_open_root (st : FS) : Option (Option dir × FS) :=
  match inode_open st ROOT_DIR_SECTOR with
  | none => none
  | some (a, st1) => dir_open st1 (some a)

/-- Models `dir_reopen`. -/
def dir_reopen (st : FS) (d : dir) : Option (Option dir × FS) :=
  match inode_reopen st (some d.inode) with
  | none => none
  | some st1 => dir_open st1 (some d.inode)

/-- Models `dir_close`. -/
def dir_close (st : FS) (d : Option dir) : Option FS :=
  match d with
  | none => some st
  | some d => inode_close st (some d.inode)

/-- Models `dir_get_inode`. -/
def dir_get_inode (d : dir) : Nat := d.inode

/-- Models the loops of `lookup` that search the directory inode at address
`a` for an in-use entry with `inode_sector == sector`; the first argument
bounds the number of iterations. -/
def scan_sector (st : FS) (a sector : Nat) : Nat → dir_entry → Nat → Option (Option (dir_entry × Nat))
  | 0, _, _ => none
  | fuel + 1, e, ofs =>
    match read_entry st a e ofs with
    | none => none
    | some (n, e1) =>
      if n = DIR_ENTRY_SIZE then
        if e1.in_use ≠ 0 ∧ sector = e1.inode_sector then some (some (e1, ofs))
        else scan_sector st a sector fuel e1 (ofs + DIR_ENTRY_SIZE)
      else some none

/-- Models the loop of `lookup` that searches the directory inode at address
`a` for an in-use entry named `name`; the first argument bounds the number of
iterations. -/
def scan_name (st : FS) (a : Nat) (name : List Nat) :
    Nat → dir_entry → Nat → Option (Option (dir_entry × Nat))
  | 0, _, _ => none
  | fuel + 1, e, ofs =>
    match read_entry st a e ofs with
    | none => none
    | some (n, e1) =>
      if n = DIR_ENTRY_SIZE then
        if e1.in_use ≠ 0 ∧ name = e1.cname then some (some (e1, ofs))
        else scan_name st a name fuel e1 (ofs + DIR_ENTRY_SIZE)
      else some none

/-- An iteration bound for a scan of the entries of the inode at address `a`:
one more than the number of whole entries below its length. -/
def scan_fuel (st : FS) (a : Nat) : Nat :=
  match st.deref a with
  | none => 1
  | some ino => ino.data.length / DIR_ENTRY_SIZE + 1

/-- Models `lookup`: the entry found and its byte offset, if any.  The special
cases open and close the parent (and grandparent) directory. -/
def lookup (st : FS) (d : dir) (name : List Nat) : Option (Option (dir_entry × Nat) × FS) :=
  match st.deref d.inode with
  | none => none
  | some dino =>
    if name.getD 0 0 = 0 ∨ (name.getD 0 0 = DOT ∧ name.getD 1 0 = 0) then
      match inode_open st dino.data.parent_directory with
      | none => none
      | some (pa, st1) =>
        match scan_sector st1 pa dino.sector (scan_fuel st1 pa) dir_entry.blank 0 with
        | none => none
        | some r => (dir_close st1 (some { inode := pa, pos := 0 })).map (fun st2 => (r, st2))
    else if name.getD 0 0 = DOT ∧ name.getD 1 0 = DOT ∧ name.getD 2 0 = 0 then
      match inode_open st dino.data.parent_directory with
      | none => none
      | some (pa, st1) =>
        match st1.deref pa with
        | none => none
        | some pino =>
          match inode_open st1 pino.data.parent_directory with
          | none => none
          | some (ga, st2) =>
            match st2.deref pa with
            | none => none
            | some pino2 =>
              match scan_sector st2 ga pino2.sector (scan_fuel st2 ga) dir_entry.blank 0 with
              | none => none
              | some r =>
                match dir_close st2 (some { inode := pa, pos := 0 }) with
                | none => none
                | some st3 =>
                  (dir_close st3 (some { inode := ga, pos := 0 })).map (fun st4 => (r, st4))
    else
      match scan_name st d.inode name (scan_fuel st d.inode) dir_entry.blank 0 with
      | none => none
      | some r => some (r, st)

/-- Models the tokens that `strtok_r (s, "/", &save_ptr)` yields in turn: the
maximal runs of bytes other than `'/'`; `cur` is the token being read. -/
def strtok_loop : List Nat → List Nat → List (List Nat)
  | [], cur => if cur = [] then [] else [cur]
  | c :: cs, cur =>
    if c = SLASH then
      if cur = [] then strtok_loop cs [] else cur :: strtok_loop cs []
    else strtok_loop cs (cur ++ [c])

/-- Models the token loop of `dir_lookup`: `new_inode` is the inode of the
current level. -/
def dir_lookup_loop : List (List Nat) → FS → Nat → Option (Option Nat × FS)
  | [], st, new_inode => some (some new_inode, st)
  | token :: rest, st, new_inode =>
    let directory : dir := { inode := new_inode, pos := 0 }
    match lookup st directory token with
    | none => none
    | some (some (e, _), st1) =>
      match inode_open st1 e.inode_sector with
      | none => none
      | some (next, st2) =>
        match dir_close st2 (some directory) with
        | none => none
        | some st3 => dir_lookup_loop rest st3 next
    | some (none, st1) =>
      match dir_close st1 (some directory) with
      | none => none
      | some st2 => some (none, st2)

/-- Models `dir_lookup`: the value stored in `*inode` (null when the function
returns false).  `short_name` holds at most `NAME_MAX` bytes of `name`, and
the walk starts from a `memcpy` of `dir->inode`. -/
def dir_lookup (st : FS) (d : Option dir) (name : List Nat) : Option (Option Nat × FS) :=
  match d with
  | none => none
  | some d =>
    if name.getD 0 0 = 0 then some (none, st)
    else if name.getD 0 0 = SLASH ∧ name.getD 1 0 = 0 then
      match dir_open_root st with
      | some (some r, st1) => some (some r.inode, st1)
      | _ => none
    else if name.getD 0 0 = DOT ∧ name.getD 1 0 = 0 then
      match st.deref d.inode with
      | none => none
      | some dino => (inode_open st dino.sector).map (fun r => (some r.1, r.2))
    else
      let short_name := name.take NAME_MAX
      match st.deref d.inode with
      | none => none
      | some dino =>
        let new_inode := st.heap.length
        let st1 : FS := { st with heap := st.heap ++ [some dino] }
        dir_lookup_loop (strtok_loop short_name []) st1 new_inode

/-- The resolution that the specification describes for `dir_lookup`: the
whole of `name` is split on `'/'`, empty segments are dropped, and the segments
are looked up one after the other starting from `dir`, each next directory
being opened from the `inode_sector` found. -/
def dir_lookup_spec (st : FS) (d : dir) (name : List Nat) : Option (Option Nat × FS) :=
  match st.deref d.inode with
  | none => none
  | some dino =>
    dir_lookup_loop (strtok_loop name []) { st with heap := st.heap ++ [some dino] } st.heap.length

/-- Models the free-slot loop of `dir_add`: the offset of the first slot that
is not in use (or end of file) and the object `e` at loop exit. -/
def free_slot (st : FS) (a : Nat) : Nat → dir_entry → Nat → Option (dir_entry × Nat)
  | 0, _, _ => none
  | fuel + 1, e, ofs =>
    match read_entry st a e ofs with
    | none => none
    | some (n, e1) =>
      if n = DIR_ENTRY_SIZE then
        if e1.in_use = 0 then some (e1, ofs)
        else free_slot st a fuel e1 (ofs + DIR_ENTRY_SIZE)
      else some (e1, ofs)

/-- Models the statements after the label `done` of `dir_add`: the disk inode
at `inode_sector` gets `parent_directory = dir->inode->sector`. -/
def set_parent (st : FS) (d : dir) (inode_sector : Nat) : Option FS :=
  match st.deref d.inode with
  | none => none
  | some dino =>
    let t := inode_disk.ofBytes (block_read st.store inode_sector)
    let t1 := { t with parent_directory := dino.sector }
    some (st.withStore (block_write st.store inode_sector t1.bytes))

/-- Models `dir_add`. -/
def dir_add (st : FS) (d : dir) (name : List Nat) (inode_sector : Nat) : Option (Bool × FS) :=
  if name.getD 0 0 = 0 ∨ NAME_MAX < name.length then some (false, st)
  else
    match lookup st d name with
    | none => none
    | some (some _, st1) => (set_parent st1 d inode_sector).map (fun st2 => (false, st2))
    | some (none, st1) =>
      match free_slot st1 d.inode (scan_fuel st1 d.inode) dir_entry.blank 0 with
      | none => none
      | some (e, ofs) =>
        let e1 := { e with in_use := 1 }
        let e2 := e1.strlcpy_name name
        let e3 := { e2 with inode_sector := inode_sector }
        match st1.write_at d.inode e3.bytes DIR_ENTRY_SIZE ofs with
        | none => none
        | some (n, st2) =>
          (set_parent st2 d inode_sector).map (fun st3 => (decide (n = DIR_ENTRY_SIZE), st3))

/-- Models the emptiness loop of `dir_remove` over the target directory at
address `a`: `true` when an in-use entry is met. -/
def any_in_use (st : FS) (a : Nat) : Nat → dir_entry → Nat → Option Bool
  | 0, _, _ => none
  | fuel + 1, e, ofsp =>
    match read_entry st a e ofsp with
    | none => none
    | some (n, e1) =>
      if n = DIR_ENTRY_SIZE then
        if e1.in_use ≠ 0 then some true
        else any_in_use st a fuel e1 (ofsp + DIR_ENTRY_SIZE)
      else some false

/-- Models `dir_remove`. -/
def dir_remove (st : FS) (d : dir) (name : List Nat) : Option (Bool × FS) :=
  match lookup st d name with
  | none => none
  | some (none, st1) => (inode_close st1 none).map (fun st2 => (false, st2))
  | some (some (e, ofs), st1) =>
    match inode_open st1 e.inode_sector with
    | none => none
    | some (a, st2) =>
      match st2.deref a with
      | none => none
      | some ino =>
        if ino.data.is_dir ≠ 0 ∧ 1 < ino.open_cnt then
          (inode_close st2 (some a)).map (fun st3 => (false, st3))
        else
          let nonempty :=
            if ino.data.is_dir ≠ 0 then any_in_use st2 a (scan_fuel st2 a) dir_entry.blank 0
            else some false
          match nonempty with
          | none => none
          | some true => some (false, st2)
          | some false =>
            let e1 := { e with in_use := 0 }
            match st2.write_at d.inode e1.bytes DIR_ENTRY_SIZE ofs with
            | none => none
            | some (n, st3) =>
              if n ≠ DIR_ENTRY_SIZE then
                (inode_close st3 (some a)).map (fun st4 => (false, st4))
              else
                match inode_remove st3 a with
                | none => none
                | some st4 => (inode_close st4 (some a)).map (fun st5 => (true, st5))

/-- Models the loop of `dir_readdir`. -/
def readdir_loop (st : FS) (a : Nat) : Nat → dir_entry → Nat → Option (Option (List Nat) × Nat)
  | 0, _, _ => none
  | fuel + 1, e, pos =>
    match read_entry st a e pos with
    | none => none
    | some (n, e1) =>
      if n = DIR_ENTRY_SIZE then
        if e1.in_use ≠ 0 then some (some (e1.cname.take NAME_MAX), pos + DIR_ENTRY_SIZE)
        else readdir_loop st a fuel e1 (pos + DIR_ENTRY_SIZE)
      else some (none, pos)

/-- Models `dir_readdir`: the name stored in `name` when the function returns
true, and the directory handle with its position advanced. -/
def dir_readdir (st : FS) (d : dir) : Option (Option (List Nat) × dir) :=
  match readdir_loop st d.inode (scan_fuel st d.inode) dir_entry.blank d.pos with
  | none => none
  | some (r, pos) => some (r, { d with pos := pos })

/-- Calls `dir_readdir` on a handle until it returns false and collects the
names returned; the first argument bounds the number of calls. -/
def readdir_all (st : FS) : Nat → dir → Option (List (List Nat) × dir)
  | 0, _ => none
  | fuel + 1, d =>
    match dir_readdir st d with
    | none => none
    | some (none, d1) => some ([], d1)
    | some (some name, d1) => (readdir_all st fuel d1).map (fun r => (name :: r.1, r.2))

/-- Models the first loop of the path split: the index of the last `'/'` of
`name`, or 0; `i` is the index of the head of the list. -/
def last_slash : List Nat → Nat → Nat → Nat
  | [], _, prev => prev
  | c :: cs, i, prev => last_slash cs (i + 1) (if c = SLASH then i else prev)

/-- Models the path split of `dir_make`: `(name_copy, name_copy2)`, the name
of the new directory and the path of its parent. -/
def dir_make_split (name : List Nat) : List Nat × List Nat :=
  let prev := last_slash name 0 0
  let min := (name.drop prev).length
  let name_copy :=
    if name.getD prev 0 = SLASH then (name.drop (prev + 1)).take min
    else (name.drop prev).take min
  let name_copy2 := (name.take name.length).take prev
  (name_copy, name_copy2)

/-- Models `dir_make`.  `none` when the `ASSERT` on the parent lookup fails or
`strlcpy` runs past the `calloc`ed entry. -/
def dir_make (st : FS) (name : List Nat) : Option (Bool × FS) :=
  if name.getD 0 0 = 0 then some (false, st)
  else
    let opened :=
      if name.getD 0 0 = SLASH then dir_open_root st else some (st.cur_directory, st)
    match opened with
    | none => none
    | some (lookup_dir, st1) =>
      match dir_lookup st1 lookup_dir name with
      | none => none
      | some (some t, st2) =>
        let closed := if name.getD 0 0 = SLASH then dir_close st2 lookup_dir else some st2
        match closed with
        | none => none
        | some st3 => (inode_close st3 (some t)).map (fun st4 => (false, st4))
      | some (none, st2) =>
        let (name_copy, name_copy2) := dir_make_split name
        if DIR_ENTRY_SIZE - 4 < name_copy.length + 1 then none
        else
          let (inode_sector, s3) :=
            match free_map_allocate st2.store with
            | none => (0, st2.store)
            | some r => r
          match dir_create s3 inode_sector 1 with
          | none => none
          | some (_, s4) =>
            let st4 := st2.withStore s4
            let added :=
              if name_copy2.getD 0 0 ≠ 0 then
                match dir_lookup st4 lookup_dir name_copy2 with
                | some (some t, st5) =>
                  match dir_add st5 { inode := t, pos := 0 } name_copy inode_sector with
                  | none => none
                  | some (_, st6) => dir_close st6 (some { inode := t, pos := 0 })
                | _ => none
              else
                match lookup_dir with
                | none => none
                | some d => (dir_add st4 d name_copy inode_sector).map (fun r => r.2)
            match added with
            | none => none
            | some st7 =>
              let closed := if name.getD 0 0 = SLASH then dir_close st7 lookup_dir else some st7
              closed.map (fun st8 => (true, st8))

/-- Models `change_dir`. -/
def change_dir (st : FS) (name : List Nat) : Option (Bool × FS) :=
  if name.getD 0 0 = 0 then some (false, st)
  else
    let do_free_dir := decide (name.getD 0 0 = SLASH)
    let opened := if do_free_dir then dir_open_root st else some (st.cur_directory, st)
    match opened with
    | none => none
    | some (lookup_dir, st1) =>
      match dir_lookup st1 lookup_dir name with
      | none => none
      | some (none, st2) =>
        let closed := if do_free_dir then dir_close st2 lookup_dir else some st2
        closed.map (fun st3 => (false, st3))
      | some (some i, st2) =>
        let closed := if do_free_dir then dir_close st2 lookup_dir else some st2
        match closed with
        | none => none
        | some st3 =>
          match dir_close st3 st3.cur_directory with
          | none => none
          | some st4 =>
            match dir_open st4 (some i) with
            | none => none
            | some (nd, st5) => some (true, { st5 with cur_directory := nd })

/-- The `is_dir` field of the inode of the task's current directory. -/
def cur_is_dir (fs : FS) : Option Nat :=
  fs.cur_directory.bind (fun d => (fs.deref d.inode).map (fun ino => ino.data.is_dir))

/-! ## File system facade (`filesys.c`) -/

/-- Modelled from the spec: `file_open` of `filesys/file.c`, which wraps an
inode in a file handle (and yields null for a null inode). -/
def file_open (p : Option Nat) : Option file :=
  p.map (fun a => { inode := a, pos := 0, deny_write := false })

/-- Models the path split of `filesys_create`: `(name_copy, name_copy2)`. -/
def filesys_create_split (name : List Nat) : List Nat × List Nat :=
  let prev := last_slash name 0 0
  let min := (name.drop prev).length
  let name_copy :=
    if name.getD prev 0 = SLASH then (name.drop (prev + 1)).take min
    else (name.drop prev).take min
  let name_copy2 := (name.take name.length).take prev
  (name_copy, name_copy2)

/-- Models `filesys_create`. -/
def filesys_create (st : FS) (name : List Nat) (initial_size : Nat) : Option (Bool × FS) :=
  let (name_copy, name_copy2) := filesys_create_split name
  let opened := if name.getD 0 0 = SLASH then dir_open_root st else some (st.cur_directory, st)
  match opened with
  | none => none
  | some (dir0, st1) =>
    let parent :=
      if name_copy2.getD 0 0 ≠ 0 then
        match dir_lookup st1 dir0 name_copy2 with
        | none => none
        | some (none, st2) => some (false, none, st2)
        | some (some p, st2) => (dir_open st2 (some p)).map (fun r => (true, r.1, r.2))
      else some (true, dir0, st1)
    match parent with
    | none => none
    | some (false, _, st2) => some (false, st2)
    | some (true, dir1, st2) =>
      let created : Option (Bool × Nat × FS) :=
        match dir1 with
        | none => some (false, 0, st2)
        | some d =>
          match free_map_allocate st2.store with
          | none => some (false, 0, st2)
          | some (inode_sector, s3) =>
            match inode_create s3 inode_sector initial_size 0 with
            | none => none
            | some (false, s4) => some (false, inode_sector, st2.withStore s4)
            | some (true, s4) =>
              (dir_add (st2.withStore s4) d name_copy inode_sector).map
                (fun r => (r.1, inode_sector, r.2))
      match created with
      | none => none
      | some (success, inode_sector, st3) =>
        let st4 :=
          if ¬ success ∧ inode_sector ≠ 0 then st3.withStore (free_map_release st3.store inode_sector)
          else st3
        let closed := if name.getD 0 0 = SLASH then dir_close st4 dir1 else some st4
        closed.map (fun st5 => (success, st5))

/-- Models `filesys_open`: the file handle, or null. -/
def filesys_open (st : FS) (name : List Nat) : Option (Option file × FS) :=
  let opened := if name.getD 0 0 = SLASH then dir_open_root st else some (st.cur_directory, st)
  match opened with
  | none => none
  | some (d, st1) =>
    let looked :=
      match d with
      | none => some (none, st1)
      | some _ => dir_lookup st1 d name
    match looked with
    | none => none
    | some (none, st2) => some (none, st2)
    | some (some i, st2) =>
      let closed := if name.getD 0 0 = SLASH then dir_close st2 d else some st2
      closed.map (fun st3 => (file_open (some i), st3))

/-- Models the path split of `filesys_remove`: `(name_copy, name_copy2)`. -/
def filesys_remove_split (name : List Nat) : List Nat × List Nat :=
  let prev := last_slash name 0 0
  let min := (name.drop prev).length
  let name_copy :=
    if name.getD prev 0 = SLASH then (name.drop (prev + 1)).take min
    else (name.drop prev).take min
  let name_copy2 := (name.take name.length).take prev
  (name_copy, name_copy2)

/-- Models `filesys_remove`. -/
def filesys_remove (st : FS) (name : List Nat) : Option (Bool × FS) :=
  let opened := if name.getD 0 0 = SLASH then dir_open_root st else some (st.cur_directory, st)
  match opened with
  | none => none
  | some (dir0, st1) =>
    let (name_copy, name_copy2) := filesys_remove_split name
    let parent :=
      if name_copy2.getD 0 0 ≠ 0 then
        match dir_lookup st1 dir0 name_copy2 with
        | none => none
        | some (none, st2) => some (false, none, st2)
        | some (some p, st2) => (dir_open st2 (some p)).map (fun r => (true, r.1, r.2))
      else some (true, dir0, st1)
    match parent with
    | none => none
    | some (false, _, st2) => some (false, st2)
    | some (true, dir1, st2) =>
      let removed :=
        match dir1 with
        | none => some (false, st2)
        | some d => dir_remove st2 d name_copy
      match removed with
      | none => none
      | some (success, st3) =>
        let closed := if name.getD 0 0 = SLASH then dir_close st3 dir1 else some st3
        closed.map (fun st4 => (success, st4))

/-- Modelled from the spec: `free_map_init` of `filesys/free-map.c` for a
device of `n` sectors: every sector free but the free-map's and the root
directory's. -/
def free_map_init (n : Nat) : List Bool :=
  ((List.replicate n false).set FREE_MAP_SECTOR true).set ROOT_DIR_SECTOR true

/-- Models `do_format`.  Modelled from the spec: `free_map_create`, which
creates the free-map's own storage, an inode at sector 0 for a file of one bit
per sector rounded up to whole 32-bit words.  `none` stands for `PANIC`. -/
def do_format (st : Store) : Option Store :=
  match inode_create st FREE_MAP_SECTOR ((st.free_map.length + 31) / 32 * 4) 0 with
  | some (true, st1) =>
    match dir_create st1 ROOT_DIR_SECTOR 16 with
    | some (true, st2) => some st2
    | _ => none
  | _ => none

/-- Models `filesys_init` on a device of `n` zeroed sectors.  Modelled from
the spec: `free_map_init` and `free_map_open`, the latter keeping the
free-map's inode open. -/
def filesys_init (n : Nat) (format : Bool) : Option FS :=
  let st0 : Store := { disk := fun _ => zeros, free_map := free_map_init n }
  let formatted := if format then do_format st0 else some st0
  match formatted with
  | none => none
  | some st1 =>
    let fs := inode_init
      { store := st1, heap := [], head_next := .null, tail_prev := .null, cur_directory := none }
    (inode_open fs FREE_MAP_SECTOR).map (fun r => r.2)

/-- Modelled from the spec: the initial task after `filesys_init`, which holds
one open directory handle on the root as its current directory. -/
def boot (n : Nat) : Option FS :=
  match filesys_init n true with
  | none => none
  | some fs =>
    match dir_open_root fs with
    | none => none
    | some (d, fs1) => some { fs1 with cur_directory := d }

/-- The bytes of a string literal, for writing paths. -/
def cstr (s : String) : List Nat := s.toList.map Char.toNat

/-! ## Well-formed inodes

The vocabulary of the statements: the indirection tree of an inode as it lies
on the device, and the free-map's view of it. -/

/-- The two-level capacity `NUM_TABLES * TABLE_SIZE * BLOCK_SECTOR_SIZE`. -/
def CAPACITY : Nat := NUM_TABLES * TABLE_SIZE * BLOCK_SECTOR_SIZE

/-- The `length` header of the indirection block stored at sector `b`. -/
def headerAt (st : Store) (b : Nat) : Nat := get32 (st.disk b) 0

/-- Entry `i` of the indirection block stored at sector `b`. -/
def entryAt (st : Store) (b i : Nat) : Nat := get32 (st.disk b) (4 + 4 * i)

/-- The `k`-th data sector of a file: entry `k mod TABLE_SIZE` of the block at
`indirection[k / TABLE_SIZE]`. -/
def dataSector (st : Store) (ind : List Nat) (k : Nat) : Nat :=
  entryAt st (ind.getD (k / TABLE_SIZE) 0) (k % TABLE_SIZE)

/-- Sector `s` is marked allocated in the free-map. -/
def allocated (st : Store) (s : Nat) : Prop := st.free_map.getD s false = true

instance (st : Store) (s : Nat) : Decidable (allocated st s) :=
  inferInstanceAs (Decidable (st.free_map.getD s false = true))

/-- The number of free sectors of the free-map. -/
def freeCount (st : Store) : Nat := st.free_map.count false

/-- The indirection tree of the inode at sector `isec` with indirection array
`ind`, `nb` indirection blocks and `n` data sectors: the blocks hold the data
sectors in order (Invariant 2: the headers add up to `n`), every sector of the
tree is allocated in the free-map, and no sector occurs twice. -/
structure Layout (st : Store) (isec : Nat) (ind : List Nat) (nb n : Nat) : Prop where
  fm_bound : st.free_map.length ≤ NO_SECTOR
  covers : n ≤ nb * TABLE_SIZE
  self_alloc : allocated st isec
  blk_alloc : ∀ j, j < nb → allocated st (ind.getD j 0)
  blk_hdr : ∀ j, j < nb → headerAt st (ind.getD j 0) = min TABLE_SIZE (n - j * TABLE_SIZE)
  data_alloc : ∀ k, k < n → allocated st (dataSector st ind k)
  data_len : ∀ k, k < n → (st.disk (dataSector st ind k)).length = BLOCK_SECTOR_SIZE
  blk_ne_self : ∀ j, j < nb → ind.getD j 0 ≠ isec
  data_ne_self : ∀ k, k < n → dataSector st ind k ≠ isec
  blk_ne_data : ∀ j k, j < nb → k < n → ind.getD j 0 ≠ dataSector st ind k
  blk_inj : ∀ j j', j < nb → j' < nb → ind.getD j 0 = ind.getD j' 0 → j = j'
  data_inj : ∀ k k', k < n → k' < n → dataSector st ind k = dataSector st ind k' → k = k'

/-- The number of indirection blocks that hold `n` data sectors; an empty file
keeps its first block. -/
def blocksFor (n : Nat) : Nat := (n - 1) / TABLE_SIZE + 1

/-- A well-formed inode: its length is within the two-level capacity and its
`bytes_to_sectors (length)` data sectors are laid out in its indirection
blocks as `Layout` says. -/
structure WF (st : Store) (ino : inode) : Prop where
  cap : ino.data.length ≤ CAPACITY
  ind_len : ino.data.indirection.length = NUM_TABLES
  layout : Layout st ino.sector ino.data.indirection
    (blocksFor (bytes_to_sectors ino.data.length)) (bytes_to_sectors ino.data.length)

/-- The byte at position `pos` of the file, located through `byte_to_sector`
(0 where `byte_to_sector` yields no sector). -/
def fileByte (st : Store) (ino : inode) (pos : Nat) : Nat :=
  match byte_to_sector st ino pos with
  | some s => (block_read st s).getD (pos % BLOCK_SECTOR_SIZE) 0
  | none => 0

/-- Byte `pos` of the data sectors of a file, counted from the start of the
first data sector (also defined past the length, up to the end of the last
data sector). -/
def diskByte (st : Store) (ind : List Nat) (pos : Nat) : Nat :=
  (st.disk (dataSector st ind (pos / BLOCK_SECTOR_SIZE))).getD (pos % BLOCK_SECTOR_SIZE) 0

/-- The number of free-map allocations that growing a file from `n` to `n'`
data sectors makes: one per new data sector and one per indirection block
entered. -/
def allocCount (n n' : Nat) : Nat :=
  (n' - n) + ((n' - 1) / TABLE_SIZE - (n - 1) / TABLE_SIZE)

/-- The effect of growth on an inode and the device, from `(st, ino)` to
`(st', ino')`: the inode stays well-formed, only `length` and `indirection`
change in memory, the data sectors it had stay where they were, sectors of
other owners are not written, new indirection blocks and data sectors come
from the free-map and the new data sectors are zeroed. -/
structure Grown (st : Store) (ino : inode) (st' : Store) (ino' : inode) : Prop where
  wf : WF st' ino'
  same : ino' = { ino with data := { ino.data with
    length := ino'.data.length, indirection := ino'.data.indirection } }
  len_le : ino.data.length ≤ ino'.data.length
  ind_same : ∀ j, j < blocksFor (bytes_to_sectors ino.data.length) →
    ino'.data.indirection.getD j 0 = ino.data.indirection.getD j 0
  blk_fresh : ∀ j, blocksFor (bytes_to_sectors ino.data.length) ≤ j →
    j < blocksFor (bytes_to_sectors ino'.data.length) →
    ¬ allocated st (ino'.data.indirection.getD j 0)
  data_same : ∀ k, k < bytes_to_sectors ino.data.length →
    dataSector st' ino'.data.indirection k = dataSector st ino.data.indirection k
  frame : ∀ x, allocated st x → x ≠ ino.sector →
    (∀ j, j < blocksFor (bytes_to_sectors ino.data.length) → x ≠ ino.data.indirection.getD j 0) →
    st'.disk x = st.disk x
  fresh_zero : ∀ k, bytes_to_sectors ino.data.length ≤ k →
    k < bytes_to_sectors ino'.data.length →
    st'.disk (dataSector st' ino'.data.indirection k) = zeros
  alloc_mono : ∀ x, allocated st x → allocated st' x
  count : freeCount st' + allocCount (bytes_to_sectors ino.data.length)
    (bytes_to_sectors ino'.data.length) = freeCount st
  synced : st'.disk ino.sector = ino'.data.bytes ∨ (st' = st ∧ ino' = ino)
  ind_rest : ∀ j, blocksFor (bytes_to_sectors ino'.data.length) ≤ j →
    ino'.data.indirection.getD j 0 = ino.data.indirection.getD j 0
  data_fresh : ∀ k, bytes_to_sectors ino.data.length ≤ k →
    k < bytes_to_sectors ino'.data.length →
    ¬ allocated st (dataSector st' ino'.data.indirection k)

/-! ## Directory entries and the open-inode list -/

/-- The directory entry stored at byte offset `ofs` of the file of `ino`. -/
def slotAt (st : Store) (ino : inode) (ofs : Nat) : dir_entry :=
  dir_entry.ofBytes ((List.range DIR_ENTRY_SIZE).map (fun i => fileByte st ino (ofs + i)))

/-- The names of the in-use entries among the `n` entry slots that start at
slot `k`, in slot order. -/
def names_from (st : Store) (ino : inode) : Nat → Nat → List (List Nat)
  | 0, _ => []
  | n + 1, k =>
    if (slotAt st ino (k * DIR_ENTRY_SIZE)).in_use ≠ 0 then
      (slotAt st ino (k * DIR_ENTRY_SIZE)).cname :: names_from st ino n (k + 1)
    else names_from st ino n (k + 1)

/-- The names of the in-use entries of a directory of `m` entry slots, in slot
order. -/
def in_use_names (st : Store) (ino : inode) (m : Nat) : List (List Nat) :=
  names_from st ino m 0

/-- The first in-use entry among the `n` entry slots that start at slot `k`:
its name cut to `NAME_MAX` bytes and the offset of the slot after it; without
one, the offset past the `n` slots. -/
def next_name (st : Store) (ino : inode) : Nat → Nat → Option (List Nat) × Nat
  | 0, k => (none, k * DIR_ENTRY_SIZE)
  | n + 1, k =>
    if (slotAt st ino (k * DIR_ENTRY_SIZE)).in_use ≠ 0 then
      (some ((slotAt st ino (k * DIR_ENTRY_SIZE)).cname.take NAME_MAX), (k + 1) * DIR_ENTRY_SIZE)
    else next_name st ino n (k + 1)

/-- The first in-use entry named `name` among the `n` entry slots that start
at slot `k`, with its byte offset. -/
def find_name (st : Store) (ino : inode) (name : List Nat) : Nat → Nat → Option (dir_entry × Nat)
  | 0, _ => none
  | n + 1, k =>
    if (slotAt st ino (k * DIR_ENTRY_SIZE)).in_use ≠ 0
        ∧ name = (slotAt st ino (k * DIR_ENTRY_SIZE)).cname then
      some (slotAt st ino (k * DIR_ENTRY_SIZE), k * DIR_ENTRY_SIZE)
    else find_name st ino name n (k + 1)

/-- The element at position `i` of the open-inode list whose inodes are at the
addresses `l`: position 0 is the head sentinel, position `l.length + 1` the
tail sentinel. -/
def lnk (l : List Nat) (i : Nat) : Link :=
  if i = 0 then .head else if i ≤ l.length then .node (l.getD (i - 1) 0) else .tail

/-- The open-inode list holds exactly the in-memory inodes at the addresses
`l`, in this order: the `next` and `prev` pointers chain head, the inodes and
tail; every in-memory inode is in the list; no two of them have the same
sector. -/
structure Registry (fs : FS) (l : List Nat) : Prop where
  links : ∀ i, i ≤ l.length →
    get_next fs (lnk l i) = some (lnk l (i + 1)) ∧ get_prev fs (lnk l (i + 1)) = some (lnk l i)
  nodup : l.Nodup
  live : ∀ a ino, fs.deref a = some ino → a ∈ l
  sectors : ∀ a b x y, fs.deref a = some x → fs.deref b = some y → x.sector = y.sector → a = b

/-! ## Example states and call sequences -/

/-- A device of 256 zeroed sectors on which sectors 0 to 3 are allocated: the
free-map's, the root directory's, an inode's and that inode's first
indirection block. -/
def exampleStore : Store :=
  { disk := fun _ => zeros, free_map := List.replicate 4 true ++ List.replicate 252 false }

/-- The in-memory inode of an empty file at sector 2 whose first indirection
block is sector 3, as `inode_create (2, 0, 0)` and `inode_open (2)` leave it;
it is the only element of the open-inode list. -/
def exampleInode : inode :=
  { elem_prev := .head, elem_next := .tail, sector := 2, open_cnt := 1, removed := false
    deny_write_cnt := 0
    data :=
      { length := 0, magic := INODE_MAGIC, is_dir := 0, parent_directory := 0
        indirection := 3 :: List.replicate 123 0 } }

/-- The in-memory inode of a five-byte file at sector 2. -/
def helloInode : inode :=
  { exampleInode with data := { exampleInode.data with length := 5 } }

/-- The device `exampleStore` with one more sector allocated, sector 4, which
holds the five bytes `hello` as the only data sector recorded in the
indirection block at sector 3; sector 2 holds the disk inode of `helloInode`. -/
def helloStore : Store :=
  { disk := fun s =>
      if s = 2 then helloInode.data.bytes
      else if s = 3 then ({ length := 1, sectors := [4] } : indirection_block).bytes
      else if s = 4 then [104, 101, 108, 108, 111] ++ List.replicate 507 0
      else zeros
    free_map := List.replicate 5 true ++ List.replicate 251 false }

/-- The file system state with no in-memory inode, as `inode_init` leaves it. -/
def emptyFS (st : Store) : FS :=
  { store := st, heap := [], head_next := .tail, tail_prev := .head, cur_directory := none }

/-- The file system state whose only in-memory inode is `ino`, at address 0. -/
def exampleFS (st : Store) (ino : inode) : FS :=
  { store := st, heap := [some ino], head_next := .node 0, tail_prev := .node 0
    cur_directory := none }

/-- Runs calls that return a `bool` one after the other and collects the
values returned. -/
def run_calls : List (FS → Option (Bool × FS)) → FS → Option (List Bool × FS)
  | [], st => some ([], st)
  | f :: fs, st =>
    match f st with
    | none => none
    | some (b, st1) => (run_calls fs st1).map (fun r => (b :: r.1, r.2))

/-- The in-memory inode of an empty directory at sector 2 whose first
indirection block is sector 3, opened once. -/
def exampleDir : inode :=
  { exampleInode with data := { exampleInode.data with is_dir := 1 } }

/-- The in-memory inode of a directory of three entry slots at sector 2. -/
def listingDir : inode :=
  { exampleInode with data := { exampleInode.data with length := 60, is_dir := 1 } }

/-- The device `exampleStore` with sector 4 allocated as the only data sector
of `listingDir`: slot 0 is in use and names the inode at sector 9 `a`, slot 1
is free and still holds the name `b`, slot 2 is in use and names the inode at
sector 11 `c`. -/
def listingStore : Store :=
  { disk := fun s =>
      if s = 2 then listingDir.data.bytes
      else if s = 3 then ({ length := 1, sectors := [4] } : indirection_block).bytes
      else if s = 4 then
        ({ inode_sector := 9, name := [97], in_use := 1 } : dir_entry).bytes
          ++ ({ inode_sector := 10, name := [98], in_use := 0 } : dir_entry).bytes
          ++ ({ inode_sector := 11, name := [99], in_use := 1 } : dir_entry).bytes
          ++ List.replicate 452 0
      else zeros
    free_map := List.replicate 5 true ++ List.replicate 251 false }

/-- The device `exampleStore` with every sector marked allocated in the
free-map: no allocation can succeed. -/
def fullStore : Store :=
  { exampleStore with free_map := List.replicate 256 true }

/-! ## Lists of bytes -/

theorem getD_set_eq {α : Type} (l : List α) (a i : Nat) (v d : α) :
    (l.set a v).getD i d = if a = i ∧ a < l.length then v else l.getD i d := by
  simp only [List.getD_eq_getElem?_getD, List.getElem?_set]
  by_cases h1 : a = i
  · by_cases h2 : a < l.length
    · simp [h1, h2]
      subst h1; simp [h2]
    · subst h1
      simp [h2]
      have : l[a]? = none := by simp; omega
      simp [this]
  · simp [h1]

theorem getD_take_eq {α : Type} (l : List α) (n i : Nat) (d : α) :
    (l.take n).getD i d = if i < n then l.getD i d else d := by
  simp only [List.getD_eq_getElem?_getD, List.getElem?_take]
  split <;> simp

theorem getD_drop_eq {α : Type} (l : List α) (n i : Nat) (d : α) :
    (l.drop n).getD i d = l.getD (n + i) d := by
  simp only [List.getD_eq_getElem?_getD, List.getElem?_drop]

theorem getD_replicate_eq {α : Type} (n i : Nat) (a : α) :
    (List.replicate n a).getD i a = a := by
  simp only [List.getD_eq_getElem?_getD, List.getElem?_replicate]
  split <;> simp

theorem getD_map_range {α : Type} (f : Nat → α) (n i : Nat) (d : α) (h : i < n) :
    ((List.range n).map f).getD i d = f i := by
  simp [List.getD_eq_getElem?_getD, List.getElem?_range h]

theorem getD_put32 (v j : Nat) :
    (put32 v).getD j 0 = if j = 0 then v % 256 else if j = 1 then v / 256 % 256
      else if j = 2 then v / 65536 % 256 else if j = 3 then v / 16777216 % 256 else 0 := by
  match j with
  | 0 => rfl
  | 1 => rfl
  | 2 => rfl
  | 3 => rfl
  | n + 4 => simp [put32]

theorem length_flatMap_put32 (f : Nat → Nat) (n : Nat) :
    ((List.range n).flatMap (fun k => put32 (f k))).length = 4 * n := by
  induction n with
  | zero => rfl
  | succ m ihm =>
    rw [List.range_succ, List.flatMap_append, List.length_append, ihm]
    simp [put32]
    omega

theorem getD_flatMap_put32 (f : Nat → Nat) (n i j : Nat) (hi : i < n) (hj : j < 4) :
    ((List.range n).flatMap (fun k => put32 (f k))).getD (4 * i + j) 0 = (put32 (f i)).getD j 0 := by
  induction n with
  | zero => omega
  | succ n ih =>
    rw [List.range_succ, List.flatMap_append]
    have hlen := length_flatMap_put32 f n
    by_cases h : i < n
    · rw [List.getD_append _ _ _ _ (by omega)]
      exact ih h
    · have hin : i = n := by omega
      subst hin
      rw [List.getD_append_right _ _ _ _ (by omega), hlen]
      simp

theorem get32_word (bs : List Nat) (i v : Nat)
    (h : ∀ j, j < 4 → bs.getD (i + j) 0 = (put32 v).getD j 0) :
    get32 bs i = v % 4294967296 := by
  unfold get32
  have h0 := h 0 (by omega)
  have h1 := h 1 (by omega)
  have h2 := h 2 (by omega)
  have h3 := h 3 (by omega)
  rw [show (put32 v).getD 0 0 = v % 256 from rfl, Nat.add_zero] at h0
  rw [show (put32 v).getD 1 0 = v / 256 % 256 from rfl] at h1
  rw [show (put32 v).getD 2 0 = v / 65536 % 256 from rfl] at h2
  rw [show (put32 v).getD 3 0 = v / 16777216 % 256 from rfl] at h3
  rw [h0, h1, h2, h3]
  omega

theorem get32_congr (bs cs : List Nat) (i : Nat)
    (h : ∀ j, j < 4 → bs.getD (i + j) 0 = cs.getD (i + j) 0) : get32 bs i = get32 cs i := by
  unfold get32
  have h0 := h 0 (by omega)
  rw [Nat.add_zero] at h0
  rw [h0, h 1 (by omega), h 2 (by omega), h 3 (by omega)]

theorem zeros_length : zeros.length = BLOCK_SECTOR_SIZE := by simp [zeros]

theorem getD_zeros (i : Nat) : zeros.getD i 0 = 0 := getD_replicate_eq _ _ _

theorem get32_zeros (i : Nat) : get32 zeros i = 0 := by
  simp only [get32, getD_zeros]

theorem take_zeros : zeros.take BLOCK_SECTOR_SIZE = zeros := by
  simp [zeros]

/-! ## Sector images -/

theorem ind_bytes_length (ind : indirection_block) : ind.bytes.length = BLOCK_SECTOR_SIZE := by
  simp only [indirection_block.bytes, List.length_append, length_flatMap_put32]
  rfl

theorem ind_bytes_take (ind : indirection_block) : ind.bytes.take BLOCK_SECTOR_SIZE = ind.bytes := by
  rw [List.take_of_length_le]; rw [ind_bytes_length]

theorem get32_ind_bytes_hdr (ind : indirection_block) :
    get32 ind.bytes 0 = ind.length % 4294967296 := by
  apply get32_word
  intro j hj
  rw [indirection_block.bytes, List.getD_append _ _ _ _ (by simp [put32]; omega)]
  simp

theorem get32_ind_bytes_entry (ind : indirection_block) (i : Nat) (hi : i < TABLE_SIZE) :
    get32 ind.bytes (4 + 4 * i) = ind.sectors.getD i 0 % 4294967296 := by
  apply get32_word
  intro j hj
  rw [indirection_block.bytes, List.getD_append_right _ _ _ _ (by simp [put32]; omega)]
  have : 4 + 4 * i + j - (put32 ind.length).length = 4 * i + j := by simp [put32]; omega
  rw [this]
  exact getD_flatMap_put32 _ _ _ _ hi hj

theorem ofBytes_length (bs : List Nat) : (indirection_block.ofBytes bs).length = get32 bs 0 := rfl

theorem ofBytes_sectors_getD (bs : List Nat) (i : Nat) (hi : i < TABLE_SIZE) :
    (indirection_block.ofBytes bs).sectors.getD i 0 = get32 bs (4 + 4 * i) := by
  simp only [indirection_block.ofBytes]
  exact getD_map_range _ _ _ _ hi

theorem ofBytes_sectors_length (bs : List Nat) :
    (indirection_block.ofBytes bs).sectors.length = TABLE_SIZE := by
  simp [indirection_block.ofBytes]

theorem inode_bytes_length (d : inode_disk) : d.bytes.length = BLOCK_SECTOR_SIZE := by
  simp only [inode_disk.bytes, List.length_append, length_flatMap_put32]
  rfl

theorem inode_bytes_take (d : inode_disk) : d.bytes.take BLOCK_SECTOR_SIZE = d.bytes := by
  rw [List.take_of_length_le]; rw [inode_bytes_length]

theorem get32_inode_bytes_length (d : inode_disk) :
    get32 d.bytes 0 = d.length % 4294967296 := by
  apply get32_word
  intro j hj
  simp only [inode_disk.bytes, List.append_assoc]
  rw [List.getD_append _ _ _ _ (by simp [put32]; omega)]
  simp

theorem get32_inode_bytes_indirection (d : inode_disk) (i : Nat) (hi : i < NUM_TABLES) :
    get32 d.bytes (16 + 4 * i) = d.indirection.getD i 0 % 4294967296 := by
  apply get32_word
  intro j hj
  rw [inode_disk.bytes, List.getD_append_right _ _ _ _ (by simp [put32]; omega)]
  have : 16 + 4 * i + j - (put32 d.length ++ put32 d.magic ++ put32 d.is_dir
      ++ put32 d.parent_directory).length = 4 * i + j := by simp [put32]; omega
  rw [this]
  exact getD_flatMap_put32 _ _ _ _ hi hj

/-! ## Block device and free-map -/

theorem block_write_same (st : Store) (s : Nat) (buf : List Nat) :
    (block_write st s buf).disk s = buf.take BLOCK_SECTOR_SIZE := by
  simp [block_write]

theorem block_write_other (st : Store) (s x : Nat) (buf : List Nat) (h : x ≠ s) :
    (block_write st s buf).disk x = st.disk x := by
  simp [block_write, h]

theorem block_write_free_map (st : Store) (s : Nat) (buf : List Nat) :
    (block_write st s buf).free_map = st.free_map := rfl

theorem allocated_lt (st : Store) (s : Nat) (h : allocated st s) : s < st.free_map.length := by
  unfold allocated at h
  by_contra hc
  rw [List.getD_eq_default _ _ (by omega)] at h
  exact Bool.false_ne_true h

theorem indexOf_false_getD (l : List Bool) (h : l.indexOf false < l.length) :
    l.getD (l.indexOf false) false = false := by
  have := List.indexOf_get h
  simp only [List.get_eq_getElem] at this
  simp [List.getD_eq_getElem?_getD, List.getElem?_eq_getElem h, this]

theorem count_false_pos (l : List Bool) (h : 0 < l.count false) : l.indexOf false < l.length := by
  rw [List.indexOf_lt_length]
  exact List.count_pos_iff.mp h

theorem count_false_set (l : List Bool) (i : Nat) (hi : i < l.length)
    (h : l.getD i false = false) : (l.set i true).count false + 1 = l.count false := by
  rw [List.count_set _ _ _ _ hi]
  have hget : l[i] = false := by
    simpa [List.getD_eq_getElem?_getD, List.getElem?_eq_getElem hi] using h
  have hpos : 0 < l.count false := by
    apply List.count_pos_iff.mpr
    rw [← hget]
    exact List.getElem_mem hi
  simp [hget]
  omega

/-- An allocation succeeds when a sector is free: it yields a free sector and
marks it. -/
theorem free_map_allocate_ok (st : Store) (h : 0 < freeCount st) :
    ∃ s, free_map_allocate st = some (s, { st with free_map := st.free_map.set s true })
      ∧ s < st.free_map.length ∧ ¬ allocated st s
      ∧ freeCount { st with free_map := st.free_map.set s true } + 1 = freeCount st := by
  have hlt := count_false_pos _ h
  refine ⟨st.free_map.indexOf false, ?_, hlt, ?_, ?_⟩
  · simp [free_map_allocate, hlt]
  · unfold allocated
    rw [indexOf_false_getD _ hlt]
    exact Bool.false_ne_true
  · exact count_false_set _ _ hlt (indexOf_false_getD _ hlt)

theorem allocated_set (st : Store) (s x : Nat) (hs : s < st.free_map.length) :
    allocated { st with free_map := st.free_map.set s true } x ↔ (x = s ∨ allocated st x) := by
  simp only [allocated, getD_set_eq]
  by_cases h : s = x
  · simp [h, hs]
    subst h; simp [hs]
  · simp [h]
    intro h1
    exact absurd h1.symm h

/-! ## `add_sector` -/

theorem add_sector_ok (st : Store) (b : Nat) (hh : headerAt st b < TABLE_SIZE)
    (hfree : 0 < freeCount st) (hb : allocated st b) :
    ∃ s st', add_sector st b = some (true, st') ∧ s < st.free_map.length ∧ ¬ allocated st s
      ∧ st'.free_map = st.free_map.set s true
      ∧ freeCount st' + 1 = freeCount st
      ∧ st'.disk s = zeros
      ∧ headerAt st' b = headerAt st b + 1
      ∧ entryAt st' b (headerAt st b) = s % 4294967296
      ∧ (∀ i, i < TABLE_SIZE → i ≠ headerAt st b → entryAt st' b i = entryAt st b i % 4294967296)
      ∧ (∀ x, x ≠ b → x ≠ s → st'.disk x = st.disk x) := by
  obtain ⟨s, hal, hslt, hsfree, hcnt⟩ := free_map_allocate_ok st hfree
  have hsb : b ≠ s := fun h => hsfree (h ▸ hb)
  have hhdr : ¬ ((indirection_block.ofBytes (block_read st b)).length < 2147483648
      ∧ TABLE_SIZE ≤ (indirection_block.ofBytes (block_read st b)).length) := by
    rw [ofBytes_length]; unfold headerAt at hh; unfold block_read; omega
  have hsign : ¬ 2147483648 ≤ (indirection_block.ofBytes (block_read st b)).length := by
    rw [ofBytes_length]; unfold headerAt TABLE_SIZE at hh; unfold block_read; omega
  refine ⟨s, block_write (block_write { st with free_map := st.free_map.set s true } b
      ({ length := (indirection_block.ofBytes (block_read st b)).length + 1
         sectors := (indirection_block.ofBytes (block_read st b)).sectors.set
          (indirection_block.ofBytes (block_read st b)).length s } : indirection_block).bytes) s zeros,
    ?_, hslt, hsfree, ?_, ?_, ?_, ?_, ?_, ?_, ?_⟩
  · unfold add_sector
    simp only [hhdr, hsign, if_false, hal]
  · rfl
  · exact hcnt
  · rw [block_write_same, take_zeros]
  · unfold headerAt
    rw [block_write_other _ _ _ _ hsb, block_write_same, ind_bytes_take, get32_ind_bytes_hdr]
    simp only [ofBytes_length, block_read]
    unfold headerAt TABLE_SIZE at hh
    omega
  · unfold entryAt
    rw [block_write_other _ _ _ _ hsb, block_write_same, ind_bytes_take,
      get32_ind_bytes_entry _ _ hh]
    simp only [ofBytes_length, block_read, getD_set_eq, ofBytes_sectors_length]
    unfold headerAt at hh ⊢
    rw [if_pos ⟨rfl, hh⟩]
  · intro i hi hne
    unfold entryAt
    rw [block_write_other _ _ _ _ hsb, block_write_same, ind_bytes_take,
      get32_ind_bytes_entry _ _ hi]
    simp only [ofBytes_length, block_read, getD_set_eq, ofBytes_sectors_length]
    have : ¬ (get32 (st.disk b) 0 = i ∧ get32 (st.disk b) 0 < TABLE_SIZE) := by
      intro h; exact hne h.1.symm
    rw [if_neg this, ofBytes_sectors_getD _ _ hi]
  · intro x hxb hxs
    rw [block_write_other _ _ _ _ hxs, block_write_other _ _ _ _ hxb]

/-! ## Operations on a layout -/

theorem NO_SECTOR_lt : NO_SECTOR < 4294967296 := by decide

theorem allocated_mod (st : Store) (hb : st.free_map.length ≤ NO_SECTOR) (s : Nat)
    (h : allocated st s) : s % 4294967296 = s := by
  have := allocated_lt st s h
  have := NO_SECTOR_lt
  exact Nat.mod_eq_of_lt (by omega)

theorem Layout_add (st : Store) (isec : Nat) (ind : List Nat) (nb n : Nat)
    (hL : Layout st isec ind nb n) (hn : n < nb * TABLE_SIZE) (hfree : 0 < freeCount st) :
    ∃ s st', add_sector st (ind.getD (n / TABLE_SIZE) 0) = some (true, st')
      ∧ Layout st' isec ind nb (n + 1)
      ∧ freeCount st' + 1 = freeCount st
      ∧ ¬ allocated st s
      ∧ (∀ x, allocated st' x ↔ (x = s ∨ allocated st x))
      ∧ dataSector st' ind n = s
      ∧ st'.disk s = zeros
      ∧ (∀ k, k < n → dataSector st' ind k = dataSector st ind k)
      ∧ (∀ x, x ≠ ind.getD (n / TABLE_SIZE) 0 → x ≠ s → st'.disk x = st.disk x) := by
  have hj0 : n / TABLE_SIZE < nb := by
    simp only [TABLE_SIZE] at hn ⊢; omega
  have hhdr := hL.blk_hdr _ hj0
  have hhlt : headerAt st (ind.getD (n / TABLE_SIZE) 0) = n % TABLE_SIZE := by
    rw [hhdr]; simp only [TABLE_SIZE]; omega
  have hhT : headerAt st (ind.getD (n / TABLE_SIZE) 0) < TABLE_SIZE := by
    rw [hhlt]; simp only [TABLE_SIZE]; omega
  obtain ⟨s, st', hadd, hslt, hsfree, hfm, hcnt, hzero, hh', hent, hold, hframe⟩ :=
    add_sector_ok st _ hhT hfree (hL.blk_alloc _ hj0)
  have hsmod : s % 4294967296 = s := by
    have := hL.fm_bound; have := NO_SECTOR_lt
    exact Nat.mod_eq_of_lt (by omega)
  have halloc : ∀ x, allocated st' x ↔ (x = s ∨ allocated st x) := by
    intro x
    have := allocated_set st s x hslt
    unfold allocated at this ⊢
    rw [hfm]; exact this
  have hbs : ∀ j, j < nb → ind.getD j 0 ≠ s := fun j hj h => hsfree (h ▸ hL.blk_alloc j hj)
  -- blocks other than the one filled keep their image
  have hblk : ∀ j, j < nb → j ≠ n / TABLE_SIZE → st'.disk (ind.getD j 0) = st.disk (ind.getD j 0) := by
    intro j hj hne
    apply hframe _ _ (hbs j hj)
    intro h
    exact hne (hL.blk_inj _ _ hj hj0 h)
  have hdata : ∀ k, k < n → dataSector st' ind k = dataSector st ind k := by
    intro k hk
    have hkb : k / TABLE_SIZE < nb := by
      simp only [TABLE_SIZE] at hj0 ⊢; omega
    unfold dataSector
    by_cases hj : k / TABLE_SIZE = n / TABLE_SIZE
    · rw [hj]
      have hne : k % TABLE_SIZE ≠ headerAt st (ind.getD (n / TABLE_SIZE) 0) := by
        rw [hhlt]; simp only [TABLE_SIZE] at hj ⊢; omega
      rw [hold _ (by simp only [TABLE_SIZE]; omega) hne]
      have := hL.data_alloc k hk
      unfold dataSector at this
      rw [hj] at this
      exact allocated_mod st hL.fm_bound _ this
    · unfold entryAt
      rw [hblk _ hkb hj]
  have hnew : dataSector st' ind n = s := by
    unfold dataSector
    rw [← hhlt, hent, hsmod]
  have hdata' : ∀ k, k < n + 1 → dataSector st' ind k = if k = n then s else dataSector st ind k := by
    intro k hk
    by_cases h : k = n
    · rw [if_pos h, h, hnew]
    · rw [if_neg h]; exact hdata k (by omega)
  have hsself : isec ≠ s := fun h => hsfree (h ▸ hL.self_alloc)
  have hds : ∀ k, k < n → dataSector st ind k ≠ s :=
    fun k hk h => hsfree (h ▸ hL.data_alloc k hk)
  refine ⟨s, st', hadd, ?_, hcnt, hsfree, halloc, hnew, hzero, hdata, hframe⟩
  constructor
  · rw [hfm, List.length_set]; exact hL.fm_bound
  · simp only [TABLE_SIZE] at hn ⊢; omega
  · exact (halloc _).2 (Or.inr hL.self_alloc)
  · intro j hj; exact (halloc _).2 (Or.inr (hL.blk_alloc j hj))
  · intro j hj
    by_cases hne : j = n / TABLE_SIZE
    · rw [hne, hh', hhlt]; simp only [TABLE_SIZE]; omega
    · unfold headerAt
      rw [hblk j hj hne]
      have := hL.blk_hdr j hj
      unfold headerAt at this
      rw [this]
      simp only [TABLE_SIZE] at hne ⊢; omega
  · intro k hk
    rw [hdata' k hk]
    split
    · exact (halloc _).2 (Or.inl rfl)
    · exact (halloc _).2 (Or.inr (hL.data_alloc k (by omega)))
  · intro k hk
    rw [hdata' k hk]
    split
    · rw [hzero, zeros_length]
    · have hk' : k < n := by omega
      rw [hframe _ (fun h => hL.blk_ne_data _ _ hj0 hk' h.symm) (hds k hk')]
      exact hL.data_len k hk'
  · exact hL.blk_ne_self
  · intro k hk
    rw [hdata' k hk]
    split
    · exact fun h => hsself h.symm
    · exact hL.data_ne_self k (by omega)
  · intro j k hj hk
    rw [hdata' k hk]
    split
    · exact hbs j hj
    · exact hL.blk_ne_data j k hj (by omega)
  · exact hL.blk_inj
  · intro k k' hk hk'
    rw [hdata' k hk, hdata' k' hk']
    split <;> split
    · intro _; omega
    · intro h; exact absurd h.symm (hds k' (by omega))
    · intro h; exact absurd h (hds k (by omega))
    · intro h; exact hL.data_inj k k' (by omega) (by omega) h

theorem dataSector_congr (st st' : Store) (ind ind' : List Nat) (k : Nat)
    (hi : ind'.getD (k / TABLE_SIZE) 0 = ind.getD (k / TABLE_SIZE) 0)
    (hd : st'.disk (ind.getD (k / TABLE_SIZE) 0) = st.disk (ind.getD (k / TABLE_SIZE) 0)) :
    dataSector st' ind' k = dataSector st ind k := by
  unfold dataSector entryAt
  rw [hi, hd]

/-- A layout only depends on the free-map, on the indirection entries below
`nb`, on the images of the blocks and on the size of the data sectors. -/
theorem Layout_frame (st st' : Store) (isec : Nat) (ind ind' : List Nat) (nb n : Nat)
    (hL : Layout st isec ind nb n)
    (hfm : st'.free_map.length ≤ NO_SECTOR)
    (hal : ∀ x, allocated st x → allocated st' x)
    (hind : ∀ j, j < nb → ind'.getD j 0 = ind.getD j 0)
    (hblk : ∀ j, j < nb → st'.disk (ind.getD j 0) = st.disk (ind.getD j 0))
    (hlen : ∀ k, k < n → (st'.disk (dataSector st ind k)).length = BLOCK_SECTOR_SIZE) :
    Layout st' isec ind' nb n ∧ ∀ k, k < n → dataSector st' ind' k = dataSector st ind k := by
  have hcov := hL.covers
  have hkb : ∀ k, k < n → k / TABLE_SIZE < nb := by
    intro k hk; simp only [TABLE_SIZE] at hcov ⊢; omega
  have hdata : ∀ k, k < n → dataSector st' ind' k = dataSector st ind k :=
    fun k hk => dataSector_congr _ _ _ _ _ (hind _ (hkb k hk)) (hblk _ (hkb k hk))
  refine ⟨?_, hdata⟩
  constructor
  · exact hfm
  · exact hL.covers
  · exact hal _ hL.self_alloc
  · intro j hj; rw [hind j hj]; exact hal _ (hL.blk_alloc j hj)
  · intro j hj; rw [hind j hj]; unfold headerAt; rw [hblk j hj]; exact hL.blk_hdr j hj
  · intro k hk; rw [hdata k hk]; exact hal _ (hL.data_alloc k hk)
  · intro k hk; rw [hdata k hk]; exact hlen k hk
  · intro j hj; rw [hind j hj]; exact hL.blk_ne_self j hj
  · intro k hk; rw [hdata k hk]; exact hL.data_ne_self k hk
  · intro j k hj hk; rw [hind j hj, hdata k hk]; exact hL.blk_ne_data j k hj hk
  · intro j j' hj hj'; rw [hind j hj, hind j' hj']; exact hL.blk_inj j j' hj hj'
  · intro k k' hk hk'; rw [hdata k hk, hdata k' hk']; exact hL.data_inj k k' hk hk'

/-- Blocks past the data can be dropped from a layout. -/
theorem Layout_mono (st : Store) (isec : Nat) (ind : List Nat) (nb nb' n : Nat)
    (hL : Layout st isec ind nb n) (hle : nb' ≤ nb) (hcov : n ≤ nb' * TABLE_SIZE) :
    Layout st isec ind nb' n := by
  constructor
  · exact hL.fm_bound
  · exact hcov
  · exact hL.self_alloc
  · intro j hj; exact hL.blk_alloc j (by omega)
  · intro j hj; exact hL.blk_hdr j (by omega)
  · exact hL.data_alloc
  · exact hL.data_len
  · intro j hj; exact hL.blk_ne_self j (by omega)
  · exact hL.data_ne_self
  · intro j k hj hk; exact hL.blk_ne_data j k (by omega) hk
  · intro j j' hj hj'; exact hL.blk_inj j j' (by omega) (by omega)
  · exact hL.data_inj

/-- Writing the inode's own sector keeps the layout. -/
theorem Layout_write_self (st : Store) (isec : Nat) (ind ind' : List Nat) (nb n : Nat)
    (buf : List Nat) (hL : Layout st isec ind nb n)
    (hind : ∀ j, j < nb → ind'.getD j 0 = ind.getD j 0) :
    Layout (block_write st isec buf) isec ind' nb n
      ∧ ∀ k, k < n → dataSector (block_write st isec buf) ind' k = dataSector st ind k := by
  apply Layout_frame st _ isec ind ind' nb n hL
  · exact hL.fm_bound
  · intro x hx; exact hx
  · exact hind
  · intro j hj; exact block_write_other _ _ _ _ (hL.blk_ne_self j hj)
  · intro k hk; rw [block_write_other _ _ _ _ (hL.data_ne_self k hk)]; exact hL.data_len k hk

/-- Writing a whole data sector keeps the layout. -/
theorem Layout_write_data (st : Store) (isec : Nat) (ind : List Nat) (nb n k0 : Nat)
    (buf : List Nat) (hL : Layout st isec ind nb n) (hk0 : k0 < n)
    (hbuf : BLOCK_SECTOR_SIZE ≤ buf.length) :
    Layout (block_write st (dataSector st ind k0) buf) isec ind nb n
      ∧ ∀ k, k < n → dataSector (block_write st (dataSector st ind k0) buf) ind k
          = dataSector st ind k := by
  apply Layout_frame st _ isec ind ind nb n hL
  · exact hL.fm_bound
  · intro x hx; exact hx
  · intro j _; rfl
  · intro j hj; exact block_write_other _ _ _ _ (hL.blk_ne_data j k0 hj hk0)
  · intro k hk
    by_cases h : dataSector st ind k = dataSector st ind k0
    · rw [h, block_write_same, List.length_take]; omega
    · rw [block_write_other _ _ _ _ h]; exact hL.data_len k hk

/-- Allocating and initialising a further indirection block. -/
theorem Layout_new_block (st : Store) (isec : Nat) (ind : List Nat) (nb n : Nat)
    (hL : Layout st isec ind nb n) (hnb : nb < ind.length) (hfree : 0 < freeCount st) :
    ∃ s st1, free_map_allocate st = some (s, st1)
      ∧ Layout (init_indirection_block st1 s) isec (ind.set nb s) (nb + 1) n
      ∧ freeCount (init_indirection_block st1 s) + 1 = freeCount st
      ∧ ¬ allocated st s
      ∧ (∀ x, allocated (init_indirection_block st1 s) x ↔ (x = s ∨ allocated st x))
      ∧ (∀ k, k < n → dataSector (init_indirection_block st1 s) (ind.set nb s) k
          = dataSector st ind k)
      ∧ (∀ x, x ≠ s → (init_indirection_block st1 s).disk x = st.disk x) := by
  obtain ⟨s, hal, hslt, hsfree, hcnt⟩ := free_map_allocate_ok st hfree
  refine ⟨s, _, hal, ?_, hcnt, hsfree, ?_, ?_, ?_⟩
  · have halloc : ∀ x, allocated (init_indirection_block
        { st with free_map := st.free_map.set s true } s) x ↔ (x = s ∨ allocated st x) :=
      fun x => allocated_set st s x hslt
    have hframe : ∀ x, x ≠ s → (init_indirection_block
        { st with free_map := st.free_map.set s true } s).disk x = st.disk x := by
      intro x hx; unfold init_indirection_block; rw [block_write_other _ _ _ _ hx]
    have hind : ∀ j, j < nb → (ind.set nb s).getD j 0 = ind.getD j 0 := by
      intro j hj; rw [getD_set_eq, if_neg]; omega
    have hbs : ∀ j, j < nb → ind.getD j 0 ≠ s := fun j hj h => hsfree (h ▸ hL.blk_alloc j hj)
    have hds : ∀ k, k < n → dataSector st ind k ≠ s :=
      fun k hk h => hsfree (h ▸ hL.data_alloc k hk)
    have hL1 := Layout_frame st (init_indirection_block
        { st with free_map := st.free_map.set s true } s) isec ind (ind.set nb s) nb n hL
      (by show (st.free_map.set s true).length ≤ NO_SECTOR
          rw [List.length_set]; exact hL.fm_bound)
      (fun x hx => (halloc x).2 (Or.inr hx)) hind
      (fun j hj => hframe _ (hbs j hj))
      (fun k hk => by rw [hframe _ (hds k hk)]; exact hL.data_len k hk)
    obtain ⟨hL1, hd1⟩ := hL1
    have hnew : (ind.set nb s).getD nb 0 = s := by
      rw [getD_set_eq, if_pos ⟨rfl, hnb⟩]
    have hcov := hL.covers
    constructor
    · exact hL1.fm_bound
    · simp only [TABLE_SIZE] at hcov ⊢; omega
    · exact hL1.self_alloc
    · intro j hj
      by_cases h : j = nb
      · rw [h, hnew]; exact (halloc s).2 (Or.inl rfl)
      · exact hL1.blk_alloc j (by omega)
    · intro j hj
      by_cases h : j = nb
      · rw [h, hnew]
        unfold headerAt init_indirection_block
        rw [block_write_same, take_zeros, get32_zeros]
        simp only [TABLE_SIZE] at hcov ⊢; omega
      · exact hL1.blk_hdr j (by omega)
    · exact hL1.data_alloc
    · exact hL1.data_len
    · intro j hj
      by_cases h : j = nb
      · rw [h, hnew]; exact fun h => hsfree (h ▸ hL.self_alloc)
      · exact hL1.blk_ne_self j (by omega)
    · exact hL1.data_ne_self
    · intro j k hj hk
      by_cases h : j = nb
      · rw [h, hnew, hd1 k hk]; exact fun h => hds k hk h.symm
      · exact hL1.blk_ne_data j k (by omega) hk
    · intro j j' hj hj'
      by_cases h : j = nb <;> by_cases h' : j' = nb
      · intro _; omega
      · rw [h, hnew, hind j' (by omega)]; intro e; exact absurd e.symm (hbs j' (by omega))
      · rw [h', hnew, hind j (by omega)]; intro e; exact absurd e (hbs j (by omega))
      · exact hL1.blk_inj j j' (by omega) (by omega)
    · exact hL1.data_inj
  · exact fun x => allocated_set st s x hslt
  · intro k hk
    have hcov := hL.covers
    apply dataSector_congr
    · rw [getD_set_eq, if_neg]; simp only [TABLE_SIZE] at hcov ⊢; omega
    · unfold init_indirection_block
      rw [block_write_other]
      intro h
      have hkb : k / TABLE_SIZE < nb := by simp only [TABLE_SIZE] at hcov ⊢; omega
      exact hsfree (h ▸ hL.blk_alloc _ hkb)
  · intro x hx; unfold init_indirection_block; rw [block_write_other _ _ _ _ hx]

theorem byte_to_i_block_nat (m : Nat) :
    byte_to_i_block (m : Int) = ((m / (TABLE_SIZE * BLOCK_SECTOR_SIZE) : Nat) : Int) := by
  unfold byte_to_i_block
  rw [Int.ofNat_tdiv]
  simp

theorem byte_to_i_block_pred (m : Nat) :
    byte_to_i_block ((m : Int) - 1) = (((m - 1) / (TABLE_SIZE * BLOCK_SECTOR_SIZE) : Nat) : Int) := by
  cases m with
  | zero => simp [byte_to_i_block, TABLE_SIZE, BLOCK_SECTOR_SIZE]; decide
  | succ k =>
    rw [← byte_to_i_block_nat]
    congr 1
    simp

theorem byte_to_i_block_last (m g : Nat) (hg : 1 ≤ g) :
    byte_to_i_block ((m : Int) + (g : Int) - 1)
      = (((m + g - 1) / (TABLE_SIZE * BLOCK_SECTOR_SIZE) : Nat) : Int) := by
  rw [← byte_to_i_block_nat]
  congr 1
  omega

/-- `grow_inode` with the block indices computed on natural numbers. -/
theorem grow_inode_eq (st : Store) (ino : inode) (g : Nat) (hg : 1 ≤ g) :
    grow_inode st ino g =
      if bytes_to_sectors ino.data.length = bytes_to_sectors (ino.data.length + g) then
        some (true, ino.bump g, block_write st ino.sector (ino.bump g).data.bytes)
      else if BLOCK_SECTOR_SIZE < g then none
      else if (ino.data.length - 1) / (TABLE_SIZE * BLOCK_SECTOR_SIZE)
          = (ino.data.length + g - 1) / (TABLE_SIZE * BLOCK_SECTOR_SIZE) then
        if NUM_TABLES ≤ (ino.data.length + g - 1) / (TABLE_SIZE * BLOCK_SECTOR_SIZE) then none
        else
          match add_sector st (ino.data.indirection.getD
              ((ino.data.length + g - 1) / (TABLE_SIZE * BLOCK_SECTOR_SIZE)) 0) with
          | none => none
          | some (_, st1) =>
            some (true, ino.bump g, block_write st1 ino.sector (ino.bump g).data.bytes)
      else
        match free_map_allocate st with
        | none => some (false, ino, st)
        | some (s, st1) =>
          if NUM_TABLES ≤ (ino.data.length + g - 1) / (TABLE_SIZE * BLOCK_SECTOR_SIZE) then none
          else
            match add_sector (init_indirection_block st1 s) s with
            | none => none
            | some (_, st3) =>
              some (true,
                (ino.setIndirection
                  ((ino.data.length + g - 1) / (TABLE_SIZE * BLOCK_SECTOR_SIZE)) s).bump g,
                block_write st3 ino.sector
                  ((ino.setIndirection
                    ((ino.data.length + g - 1) / (TABLE_SIZE * BLOCK_SECTOR_SIZE)) s).bump g).data.bytes) := by
  unfold grow_inode
  rw [byte_to_i_block_last _ _ hg, byte_to_i_block_pred]
  simp only [Int.toNat_ofNat, Nat.cast_le, Nat.cast_inj]
  try rfl

theorem bump_length (ino : inode) (g : Nat) : (ino.bump g).data.length = ino.data.length + g := rfl
theorem bump_indirection (ino : inode) (g : Nat) :
    (ino.bump g).data.indirection = ino.data.indirection := rfl
theorem bump_sector (ino : inode) (g : Nat) : (ino.bump g).sector = ino.sector := rfl

/-- Growth inside the last allocated sector. -/
theorem grow_case1 (st : Store) (ino : inode) (g : Nat)
    (hwf : WF st ino) (hcap : ino.data.length + g ≤ CAPACITY)
    (hn : bytes_to_sectors ino.data.length = bytes_to_sectors (ino.data.length + g)) :
    Grown st ino (block_write st ino.sector (ino.bump g).data.bytes) (ino.bump g) := by
  have hL := Layout_write_self st ino.sector ino.data.indirection ino.data.indirection _ _
    (ino.bump g).data.bytes hwf.layout (fun _ _ => rfl)
  constructor
  · constructor
    · exact hcap
    · exact hwf.ind_len
    · rw [bump_length, ← hn]; exact hL.1
  · rfl
  · rw [bump_length]; omega
  · intro j _; rfl
  · intro j h1 h2; rw [bump_length, ← hn] at h2; omega
  · intro k hk; exact hL.2 k hk
  · intro x _ hx _; exact block_write_other _ _ _ _ hx
  · intro k h1 h2; rw [bump_length, ← hn] at h2; omega
  · intro x hx; exact hx
  · rw [bump_length, ← hn]
    show freeCount st + _ = freeCount st
    simp [allocCount]
  · left; rw [block_write_same, inode_bytes_take]
  · intro j _; rfl
  · intro k h1 h2; rw [bump_length, ← hn] at h2; omega

/-- Growth by one data sector in the current last indirection block. -/
theorem grow_case2 (st : Store) (ino : inode) (g : Nat)
    (hwf : WF st ino) (hcap : ino.data.length + g ≤ CAPACITY)
    (hn : bytes_to_sectors (ino.data.length + g) = bytes_to_sectors ino.data.length + 1)
    (hb : (ino.data.length - 1) / (TABLE_SIZE * BLOCK_SECTOR_SIZE)
      = (ino.data.length + g - 1) / (TABLE_SIZE * BLOCK_SECTOR_SIZE))
    (hfree : 0 < freeCount st) :
    ∃ st1, add_sector st (ino.data.indirection.getD
        ((ino.data.length + g - 1) / (TABLE_SIZE * BLOCK_SECTOR_SIZE)) 0) = some (true, st1)
      ∧ Grown st ino (block_write st1 ino.sector (ino.bump g).data.bytes) (ino.bump g) := by
  have hidx : (ino.data.length + g - 1) / (TABLE_SIZE * BLOCK_SECTOR_SIZE)
      = bytes_to_sectors ino.data.length / TABLE_SIZE := by
    simp only [bytes_to_sectors, TABLE_SIZE, BLOCK_SECTOR_SIZE] at hn hb ⊢; omega
  have hnb : blocksFor (bytes_to_sectors (ino.data.length + g))
      = blocksFor (bytes_to_sectors ino.data.length) := by
    simp only [blocksFor, bytes_to_sectors, TABLE_SIZE, BLOCK_SECTOR_SIZE] at hn hb ⊢; omega
  have hlt : bytes_to_sectors ino.data.length
      < blocksFor (bytes_to_sectors ino.data.length) * TABLE_SIZE := by
    simp only [blocksFor, bytes_to_sectors, TABLE_SIZE, BLOCK_SECTOR_SIZE] at hn hb ⊢; omega
  obtain ⟨s, st1, hadd, hL1, hcnt, hsfree, halloc, hnew, hzero, hdata, hframe⟩ :=
    Layout_add st ino.sector ino.data.indirection _ _ hwf.layout hlt hfree
  rw [← hidx] at hadd hframe
  refine ⟨st1, hadd, ?_⟩
  have hL := Layout_write_self st1 ino.sector ino.data.indirection ino.data.indirection _ _
    (ino.bump g).data.bytes hL1 (fun _ _ => rfl)
  have hjb : (ino.data.length + g - 1) / (TABLE_SIZE * BLOCK_SECTOR_SIZE)
      < blocksFor (bytes_to_sectors ino.data.length) := by
    rw [hidx]; simp only [TABLE_SIZE] at hlt ⊢; omega
  constructor
  · constructor
    · exact hcap
    · exact hwf.ind_len
    · rw [bump_length, hn, ← hn, hnb, hn]; exact hL.1
  · rfl
  · rw [bump_length]; omega
  · intro j _; rfl
  · intro j h1 h2; rw [bump_length, hnb] at h2; omega
  · intro k hk; rw [bump_indirection, hL.2 k (by omega)]; exact hdata k hk
  · intro x hx hxs hxb
    rw [block_write_other _ _ _ _ hxs]
    exact hframe x (hxb _ hjb) (fun h => hsfree (h ▸ hx))
  · intro k h1 h2
    rw [bump_length, hn] at h2
    have hk : k = bytes_to_sectors ino.data.length := by omega
    have hss : s ≠ ino.sector := fun h => hsfree (h ▸ hwf.layout.self_alloc)
    rw [hk, bump_indirection, hL.2 _ (by omega), hnew, block_write_other _ _ _ _ hss, hzero]
  · intro x hx; exact (halloc x).2 (Or.inr hx)
  · rw [bump_length, hn]
    show freeCount st1 + _ = freeCount st
    have : allocCount (bytes_to_sectors ino.data.length) (bytes_to_sectors ino.data.length + 1) = 1 := by
      simp only [allocCount, blocksFor, bytes_to_sectors, TABLE_SIZE, BLOCK_SECTOR_SIZE] at hn hb hnb ⊢
      omega
    rw [this]; exact hcnt
  · left; rw [block_write_same, inode_bytes_take]
  · intro j _; rfl
  · intro k h1 h2
    rw [bump_length, hn] at h2
    have hk : k = bytes_to_sectors ino.data.length := by omega
    rw [hk, bump_indirection, hL.2 _ (by omega), hnew]
    exact hsfree

theorem setIndirection_bump_length (ino : inode) (i s g : Nat) :
    ((ino.setIndirection i s).bump g).data.length = ino.data.length + g := rfl
theorem setIndirection_bump_indirection (ino : inode) (i s g : Nat) :
    ((ino.setIndirection i s).bump g).data.indirection = ino.data.indirection.set i s := rfl
theorem setIndirection_bump_sector (ino : inode) (i s g : Nat) :
    ((ino.setIndirection i s).bump g).sector = ino.sector := rfl

/-- Growth into a new indirection block. -/
theorem grow_case3 (st : Store) (ino : inode) (g : Nat)
    (hwf : WF st ino) (hcap : ino.data.length + g ≤ CAPACITY)
    (hn : bytes_to_sectors (ino.data.length + g) = bytes_to_sectors ino.data.length + 1)
    (hb : (ino.data.length - 1) / (TABLE_SIZE * BLOCK_SECTOR_SIZE)
      ≠ (ino.data.length + g - 1) / (TABLE_SIZE * BLOCK_SECTOR_SIZE))
    (hfree : 2 ≤ freeCount st) :
    ∃ s st1 st3, free_map_allocate st = some (s, st1)
      ∧ add_sector (init_indirection_block st1 s) s = some (true, st3)
      ∧ Grown st ino
        (block_write st3 ino.sector ((ino.setIndirection
          ((ino.data.length + g - 1) / (TABLE_SIZE * BLOCK_SECTOR_SIZE)) s).bump g).data.bytes)
        ((ino.setIndirection
          ((ino.data.length + g - 1) / (TABLE_SIZE * BLOCK_SECTOR_SIZE)) s).bump g) := by
  have hidx : (ino.data.length + g - 1) / (TABLE_SIZE * BLOCK_SECTOR_SIZE)
      = blocksFor (bytes_to_sectors ino.data.length) := by
    simp only [blocksFor, bytes_to_sectors, TABLE_SIZE, BLOCK_SECTOR_SIZE] at hn hb ⊢; omega
  have hidx2 : bytes_to_sectors ino.data.length / TABLE_SIZE
      = blocksFor (bytes_to_sectors ino.data.length) := by
    simp only [blocksFor, bytes_to_sectors, TABLE_SIZE, BLOCK_SECTOR_SIZE] at hn hb ⊢; omega
  have hnb : blocksFor (bytes_to_sectors (ino.data.length + g))
      = blocksFor (bytes_to_sectors ino.data.length) + 1 := by
    simp only [blocksFor, bytes_to_sectors, TABLE_SIZE, BLOCK_SECTOR_SIZE] at hn hb ⊢; omega
  have hlt : bytes_to_sectors ino.data.length
      < (blocksFor (bytes_to_sectors ino.data.length) + 1) * TABLE_SIZE := by
    simp only [blocksFor, bytes_to_sectors, TABLE_SIZE, BLOCK_SECTOR_SIZE] at hn hb ⊢; omega
  have hnbl : blocksFor (bytes_to_sectors ino.data.length) < ino.data.indirection.length := by
    rw [hwf.ind_len]
    simp only [blocksFor, bytes_to_sectors, TABLE_SIZE, BLOCK_SECTOR_SIZE, CAPACITY, NUM_TABLES]
      at hn hb hcap ⊢
    omega
  rw [hidx]
  obtain ⟨s, st1, hal, hL2, hcnt2, hsfree, halloc2, hdata2, hframe2⟩ :=
    Layout_new_block st ino.sector ino.data.indirection _ _ hwf.layout hnbl (by omega)
  obtain ⟨s2, st3, hadd, hL3, hcnt3, hs2free, halloc3, hnew3, hzero3, hdata3, hframe3⟩ :=
    Layout_add _ ino.sector _ _ _ hL2 hlt (by omega)
  have hsel : (ino.data.indirection.set (blocksFor (bytes_to_sectors ino.data.length)) s).getD
      (bytes_to_sectors ino.data.length / TABLE_SIZE) 0 = s := by
    rw [hidx2, getD_set_eq, if_pos ⟨rfl, hnbl⟩]
  rw [hsel] at hadd hframe3
  refine ⟨s, st1, st3, hal, hadd, ?_⟩
  have hL := Layout_write_self st3 ino.sector _ _ _ _
    ((ino.setIndirection (blocksFor (bytes_to_sectors ino.data.length)) s).bump g).data.bytes hL3
    (fun _ _ => rfl)
  have hself2 : allocated (init_indirection_block st1 s) ino.sector :=
    (halloc2 _).2 (Or.inr hwf.layout.self_alloc)
  have hss2 : s2 ≠ ino.sector := fun h => hs2free (h ▸ hself2)
  constructor
  · constructor
    · exact hcap
    · rw [setIndirection_bump_indirection, List.length_set]; exact hwf.ind_len
    · rw [setIndirection_bump_length, hnb, hn]; exact hL.1
  · rfl
  · rw [setIndirection_bump_length]; omega
  · intro j hj
    rw [setIndirection_bump_indirection, getD_set_eq, if_neg]; omega
  · intro j h1 h2
    rw [setIndirection_bump_length, hnb] at h2
    have hj : j = blocksFor (bytes_to_sectors ino.data.length) := by omega
    rw [hj, setIndirection_bump_indirection, getD_set_eq, if_pos ⟨rfl, hnbl⟩]
    exact hsfree
  · intro k hk
    rw [setIndirection_bump_indirection, hL.2 k (by omega), hdata3 k hk, hdata2 k hk]
  · intro x hx hxs hxb
    have hxs1 : x ≠ s := fun h => hsfree (h ▸ hx)
    have hxs2 : x ≠ s2 := fun h => hs2free (h ▸ (halloc2 x).2 (Or.inr hx))
    rw [block_write_other _ _ _ _ hxs, hframe3 x hxs1 hxs2, hframe2 x hxs1]
  · intro k h1 h2
    rw [setIndirection_bump_length, hn] at h2
    have hk : k = bytes_to_sectors ino.data.length := by omega
    rw [hk, setIndirection_bump_indirection, hL.2 _ (by omega), hnew3,
      block_write_other _ _ _ _ hss2, hzero3]
  · intro x hx; exact (halloc3 x).2 (Or.inr ((halloc2 x).2 (Or.inr hx)))
  · rw [setIndirection_bump_length, hn]
    show freeCount st3 + _ = freeCount st
    have : allocCount (bytes_to_sectors ino.data.length) (bytes_to_sectors ino.data.length + 1) = 2 := by
      simp only [allocCount, blocksFor, bytes_to_sectors, TABLE_SIZE, BLOCK_SECTOR_SIZE] at hn hb hnb ⊢
      omega
    rw [this]; omega
  · left; rw [block_write_same, inode_bytes_take]
  · intro j hj
    rw [setIndirection_bump_length, hnb] at hj
    rw [setIndirection_bump_indirection, getD_set_eq, if_neg]; omega
  · intro k h1 h2
    rw [setIndirection_bump_length, hn] at h2
    have hk : k = bytes_to_sectors ino.data.length := by omega
    rw [hk, setIndirection_bump_indirection, hL.2 _ (by omega), hnew3]
    exact fun h => hs2free ((halloc2 _).2 (Or.inr h))

/-- `grow_inode` on a well-formed inode, with the free sectors it needs. -/
theorem grow_inode_ok (st : Store) (ino : inode) (g : Nat)
    (hwf : WF st ino) (hg1 : 1 ≤ g) (hg2 : g ≤ BLOCK_SECTOR_SIZE)
    (hcap : ino.data.length + g ≤ CAPACITY)
    (hfree : allocCount (bytes_to_sectors ino.data.length)
      (bytes_to_sectors (ino.data.length + g)) ≤ freeCount st) :
    ∃ ino' st', grow_inode st ino g = some (true, ino', st') ∧ Grown st ino st' ino'
      ∧ ino'.data.length = ino.data.length + g := by
  rw [grow_inode_eq st ino g hg1]
  by_cases h1 : bytes_to_sectors ino.data.length = bytes_to_sectors (ino.data.length + g)
  · rw [if_pos h1]
    exact ⟨_, _, rfl, grow_case1 st ino g hwf hcap h1, rfl⟩
  · rw [if_neg h1, if_neg (by omega)]
    have hn : bytes_to_sectors (ino.data.length + g) = bytes_to_sectors ino.data.length + 1 := by
      simp only [bytes_to_sectors, BLOCK_SECTOR_SIZE] at h1 hg2 ⊢; omega
    have hlast : ¬ NUM_TABLES ≤ (ino.data.length + g - 1) / (TABLE_SIZE * BLOCK_SECTOR_SIZE) := by
      simp only [CAPACITY, NUM_TABLES, TABLE_SIZE, BLOCK_SECTOR_SIZE] at hcap ⊢; omega
    by_cases hb : (ino.data.length - 1) / (TABLE_SIZE * BLOCK_SECTOR_SIZE)
        = (ino.data.length + g - 1) / (TABLE_SIZE * BLOCK_SECTOR_SIZE)
    · rw [if_pos hb, if_neg hlast]
      have hf : 0 < freeCount st := by
        rw [hn] at hfree
        simp only [allocCount] at hfree; omega
      obtain ⟨st1, hadd, hG⟩ := grow_case2 st ino g hwf hcap hn hb hf
      rw [hadd]
      exact ⟨_, _, rfl, hG, rfl⟩
    · rw [if_neg hb]
      have hf : 2 ≤ freeCount st := by
        rw [hn] at hfree
        simp only [allocCount, bytes_to_sectors, TABLE_SIZE, BLOCK_SECTOR_SIZE] at hfree hb hn ⊢
        omega
      obtain ⟨s, st1, st3, hal, hadd, hG⟩ := grow_case3 st ino g hwf hcap hn hb hf
      rw [hal]
      simp only [hadd, if_neg hlast]
      exact ⟨_, _, rfl, hG, rfl⟩

theorem bytes_to_sectors_mono {a b : Nat} (h : a ≤ b) : bytes_to_sectors a ≤ bytes_to_sectors b := by
  simp only [bytes_to_sectors, BLOCK_SECTOR_SIZE]; omega

theorem blocksFor_mono {a b : Nat} (h : a ≤ b) : blocksFor a ≤ blocksFor b := by
  simp only [blocksFor, TABLE_SIZE]; omega

theorem allocCount_add {a b c : Nat} (h1 : a ≤ b) (h2 : b ≤ c) :
    allocCount a b + allocCount b c = allocCount a c := by
  simp only [allocCount, TABLE_SIZE]; omega

theorem allocCount_mono {a b c : Nat} (h2 : b ≤ c) : allocCount a b ≤ allocCount a c := by
  simp only [allocCount, TABLE_SIZE]; omega

theorem Grown_refl (st : Store) (ino : inode) (hwf : WF st ino) : Grown st ino st ino := by
  constructor
  · exact hwf
  · rfl
  · exact Nat.le_refl _
  · intro j _; rfl
  · intro j h1 h2; omega
  · intro k _; rfl
  · intro x _ _ _; rfl
  · intro k h1 h2; omega
  · intro x hx; exact hx
  · simp [allocCount]
  · right; exact ⟨rfl, rfl⟩
  · intro j _; rfl
  · intro k h1 h2; omega

theorem Grown_sector {st st' : Store} {ino ino' : inode} (h : Grown st ino st' ino') :
    ino'.sector = ino.sector := by
  rw [h.same]

theorem Grown_trans {st st1 st2 : Store} {ino ino1 ino2 : inode}
    (G1 : Grown st ino st1 ino1) (G2 : Grown st1 ino1 st2 ino2) : Grown st ino st2 ino2 := by
  have hs1 := Grown_sector G1
  have hn1 := bytes_to_sectors_mono G1.len_le
  have hn2 := bytes_to_sectors_mono G2.len_le
  have hb1 := blocksFor_mono hn1
  have hb2 := blocksFor_mono hn2
  constructor
  · exact G2.wf
  · have e1 := G1.same
    have e2 := G2.same
    rw [e2]
    conv => rhs; rw [e2]
    rw [e1]
  · exact Nat.le_trans G1.len_le G2.len_le
  · intro j hj
    rw [G2.ind_same j (by omega), G1.ind_same j hj]
  · intro j h1 h2
    by_cases hj : j < blocksFor (bytes_to_sectors ino1.data.length)
    · rw [G2.ind_same j hj]; exact G1.blk_fresh j h1 hj
    · exact fun h => G2.blk_fresh j (by omega) h2 (G1.alloc_mono _ h)
  · intro k hk
    rw [G2.data_same k (by omega), G1.data_same k hk]
  · intro x hx hxs hxb
    rw [G2.frame x (G1.alloc_mono x hx) (by rw [hs1]; exact hxs) ?_, G1.frame x hx hxs hxb]
    intro j hj
    by_cases hj' : j < blocksFor (bytes_to_sectors ino.data.length)
    · rw [G1.ind_same j hj']; exact hxb j hj'
    · exact fun h => G1.blk_fresh j (by omega) hj (h ▸ hx)
  · intro k h1 h2
    by_cases hk : k < bytes_to_sectors ino1.data.length
    · rw [G2.data_same k hk]
      rw [G2.frame _ (G1.wf.layout.data_alloc k hk) (G1.wf.layout.data_ne_self k hk)
        (fun j hj h => G1.wf.layout.blk_ne_data j k hj hk h.symm)]
      exact G1.fresh_zero k h1 hk
    · exact G2.fresh_zero k (by omega) h2
  · intro x hx; exact G2.alloc_mono x (G1.alloc_mono x hx)
  · have c1 := G1.count
    have c2 := G2.count
    have := allocCount_add hn1 hn2
    omega
  · rcases G2.synced with h | ⟨h1, h2⟩
    · left; rw [← hs1]; exact h
    · rw [h1, h2]; exact G1.synced
  · intro j hj
    rw [G2.ind_rest j hj, G1.ind_rest j (by omega)]
  · intro k h1 h2
    by_cases hk : k < bytes_to_sectors ino1.data.length
    · rw [G2.data_same k hk]; exact G1.data_fresh k h1 hk
    · exact fun h => G2.data_fresh k (by omega) h2 (G1.alloc_mono _ h)

/-- The growth loop of `inode_write_at` brings the length to `target`. -/
theorem growth_loop_ok (fuel : Nat) : ∀ (st : Store) (ino : inode) (target : Nat),
    WF st ino → target ≤ CAPACITY → target - ino.data.length ≤ fuel →
    allocCount (bytes_to_sectors ino.data.length)
      (bytes_to_sectors (max ino.data.length target)) ≤ freeCount st →
    ∃ ino' st', growth_loop fuel st ino target = some (true, ino', st')
      ∧ Grown st ino st' ino' ∧ ino'.data.length = max ino.data.length target := by
  induction fuel with
  | zero =>
    intro st ino target hwf _ hfuel _
    refine ⟨ino, st, rfl, Grown_refl st ino hwf, ?_⟩
    omega
  | succ fuel ih =>
    intro st ino target hwf hcap hfuel hfree
    unfold growth_loop
    by_cases hlt : ino.data.length < target
    · rw [if_pos hlt]
      have hmax : max ino.data.length target = target := by omega
      rw [hmax] at hfree
      generalize hg : (if BLOCK_SECTOR_SIZE < target - ino.data.length then BLOCK_SECTOR_SIZE
        else target - ino.data.length) = g
      have hg1 : 1 ≤ g := by
        rw [← hg]; simp only [BLOCK_SECTOR_SIZE]; split <;> omega
      have hg2 : g ≤ BLOCK_SECTOR_SIZE := by
        rw [← hg]; simp only [BLOCK_SECTOR_SIZE]; split <;> omega
      have hg3 : ino.data.length + g ≤ target := by
        rw [← hg]; simp only [BLOCK_SECTOR_SIZE]; split <;> omega
      have hle := bytes_to_sectors_mono hg3
      have hle0 : bytes_to_sectors ino.data.length ≤ bytes_to_sectors (ino.data.length + g) :=
        bytes_to_sectors_mono (by omega)
      obtain ⟨ino1, st1, hgrow, hG1, hlen1⟩ := grow_inode_ok st ino g hwf hg1 hg2 (by omega)
        (Nat.le_trans (allocCount_mono hle) hfree)
      simp only [hgrow]
      have hc1 := hG1.count
      rw [hlen1] at hc1
      have hadd := allocCount_add hle0 hle
      obtain ⟨ino2, st2, hloop, hG2, hlen2⟩ := ih st1 ino1 target hG1.wf hcap (by omega)
        (by rw [hlen1, show max (ino.data.length + g) target = target by omega]; omega)
      refine ⟨ino2, st2, hloop, Grown_trans hG1 hG2, ?_⟩
      rw [hlen2, hlen1]; omega
    · rw [if_neg hlt]
      refine ⟨ino, st, rfl, Grown_refl st ino hwf, ?_⟩
      omega

/-! ## Reading -/

theorem byte_to_sector_wf (st : Store) (ino : inode) (pos : Nat) (hwf : WF st ino)
    (hpos : pos < ino.data.length) :
    byte_to_sector st ino pos
      = some (dataSector st ino.data.indirection (pos / BLOCK_SECTOR_SIZE)) := by
  have hcap := hwf.cap
  unfold byte_to_sector
  rw [if_pos hpos]
  have h1 : ¬ NUM_TABLES ≤ pos / (TABLE_SIZE * BLOCK_SECTOR_SIZE) := by
    simp only [CAPACITY, NUM_TABLES, TABLE_SIZE, BLOCK_SECTOR_SIZE] at hcap ⊢; omega
  simp only [h1, if_false]
  have h2 : pos / BLOCK_SECTOR_SIZE % TABLE_SIZE < TABLE_SIZE := by
    simp only [TABLE_SIZE]; omega
  rw [ofBytes_sectors_getD _ _ h2]
  have h3 : pos / (TABLE_SIZE * BLOCK_SECTOR_SIZE) = pos / BLOCK_SECTOR_SIZE / TABLE_SIZE := by
    simp only [TABLE_SIZE, BLOCK_SECTOR_SIZE]; omega
  rw [h3]
  rfl

theorem byte_to_sector_eof (st : Store) (ino : inode) (pos : Nat)
    (hpos : ino.data.length ≤ pos) : byte_to_sector st ino pos = some NO_SECTOR := by
  unfold byte_to_sector
  rw [if_neg (by omega)]

theorem sector_index_lt (len pos : Nat) (hpos : pos < len) :
    pos / BLOCK_SECTOR_SIZE < bytes_to_sectors len := by
  simp only [bytes_to_sectors, BLOCK_SECTOR_SIZE]; omega

theorem dataSector_ne_NO_SECTOR (st : Store) (ino : inode) (k : Nat) (hwf : WF st ino)
    (hk : k < bytes_to_sectors ino.data.length) :
    dataSector st ino.data.indirection k ≠ NO_SECTOR := by
  have h1 := allocated_lt st _ (hwf.layout.data_alloc k hk)
  have h2 := hwf.layout.fm_bound
  omega

theorem fileByte_wf (st : Store) (ino : inode) (pos : Nat) (hwf : WF st ino)
    (hpos : pos < ino.data.length) :
    fileByte st ino pos = diskByte st ino.data.indirection pos := by
  unfold fileByte
  rw [byte_to_sector_wf st ino pos hwf hpos]
  rfl

theorem take_drop_eq_map_range (l : List Nat) (o c : Nat) (h : o + c ≤ l.length) :
    (l.drop o).take c = (List.range c).map (fun i => l.getD (o + i) 0) := by
  apply List.ext_getElem
  · simp; omega
  · intro i h1 h2
    simp at h1 h2 ⊢
    rw [List.getElem?_eq_getElem (by omega)]
    simp

theorem eq_map_range_getD (l : List Nat) :
    l = (List.range l.length).map (fun i => l.getD i 0) := by
  have := take_drop_eq_map_range l 0 l.length (by omega)
  simpa using this

theorem map_range_add {α : Type} (f : Nat → α) (a b : Nat) :
    (List.range (a + b)).map f = (List.range a).map f ++ (List.range b).map (fun i => f (a + i)) := by
  rw [List.range_add, List.map_append, List.map_map]
  rfl

theorem read_loop_ok (st : Store) (ino : inode) (hwf : WF st ino) (fuel : Nat) :
    ∀ (size offset : Nat) (acc : Nat × List Nat), size ≤ fuel →
    read_loop st ino fuel size offset acc
      = some (acc.1 + min size (ino.data.length - offset),
          acc.2 ++ (List.range (min size (ino.data.length - offset))).map
            (fun i => fileByte st ino (offset + i))) := by
  induction fuel with
  | zero =>
    intro size offset acc h
    have : size = 0 := by omega
    subst this
    simp [read_loop]
  | succ fuel ih =>
    intro size offset acc h
    unfold read_loop
    by_cases hs : size = 0
    · subst hs; simp
    · rw [if_neg hs]
      by_cases hoff : offset < ino.data.length
      · rw [byte_to_sector_wf st ino offset hwf hoff]
        have hk := sector_index_lt _ _ hoff
        simp only [if_neg (dataSector_ne_NO_SECTOR st ino _ hwf hk), inode_length]
        generalize hc : (if size < (if ino.data.length - offset
              < BLOCK_SECTOR_SIZE - offset % BLOCK_SECTOR_SIZE
            then ino.data.length - offset else BLOCK_SECTOR_SIZE - offset % BLOCK_SECTOR_SIZE)
          then size else (if ino.data.length - offset
              < BLOCK_SECTOR_SIZE - offset % BLOCK_SECTOR_SIZE
            then ino.data.length - offset else BLOCK_SECTOR_SIZE - offset % BLOCK_SECTOR_SIZE)) = c
        have hc1 : 1 ≤ c := by
          rw [← hc]; simp only [BLOCK_SECTOR_SIZE]; split <;> split <;> omega
        have hc2 : c ≤ size := by
          rw [← hc]; simp only [BLOCK_SECTOR_SIZE]; split <;> split <;> omega
        have hc3 : c ≤ ino.data.length - offset := by
          rw [← hc]; simp only [BLOCK_SECTOR_SIZE]; split <;> split <;> omega
        have hc4 : offset % BLOCK_SECTOR_SIZE + c ≤ BLOCK_SECTOR_SIZE := by
          rw [← hc]; simp only [BLOCK_SECTOR_SIZE]; split <;> split <;> omega
        rw [if_neg (by omega)]
        have hlen := hwf.layout.data_len _ hk
        have hchunk : (if offset % BLOCK_SECTOR_SIZE = 0 ∧ c = BLOCK_SECTOR_SIZE then
              block_read st (dataSector st ino.data.indirection (offset / BLOCK_SECTOR_SIZE))
            else ((block_read st (dataSector st ino.data.indirection
              (offset / BLOCK_SECTOR_SIZE))).drop (offset % BLOCK_SECTOR_SIZE)).take c)
            = (List.range c).map (fun i => fileByte st ino (offset + i)) := by
          have hmap : (List.range c).map (fun i => fileByte st ino (offset + i))
              = (List.range c).map (fun i => (st.disk (dataSector st ino.data.indirection
                  (offset / BLOCK_SECTOR_SIZE))).getD (offset % BLOCK_SECTOR_SIZE + i) 0) := by
            apply List.map_congr_left
            intro i hi
            rw [List.mem_range] at hi
            rw [fileByte_wf st ino _ hwf (by omega)]
            unfold diskByte
            have e1 : (offset + i) / BLOCK_SECTOR_SIZE = offset / BLOCK_SECTOR_SIZE := by
              simp only [BLOCK_SECTOR_SIZE] at hc4 ⊢; omega
            have e2 : (offset + i) % BLOCK_SECTOR_SIZE = offset % BLOCK_SECTOR_SIZE + i := by
              simp only [BLOCK_SECTOR_SIZE] at hc4 ⊢; omega
            rw [e1, e2]
          rw [hmap]
          unfold block_read
          split
          · rename_i hfull
            rw [hfull.1, hfull.2]
            have := take_drop_eq_map_range (st.disk (dataSector st ino.data.indirection
              (offset / BLOCK_SECTOR_SIZE))) 0 BLOCK_SECTOR_SIZE (by omega)
            rw [← this, List.drop_zero, List.take_of_length_le (by omega)]
          · exact take_drop_eq_map_range _ _ _ (by omega)
        rw [hchunk, ih _ _ _ (by omega)]
        have hm : min size (ino.data.length - offset)
            = c + min (size - c) (ino.data.length - (offset + c)) := by omega
        rw [hm, map_range_add]
        simp only [List.append_assoc, Nat.add_assoc]
      · rw [byte_to_sector_eof st ino offset (by omega)]
        simp only [if_true]
        have : min size (ino.data.length - offset) = 0 := by omega
        rw [this]; simp

/-! ## Writing -/

theorem getD_splice (a b : List Nat) (o c j : Nat) (ho : o ≤ a.length) (hc : c ≤ b.length) :
    (a.take o ++ b.take c ++ a.drop (o + c)).getD j 0
      = if o ≤ j ∧ j < o + c then b.getD (j - o) 0 else a.getD j 0 := by
  have l1 : (a.take o).length = o := by simp; omega
  have l2 : (b.take c).length = c := by simp; omega
  by_cases h1 : j < o
  · rw [if_neg (by omega), List.append_assoc, List.getD_append _ _ _ _ (by omega),
      getD_take_eq, if_pos h1]
  · by_cases h2 : j < o + c
    · rw [if_pos ⟨by omega, h2⟩, List.getD_append _ _ _ _ (by simp; omega),
        List.getD_append_right _ _ _ _ (by omega), l1, getD_take_eq, if_pos (by omega)]
    · rw [if_neg (by omega), List.getD_append_right _ _ _ _ (by simp; omega),
        getD_drop_eq]
      congr 1
      simp; omega

/-- One iteration of the copy loop of `inode_write_at` stores `c` bytes of
`buf` at offset `ofs` of data sector `k0`. -/
theorem write_chunk (st : Store) (ino : inode) (hwf : WF st ino) (k0 ofs c : Nat)
    (buf : List Nat) (hk0 : k0 < bytes_to_sectors ino.data.length)
    (hofs : ofs + c ≤ BLOCK_SECTOR_SIZE) (hbuf : c ≤ buf.length) :
    ∃ st1, (if ofs = 0 ∧ c = BLOCK_SECTOR_SIZE then
          block_write st (dataSector st ino.data.indirection k0) buf
        else
          block_write st (dataSector st ino.data.indirection k0)
            ((if 0 < ofs ∨ c < BLOCK_SECTOR_SIZE - ofs then
                block_read st (dataSector st ino.data.indirection k0) else zeros).take ofs
              ++ buf.take c
              ++ (if 0 < ofs ∨ c < BLOCK_SECTOR_SIZE - ofs then
                block_read st (dataSector st ino.data.indirection k0) else zeros).drop (ofs + c)))
        = st1
      ∧ WF st1 ino ∧ st1.free_map = st.free_map
      ∧ (∀ k, k < bytes_to_sectors ino.data.length →
          dataSector st1 ino.data.indirection k = dataSector st ino.data.indirection k)
      ∧ (∀ x, x ≠ dataSector st ino.data.indirection k0 → st1.disk x = st.disk x)
      ∧ (∀ j, j < BLOCK_SECTOR_SIZE →
          (st1.disk (dataSector st ino.data.indirection k0)).getD j 0
            = if ofs ≤ j ∧ j < ofs + c then buf.getD (j - ofs) 0
              else (st.disk (dataSector st ino.data.indirection k0)).getD j 0) := by
  have hlen := hwf.layout.data_len k0 hk0
  by_cases hfull : ofs = 0 ∧ c = BLOCK_SECTOR_SIZE
  · rw [if_pos hfull]
    have hL := Layout_write_data st ino.sector ino.data.indirection _ _ k0 buf hwf.layout hk0
      (by omega)
    refine ⟨_, rfl, ⟨hwf.cap, hwf.ind_len, hL.1⟩, rfl, hL.2,
      fun x hx => block_write_other _ _ _ _ hx, ?_⟩
    intro j hj
    rw [block_write_same, getD_take_eq, if_pos hj, if_pos (by omega), hfull.1]
    rfl
  · rw [if_neg hfull]
    have hb : (0 < ofs ∨ c < BLOCK_SECTOR_SIZE - ofs) := by omega
    simp only [if_pos hb, block_read]
    have hsl : BLOCK_SECTOR_SIZE ≤ ((st.disk (dataSector st ino.data.indirection k0)).take ofs
        ++ buf.take c
        ++ (st.disk (dataSector st ino.data.indirection k0)).drop (ofs + c)).length := by
      simp; omega
    have hL := Layout_write_data st ino.sector ino.data.indirection _ _ k0 _ hwf.layout hk0 hsl
    refine ⟨_, rfl, ⟨hwf.cap, hwf.ind_len, hL.1⟩, rfl, hL.2,
      fun x hx => block_write_other _ _ _ _ hx, ?_⟩
    intro j hj
    rw [block_write_same, getD_take_eq, if_pos hj, getD_splice _ _ _ _ _ (by omega) hbuf]

theorem write_loop_ok (ino : inode) (fuel : Nat) :
    ∀ (st : Store) (buf : List Nat) (size offset bw : Nat),
    WF st ino → offset + size ≤ ino.data.length → size ≤ buf.length → size ≤ fuel →
    ∃ st', write_loop ino fuel st buf size offset bw = some (bw + size, st')
      ∧ WF st' ino ∧ st'.free_map = st.free_map
      ∧ (∀ k, k < bytes_to_sectors ino.data.length →
          dataSector st' ino.data.indirection k = dataSector st ino.data.indirection k)
      ∧ (∀ x, (∀ k, k < bytes_to_sectors ino.data.length →
          x ≠ dataSector st ino.data.indirection k) → st'.disk x = st.disk x)
      ∧ (∀ pos, pos < bytes_to_sectors ino.data.length * BLOCK_SECTOR_SIZE →
          diskByte st' ino.data.indirection pos
            = if offset ≤ pos ∧ pos < offset + size then buf.getD (pos - offset) 0
              else diskByte st ino.data.indirection pos) := by
  induction fuel with
  | zero =>
    intro st buf size offset bw hwf _ _ h
    have : size = 0 := by omega
    subst this
    refine ⟨st, rfl, hwf, rfl, fun _ _ => rfl, fun _ _ => rfl, ?_⟩
    intro pos _; rw [if_neg (by omega)]
  | succ fuel ih =>
    intro st buf size offset bw hwf hoff hbuf hfuel
    unfold write_loop
    by_cases hs : size = 0
    · subst hs
      refine ⟨st, by simp, hwf, rfl, fun _ _ => rfl, fun _ _ => rfl, ?_⟩
      intro pos _; rw [if_neg (by omega)]
    · rw [if_neg hs]
      dsimp only
      generalize hc : (if size < BLOCK_SECTOR_SIZE - offset % BLOCK_SECTOR_SIZE then size
        else BLOCK_SECTOR_SIZE - offset % BLOCK_SECTOR_SIZE) = c
      have hc1 : 1 ≤ c := by rw [← hc]; simp only [BLOCK_SECTOR_SIZE]; split <;> omega
      have hc2 : c ≤ size := by rw [← hc]; simp only [BLOCK_SECTOR_SIZE]; split <;> omega
      have hc4 : offset % BLOCK_SECTOR_SIZE + c ≤ BLOCK_SECTOR_SIZE := by
        rw [← hc]; simp only [BLOCK_SECTOR_SIZE]; split <;> omega
      have hofflt : offset < ino.data.length := by omega
      have hk := sector_index_lt _ _ hofflt
      simp only [if_neg (show ¬ c = 0 by omega), byte_to_sector_wf st ino offset hwf hofflt,
        if_neg (dataSector_ne_NO_SECTOR st ino _ hwf hk)]
      obtain ⟨st1, hst1, hwf1, hfm1, hd1, hfr1, hby1⟩ :=
        write_chunk st ino hwf (offset / BLOCK_SECTOR_SIZE) (offset % BLOCK_SECTOR_SIZE) c buf hk
          hc4 (by omega)
      rw [hst1]
      obtain ⟨st2, hloop, hwf2, hfm2, hd2, hfr2, hby2⟩ :=
        ih st1 (buf.drop c) (size - c) (offset + c) (bw + c) hwf1 (by omega)
          (by simp; omega) (by omega)
      refine ⟨st2, ?_, hwf2, ?_, ?_, ?_, ?_⟩
      · rw [hloop]; congr 2; omega
      · rw [hfm2, hfm1]
      · intro k hk'; rw [hd2 k hk', hd1 k hk']
      · intro x hx
        rw [hfr2 x (fun k hk' => by rw [hd1 k hk']; exact hx k hk'), hfr1 x (hx _ hk)]
      · intro pos hpos
        rw [hby2 pos hpos]
        have hkp : pos / BLOCK_SECTOR_SIZE < bytes_to_sectors ino.data.length := by
          simp only [BLOCK_SECTOR_SIZE] at hpos ⊢; omega
        have hstep : diskByte st1 ino.data.indirection pos
            = if offset ≤ pos ∧ pos < offset + c then buf.getD (pos - offset) 0
              else diskByte st ino.data.indirection pos := by
          unfold diskByte
          rw [hd1 _ hkp]
          by_cases hsame : pos / BLOCK_SECTOR_SIZE = offset / BLOCK_SECTOR_SIZE
          · rw [hsame, hby1 _ (by simp only [BLOCK_SECTOR_SIZE]; omega)]
            have e : (offset % BLOCK_SECTOR_SIZE ≤ pos % BLOCK_SECTOR_SIZE
                ∧ pos % BLOCK_SECTOR_SIZE < offset % BLOCK_SECTOR_SIZE + c)
                ↔ (offset ≤ pos ∧ pos < offset + c) := by
              simp only [BLOCK_SECTOR_SIZE] at hsame hc4 ⊢; omega
            by_cases hin : offset ≤ pos ∧ pos < offset + c
            · rw [if_pos hin, if_pos (e.2 hin)]
              congr 1
              simp only [BLOCK_SECTOR_SIZE] at hsame hc4 ⊢; omega
            · rw [if_neg hin, if_neg (fun h => hin (e.1 h))]
          · have hne : dataSector st ino.data.indirection (pos / BLOCK_SECTOR_SIZE)
                ≠ dataSector st ino.data.indirection (offset / BLOCK_SECTOR_SIZE) :=
              fun h => hsame (hwf.layout.data_inj _ _ hkp hk h)
            rw [hfr1 _ hne, if_neg]
            simp only [BLOCK_SECTOR_SIZE] at hsame hc4 ⊢; omega
        rw [hstep]
        by_cases h1 : offset + c ≤ pos ∧ pos < offset + c + (size - c)
        · rw [if_pos h1, if_pos (by omega), getD_drop_eq]
          congr 1; omega
        · rw [if_neg h1]
          by_cases h2 : offset ≤ pos ∧ pos < offset + c
          · rw [if_pos h2, if_pos (by omega)]
          · rw [if_neg h2, if_neg (by omega)]

theorem allocCount_max (a len target : Nat) (h : a = bytes_to_sectors len) :
    allocCount a (bytes_to_sectors (max len target)) = allocCount a (bytes_to_sectors target) := by
  subst h
  by_cases hlt : len ≤ target
  · rw [Nat.max_eq_right hlt]
  · have h1 : max len target = len := by omega
    have h2 := @bytes_to_sectors_mono target len (by omega)
    rw [h1]
    simp only [allocCount, TABLE_SIZE]; omega

/-- `inode_write_at` on a well-formed inode: growth to the end of the write,
then the copy of the buffer into the data sectors. -/
theorem inode_write_at_ok (st : Store) (ino : inode) (buf : List Nat) (size offset : Nat)
    (hwf : WF st ino) (hdeny : ino.deny_write_cnt = 0) (hcap : offset + size ≤ CAPACITY)
    (hbuf : size ≤ buf.length)
    (hfree : allocCount (bytes_to_sectors ino.data.length) (bytes_to_sectors (offset + size))
      ≤ freeCount st) :
    ∃ ino' st1 st', Grown st ino st1 ino'
      ∧ ino'.data.length = max ino.data.length (offset + size)
      ∧ inode_write_at st ino buf size offset = some (size, ino', st')
      ∧ WF st' ino' ∧ st'.free_map = st1.free_map
      ∧ (∀ k, k < bytes_to_sectors ino'.data.length →
          dataSector st' ino'.data.indirection k = dataSector st1 ino'.data.indirection k)
      ∧ (∀ x, (∀ k, k < bytes_to_sectors ino'.data.length →
          x ≠ dataSector st1 ino'.data.indirection k) → st'.disk x = st1.disk x)
      ∧ (∀ pos, pos < bytes_to_sectors ino'.data.length * BLOCK_SECTOR_SIZE →
          diskByte st' ino'.data.indirection pos
            = if offset ≤ pos ∧ pos < offset + size then buf.getD (pos - offset) 0
              else diskByte st1 ino'.data.indirection pos) := by
  obtain ⟨ino1, st1, hloop, hG, hlen⟩ := growth_loop_ok (offset + size - ino.data.length) st ino
    (offset + size) hwf hcap (Nat.le_refl _) (by rw [allocCount_max _ _ _ rfl]; exact hfree)
  obtain ⟨st2, hw, hwf2, hfm2, hd2, hfr2, hby2⟩ := write_loop_ok ino1 size st1 buf size offset 0
    hG.wf (by rw [hlen]; omega) hbuf (Nat.le_refl _)
  refine ⟨ino1, st1, st2, hG, hlen, ?_, hwf2, hfm2, hd2, hfr2, hby2⟩
  unfold inode_write_at
  rw [if_neg (by simp [hdeny])]
  simp only [hloop, hw, Nat.zero_add]

theorem map_range_getD_eq (l : List Nat) (n : Nat) (h : l.length = n) :
    (List.range n).map (fun i => l.getD i 0) = l := by
  subst h
  exact (eq_map_range_getD l).symm

theorem map_range_const {α : Type} (a : α) (n : Nat) (f : Nat → α) (h : ∀ i, i < n → f i = a) :
    (List.range n).map f = List.replicate n a := by
  apply List.ext_getElem
  · simp
  · intro i h1 h2
    simp at h1 ⊢
    exact h i h1

theorem pos_lt_sectors (len pos : Nat) (h : pos < len) :
    pos < bytes_to_sectors len * BLOCK_SECTOR_SIZE := by
  simp only [bytes_to_sectors, BLOCK_SECTOR_SIZE]; omega

/-- C1 (write/read round trip).  For every well-formed inode with
`deny_write_cnt = 0`, every offset and size with `offset + size` within the
two-level capacity and every buffer of `size` bytes, when the free-map holds
the sectors that the growth claims (so that every allocation succeeds),
`inode_write_at` returns `size` and a following `inode_read_at` of the same
range returns `size` and, byte for byte, the buffer. -/
theorem write_read_round_trip (st : Store) (ino : inode) (buf : List Nat) (size offset : Nat)
    (hwf : WF st ino) (hdeny : ino.deny_write_cnt = 0) (hcap : offset + size ≤ CAPACITY)
    (hbuf : buf.length = size)
    (hfree : allocCount (bytes_to_sectors ino.data.length) (bytes_to_sectors (offset + size))
      ≤ freeCount st) :
    ∃ ino' st', inode_write_at st ino buf size offset = some (size, ino', st')
      ∧ inode_read_at st' ino' size offset = some (size, buf) := by
  obtain ⟨ino', st1, st', hG, hlen, hw, hwf', _, _, _, hby⟩ :=
    inode_write_at_ok st ino buf size offset hwf hdeny hcap (by omega) hfree
  refine ⟨ino', st', hw, ?_⟩
  unfold inode_read_at
  rw [read_loop_ok st' ino' hwf' size size offset (0, []) (Nat.le_refl _)]
  have hm : min size (ino'.data.length - offset) = size := by rw [hlen]; omega
  rw [hm]
  simp only [Nat.zero_add, List.nil_append]
  congr 2
  rw [← map_range_getD_eq buf size hbuf]
  apply List.map_congr_left
  intro i hi
  rw [List.mem_range] at hi
  have hpos : offset + i < ino'.data.length := by rw [hlen]; omega
  rw [fileByte_wf st' ino' _ hwf' hpos, hby _ (pos_lt_sectors _ _ hpos), if_pos (by omega)]
  congr 1; omega

/-- `inode_read_at` on a well-formed inode delivers the bytes of the file from
`offset` up to the end of the request or of the file. -/
theorem inode_read_at_ok (st : Store) (ino : inode) (size offset : Nat) (hwf : WF st ino) :
    inode_read_at st ino size offset
      = some (min size (ino.data.length - offset),
          (List.range (min size (ino.data.length - offset))).map
            (fun i => fileByte st ino (offset + i))) := by
  unfold inode_read_at
  rw [read_loop_ok st ino hwf size size offset (0, []) (Nat.le_refl _)]
  simp

/-- C10 (denied write).  For every inode with `deny_write_cnt > 0` and every
buffer, size and offset, `inode_write_at` returns 0 and leaves the in-memory
inode (its length included), the device (the disk inode and every other
sector) and the free-map as they were. -/
theorem denied_write (st : Store) (ino : inode) (buf : List Nat) (size offset : Nat)
    (hdeny : 0 < ino.deny_write_cnt) :
    inode_write_at st ino buf size offset = some (0, ino, st) := by
  unfold inode_write_at
  rw [if_pos (by omega)]

/-- After a write that starts past the old end of a file whose last sector is
zero past its length, the bytes between the old length and the offset read as
zero. -/
theorem gap_reads_zero (st : Store) (ino : inode) (buf : List Nat) (size offset : Nat)
    (hwf : WF st ino) (hdeny : ino.deny_write_cnt = 0) (hcap : offset + size ≤ CAPACITY)
    (hbuf : buf.length = size) (hgap : ino.data.length < offset)
    (hpad : ∀ pos, ino.data.length ≤ pos →
      pos < bytes_to_sectors ino.data.length * BLOCK_SECTOR_SIZE →
      diskByte st ino.data.indirection pos = 0)
    (hfree : allocCount (bytes_to_sectors ino.data.length) (bytes_to_sectors (offset + size))
      ≤ freeCount st) :
    ∃ ino' st', inode_write_at st ino buf size offset = some (size, ino', st')
      ∧ inode_read_at st' ino' (offset - ino.data.length) ino.data.length
        = some (offset - ino.data.length, List.replicate (offset - ino.data.length) 0) := by
  obtain ⟨ino', st1, st', hG, hlen, hw, hwf', _, _, _, hby⟩ :=
    inode_write_at_ok st ino buf size offset hwf hdeny hcap (by omega) hfree
  refine ⟨ino', st', hw, ?_⟩
  rw [inode_read_at_ok st' ino' _ _ hwf']
  have hm : min (offset - ino.data.length) (ino'.data.length - ino.data.length)
      = offset - ino.data.length := by rw [hlen]; omega
  rw [hm]
  congr 2
  apply map_range_const
  intro i hi
  have hpos : ino.data.length + i < ino'.data.length := by rw [hlen]; omega
  rw [fileByte_wf st' ino' _ hwf' hpos, hby _ (pos_lt_sectors _ _ hpos), if_neg (by omega)]
  unfold diskByte
  by_cases hk : (ino.data.length + i) / BLOCK_SECTOR_SIZE < bytes_to_sectors ino.data.length
  · have hds := hG.data_same _ hk
    rw [hds]
    rw [hG.frame _ (hwf.layout.data_alloc _ hk) (hwf.layout.data_ne_self _ hk)
      (fun j hj h => hwf.layout.blk_ne_data j _ hj hk h.symm)]
    have := hpad (ino.data.length + i) (by omega)
      (by simp only [BLOCK_SECTOR_SIZE] at hk ⊢; omega)
    exact this
  · rw [hG.fresh_zero _ (by omega) (sector_index_lt _ _ hpos), getD_zeros]

/-- C7 (`inode_read_at` byte count).  For every well-formed inode, offset and
size, `inode_read_at` returns `min size (length - offset)` (0 at or past the
end of the file) and delivers bytes `offset .. offset + result - 1` of the
file, each located through `byte_to_sector`.  The function only reads: it
yields neither a new inode nor a new device or free-map. -/
theorem inode_read_at_count (st : Store) (ino : inode) (size offset : Nat) (hwf : WF st ino) :
    inode_read_at st ino size offset
      = some (min size (ino.data.length - offset),
          (List.range (min size (ino.data.length - offset))).map
            (fun i => fileByte st ino (offset + i))) :=
  inode_read_at_ok st ino size offset hwf

/-! ## `inode_create` -/

theorem free_map_allocate_pos (st : Store) (r : Nat × Store)
    (h : free_map_allocate st = some r) : 0 < freeCount st := by
  unfold free_map_allocate at h
  by_cases hlt : st.free_map.indexOf false < st.free_map.length
  · rw [List.indexOf_lt_length] at hlt
    exact List.count_pos_iff.mpr hlt
  · simp [hlt] at h

theorem add_sector_true_pos (st st' : Store) (b : Nat)
    (h : add_sector st b = some (true, st')) : 0 < freeCount st := by
  unfold add_sector at h
  cases hal : free_map_allocate st with
  | none =>
    rw [hal] at h
    dsimp only at h
    split at h <;> simp at h
  | some r => exact free_map_allocate_pos st r hal

/-- A successful `add_sector` on the block that holds data sector `n`. -/
theorem Layout_add_of_true (st st' : Store) (isec : Nat) (ind : List Nat) (nb n : Nat)
    (hL : Layout st isec ind nb n) (hn : n < nb * TABLE_SIZE)
    (hz : ∀ k, k < n → st.disk (dataSector st ind k) = zeros)
    (h : add_sector st (ind.getD (n / TABLE_SIZE) 0) = some (true, st')) :
    Layout st' isec ind nb (n + 1)
      ∧ (∀ k, k < n + 1 → st'.disk (dataSector st' ind k) = zeros) := by
  obtain ⟨s, st2, hadd, hL2, _, hsfree, _, hnew, hzero, hdata, hframe⟩ :=
    Layout_add st isec ind nb n hL hn (add_sector_true_pos st st' _ h)
  rw [h] at hadd
  have hst : st' = st2 := by
    have := Option.some.inj hadd
    exact (Prod.mk.inj this).2
  subst hst
  refine ⟨hL2, ?_⟩
  intro k hk
  by_cases hkn : k = n
  · rw [hkn, hnew, hzero]
  · have hk' : k < n := by omega
    have hj0 : n / TABLE_SIZE < nb := by simp only [TABLE_SIZE] at hn ⊢; omega
    rw [hdata k hk', hframe _ (fun e => hL.blk_ne_data _ _ hj0 hk' e.symm)
      (fun e => hsfree (e ▸ hL.data_alloc k hk'))]
    exact hz k hk'

/-- The last loop of `inode_create`: `m` data sectors appended to the last
indirection block. -/
theorem create_rest_ok (isec : Nat) (ind : List Nat) (nb : Nat) (m : Nat) :
    ∀ (st st' : Store) (n : Nat), Layout st isec ind nb n → 0 < nb →
    (nb - 1) * TABLE_SIZE ≤ n → n + m ≤ nb * TABLE_SIZE →
    (∀ k, k < n → st.disk (dataSector st ind k) = zeros) →
    create_rest (ind.getD (nb - 1) 0) m st = some (true, st') →
    Layout st' isec ind nb (n + m)
      ∧ (∀ k, k < n + m → st'.disk (dataSector st' ind k) = zeros) := by
  induction m with
  | zero =>
    intro st st' n hL _ _ _ hz h
    simp only [create_rest] at h
    have : st' = st := by
      have := Option.some.inj h
      exact (Prod.mk.inj this).2.symm
    subst this
    exact ⟨hL, hz⟩
  | succ m ih =>
    intro st st' n hL hnb hlo hhi hz h
    unfold create_rest at h
    have hidx : n / TABLE_SIZE = nb - 1 := by
      simp only [TABLE_SIZE] at hlo hhi ⊢; omega
    cases hadd : add_sector st (ind.getD (nb - 1) 0) with
    | none => rw [hadd] at h; simp at h
    | some r =>
      obtain ⟨b, st1⟩ := r
      cases b with
      | false => rw [hadd] at h; simp at h
      | true =>
        rw [hadd] at h
        dsimp only at h
        rw [← hidx] at hadd
        obtain ⟨hL1, hz1⟩ := Layout_add_of_true st st1 isec ind nb n hL
          (by simp only [TABLE_SIZE] at hhi ⊢; omega) hz hadd
        have := ih st1 st' (n + 1) hL1 hnb (by omega) (by omega) hz1 h
        rw [show n + (m + 1) = n + 1 + m by omega]
        exact this

theorem fill_loop_eq (sector : Nat) (m : Nat) : ∀ st, fill_loop sector m st = create_rest sector m st := by
  induction m with
  | zero => intro st; rfl
  | succ m ih =>
    intro st
    unfold fill_loop create_rest
    cases add_sector st sector with
    | none => rfl
    | some r =>
      obtain ⟨b, st1⟩ := r
      cases b with
      | false => rfl
      | true => exact ih st1

/-- The first loop of `inode_create`: `m` further full indirection blocks. -/
theorem create_tables_ok (isec : Nat) (m : Nat) :
    ∀ (st st' : Store) (d d' : inode_disk) (i : Nat),
    d.indirection.length = NUM_TABLES →
    Layout st isec d.indirection i (i * TABLE_SIZE) →
    (∀ k, k < i * TABLE_SIZE → st.disk (dataSector st d.indirection k) = zeros) →
    create_tables m i d st = some (true, d', st') →
    d'.indirection.length = NUM_TABLES ∧ d'.length = d.length
      ∧ Layout st' isec d'.indirection (i + m) ((i + m) * TABLE_SIZE)
      ∧ (∀ k, k < (i + m) * TABLE_SIZE → st'.disk (dataSector st' d'.indirection k) = zeros) := by
  induction m with
  | zero =>
    intro st st' d d' i hlen hL hz h
    simp only [create_tables] at h
    have h1 := Option.some.inj h
    have h2 := (Prod.mk.inj h1).2
    have h3 := Prod.mk.inj h2
    rw [← h3.1, ← h3.2]
    exact ⟨hlen, rfl, hL, hz⟩
  | succ m ih =>
    intro st st' d d' i hlen hL hz h
    unfold create_tables at h
    by_cases hi : NUM_TABLES ≤ i
    · cases hal : free_map_allocate st with
      | none => rw [hal] at h; simp at h
      | some r => rw [hal] at h; simp [hi] at h
    · cases hal : free_map_allocate st with
      | none => rw [hal] at h; simp at h
      | some r =>
        obtain ⟨s, st1⟩ := r
        rw [hal] at h
        dsimp only at h
        rw [if_neg hi] at h
        obtain ⟨s', st1', hal', hL2, _, hsfree, _, hdata2, hframe2⟩ :=
          Layout_new_block st isec d.indirection i (i * TABLE_SIZE) hL (by omega)
            (free_map_allocate_pos st _ hal)
        rw [hal] at hal'
        have e1 := Prod.mk.inj (Option.some.inj hal')
        have es : s = s' := e1.1
        have est : st1 = st1' := e1.2
        subst es est
        have hz2 : ∀ k, k < i * TABLE_SIZE →
            (init_indirection_block st1 s).disk
              (dataSector (init_indirection_block st1 s) (d.indirection.set i s) k) = zeros := by
          intro k hk
          rw [hdata2 k hk, hframe2 _ (fun e => hsfree (e ▸ hL.data_alloc k hk))]
          exact hz k hk
        have hsel : (d.indirection.set i s).getD (i + 1 - 1) 0 = s := by
          rw [Nat.add_sub_cancel, getD_set_eq, if_pos ⟨rfl, by omega⟩]
        unfold fill_indirection_block at h
        rw [fill_loop_eq] at h
        cases hfill : create_rest s TABLE_SIZE (init_indirection_block st1 s) with
        | none => rw [hfill] at h; simp at h
        | some r =>
          obtain ⟨b, st3⟩ := r
          cases b with
          | false => rw [hfill] at h; simp at h
          | true =>
            rw [hfill] at h
            dsimp only at h
            have hfill' : create_rest ((d.indirection.set i s).getD (i + 1 - 1) 0) TABLE_SIZE
                (init_indirection_block st1 s) = some (true, st3) := by
              rw [hsel]; exact hfill
            obtain ⟨hL3, hz3⟩ := create_rest_ok isec (d.indirection.set i s) (i + 1) TABLE_SIZE
              (init_indirection_block st1 s) st3 (i * TABLE_SIZE) hL2 (by omega)
              (by simp) (by simp only [TABLE_SIZE]; omega) hz2 hfill'
            have hL3' : Layout st3 isec (d.indirection.set i s) (i + 1) ((i + 1) * TABLE_SIZE) := by
              rw [show (i + 1) * TABLE_SIZE = i * TABLE_SIZE + TABLE_SIZE by
                simp only [TABLE_SIZE]; omega]
              exact hL3
            have hz3' : ∀ k, k < (i + 1) * TABLE_SIZE →
                st3.disk (dataSector st3 (d.indirection.set i s) k) = zeros := by
              intro k hk
              exact hz3 k (by simp only [TABLE_SIZE] at hk ⊢; omega)
            have := ih st3 st' { d with indirection := d.indirection.set i s } d' (i + 1)
              (by simp [hlen]) hL3' hz3' h
            rw [show i + (m + 1) = i + 1 + m by omega]
            exact this

theorem Layout_empty (st : Store) (isec : Nat) (ind : List Nat)
    (hfm : st.free_map.length ≤ NO_SECTOR) (hal : allocated st isec) :
    Layout st isec ind 0 0 := by
  constructor
  · exact hfm
  · omega
  · exact hal
  all_goals (intros; omega)

theorem ofBytes_inode_indirection_getD (d : inode_disk) (j : Nat) (hj : j < NUM_TABLES) :
    (inode_disk.ofBytes d.bytes).indirection.getD j 0 = d.indirection.getD j 0 % 4294967296 := by
  simp only [inode_disk.ofBytes]
  rw [getD_map_range _ _ _ _ hj, get32_inode_bytes_indirection _ _ hj]

theorem ofBytes_inode_length (d : inode_disk) :
    (inode_disk.ofBytes d.bytes).length = d.length % 4294967296 := by
  simp only [inode_disk.ofBytes]
  exact get32_inode_bytes_length d

theorem ofBytes_inode_indirection_length (bs : List Nat) :
    (inode_disk.ofBytes bs).indirection.length = NUM_TABLES := by
  simp [inode_disk.ofBytes]

/-- A successful `inode_create` leaves a well-formed inode of `N` zero bytes
at `sector`. -/
theorem inode_create_ok (st st' : Store) (sector N is_dir : Nat)
    (hfm : st.free_map.length ≤ NO_SECTOR) (hal : allocated st sector)
    (h : inode_create st sector N is_dir = some (true, st')) (ino : inode)
    (hsec : ino.sector = sector) (hdata : ino.data = inode_disk.ofBytes (st'.disk sector)) :
    WF st' ino ∧ ino.data.length = N
      ∧ (∀ k, k < bytes_to_sectors N →
          st'.disk (dataSector st' ino.data.indirection k) = zeros) := by
  unfold inode_create at h
  dsimp only at h
  cases htab : create_tables (bytes_to_sectors N / TABLE_SIZE) 0
      { length := N, magic := INODE_MAGIC, is_dir := is_dir, parent_directory := 0,
        indirection := List.replicate NUM_TABLES 0 } st with
  | none => rw [htab] at h; simp at h
  | some r =>
    obtain ⟨b, d1, st1⟩ := r
    cases b with
    | false => rw [htab] at h; simp at h
    | true =>
      rw [htab] at h
      dsimp only at h
      obtain ⟨hlen1, hdl1, hL1, hz1⟩ := create_tables_ok sector _ st st1 _ d1 0
        (by simp) (by rw [Nat.zero_mul]; exact Layout_empty st sector _ hfm hal)
        (by intro k hk; omega) htab
      rw [Nat.zero_add] at hL1 hz1
      by_cases hnt : NUM_TABLES ≤ bytes_to_sectors N / TABLE_SIZE
      · cases hal2 : free_map_allocate st1 with
        | none => rw [hal2] at h; simp at h
        | some r2 => rw [hal2] at h; simp [hnt] at h
      · cases hal2 : free_map_allocate st1 with
        | none => rw [hal2] at h; simp at h
        | some r2 =>
          obtain ⟨table, st2⟩ := r2
          rw [hal2] at h
          dsimp only at h
          rw [if_neg hnt] at h
          obtain ⟨s', st2', hal', hL2, _, hsfree, _, hdata2, hframe2⟩ :=
            Layout_new_block st1 sector d1.indirection _ _ hL1 (by omega)
              (free_map_allocate_pos st1 _ hal2)
          rw [hal2] at hal'
          have e1 := Prod.mk.inj (Option.some.inj hal')
          have es : table = s' := e1.1
          have est : st2 = st2' := e1.2
          subst es est
          have hz2 : ∀ k, k < bytes_to_sectors N / TABLE_SIZE * TABLE_SIZE →
              (init_indirection_block st2 table).disk
                (dataSector (init_indirection_block st2 table)
                  (d1.indirection.set (bytes_to_sectors N / TABLE_SIZE) table) k) = zeros := by
            intro k hk
            rw [hdata2 k hk, hframe2 _ (fun e => hsfree (e ▸ hL1.data_alloc k hk))]
            exact hz1 k hk
          have hsel : (d1.indirection.set (bytes_to_sectors N / TABLE_SIZE) table).getD
              (bytes_to_sectors N / TABLE_SIZE + 1 - 1) 0 = table := by
            rw [Nat.add_sub_cancel, getD_set_eq, if_pos ⟨rfl, by omega⟩]
          cases hrest : create_rest table
              (bytes_to_sectors N - bytes_to_sectors N / TABLE_SIZE * TABLE_SIZE)
              (init_indirection_block st2 table) with
          | none => rw [hrest] at h; simp at h
          | some r3 =>
            obtain ⟨b3, st4⟩ := r3
            cases b3 with
            | false => rw [hrest] at h; simp at h
            | true =>
              rw [hrest] at h
              dsimp only at h
              obtain ⟨d2, hd2⟩ : ∃ d2 : inode_disk, d2 = { d1 with
                indirection := d1.indirection.set (bytes_to_sectors N / TABLE_SIZE) table } :=
                ⟨_, rfl⟩
              have hd2i : d2.indirection
                  = d1.indirection.set (bytes_to_sectors N / TABLE_SIZE) table := by rw [hd2]
              have hd2l : d2.length = d1.length := by rw [hd2]
              rw [← hd2] at h
              have hst' : st' = block_write st4 sector d2.bytes := by
                have := Option.some.inj h
                exact (Prod.mk.inj this).2.symm
              have hrest' : create_rest
                  ((d1.indirection.set (bytes_to_sectors N / TABLE_SIZE) table).getD
                    (bytes_to_sectors N / TABLE_SIZE + 1 - 1) 0)
                  (bytes_to_sectors N - bytes_to_sectors N / TABLE_SIZE * TABLE_SIZE)
                  (init_indirection_block st2 table) = some (true, st4) := by
                rw [hsel]; exact hrest
              obtain ⟨hL4, hz4⟩ := create_rest_ok sector _ (bytes_to_sectors N / TABLE_SIZE + 1) _
                (init_indirection_block st2 table) st4 _ hL2 (Nat.succ_pos _) (by simp)
                (by simp only [TABLE_SIZE]; omega) hz2 hrest'
              have hsum : bytes_to_sectors N / TABLE_SIZE * TABLE_SIZE
                  + (bytes_to_sectors N - bytes_to_sectors N / TABLE_SIZE * TABLE_SIZE)
                  = bytes_to_sectors N := by
                simp only [TABLE_SIZE]; omega
              rw [hsum] at hL4 hz4
              -- the inode read back from the device
              have hdisk : st'.disk sector = d2.bytes := by
                rw [hst', block_write_same, inode_bytes_take]
              have hNlt : N < 4294967296 := by
                simp only [bytes_to_sectors, NUM_TABLES, TABLE_SIZE, BLOCK_SECTOR_SIZE] at hnt
                omega
              have hilen : ino.data.length = N := by
                rw [hdata, hdisk, ofBytes_inode_length, hd2l, hdl1]
                exact Nat.mod_eq_of_lt hNlt
              have hind : ∀ j, j < bytes_to_sectors N / TABLE_SIZE + 1 →
                  ino.data.indirection.getD j 0
                    = (d1.indirection.set (bytes_to_sectors N / TABLE_SIZE) table).getD j 0 := by
                intro j hj
                rw [hdata, hdisk, ofBytes_inode_indirection_getD _ _ (by omega), hd2i]
                exact allocated_mod st4 hL4.fm_bound _ (hL4.blk_alloc j hj)
              have hL5 := Layout_write_self st4 sector _ ino.data.indirection _ _
                d2.bytes hL4 hind
              rw [← hst'] at hL5
              refine ⟨⟨?_, ?_, ?_⟩, hilen, ?_⟩
              · rw [hilen]
                simp only [bytes_to_sectors, CAPACITY, NUM_TABLES, TABLE_SIZE, BLOCK_SECTOR_SIZE]
                  at hnt ⊢
                omega
              · rw [hdata]; exact ofBytes_inode_indirection_length _
              · rw [hilen, hsec]
                apply Layout_mono _ _ _ _ _ _ hL5.1
                · simp only [blocksFor, TABLE_SIZE]; omega
                · simp only [blocksFor, TABLE_SIZE]; omega
              · intro k hk
                rw [hL5.2 k hk, hst', block_write_other _ _ _ _ (hL4.data_ne_self k hk)]
                exact hz4 k hk

/-! ## In-memory inodes -/

theorem byte_to_sector_congr (st : Store) (ino ino' : inode) (h : ino.data = ino'.data)
    (pos : Nat) : byte_to_sector st ino pos = byte_to_sector st ino' pos := by
  unfold byte_to_sector
  rw [h]

theorem read_loop_congr (st : Store) (ino ino' : inode) (h : ino.data = ino'.data) (fuel : Nat) :
    ∀ (size offset : Nat) (acc : Nat × List Nat),
    read_loop st ino fuel size offset acc = read_loop st ino' fuel size offset acc := by
  induction fuel with
  | zero => intro size offset acc; rfl
  | succ fuel ih =>
    intro size offset acc
    unfold read_loop
    simp only [byte_to_sector_congr st ino ino' h, inode_length, h, ih]

theorem inode_read_at_congr (st : Store) (ino ino' : inode) (h : ino.data = ino'.data)
    (size offset : Nat) : inode_read_at st ino size offset = inode_read_at st ino' size offset := by
  unfold inode_read_at
  exact read_loop_congr st ino ino' h size size offset (0, [])

theorem deref_lt (fs : FS) (a : Nat) (ino : inode) (h : fs.deref a = some ino) :
    a < fs.heap.length := by
  unfold FS.deref at h
  by_contra hc
  rw [List.getD_eq_default _ _ (by omega)] at h
  cases h

theorem deref_assign (fs : FS) (a x : Nat) (ino : inode) :
    (fs.assign a ino).deref x = if a = x ∧ a < fs.heap.length then some ino else fs.deref x := by
  unfold FS.deref FS.assign
  exact getD_set_eq _ _ _ _ _

theorem assign_store (fs : FS) (a : Nat) (ino : inode) : (fs.assign a ino).store = fs.store := rfl

/-- An assignment that keeps the payload of the object keeps every payload. -/
theorem payload_assign (fs : FS) (a x : Nat) (ino ino' : inode) (h : fs.deref a = some ino)
    (hp : ino'.payload = ino.payload) :
    ((fs.assign a ino').deref x).map inode.payload = (fs.deref x).map inode.payload := by
  rw [deref_assign]
  by_cases hx : a = x ∧ a < fs.heap.length
  · rw [if_pos hx, ← hx.1, h]
    simp [hp]
  · rw [if_neg hx]

theorem set_next_frame (fs fs' : FS) (l v : Link) (h : set_next fs l v = some fs') :
    fs'.store = fs.store
      ∧ ∀ x, (fs'.deref x).map inode.payload = (fs.deref x).map inode.payload := by
  cases l with
  | head =>
    simp only [set_next] at h
    have := Option.some.inj h
    subst this
    exact ⟨rfl, fun _ => rfl⟩
  | node a =>
    simp only [set_next] at h
    cases hd : fs.deref a with
    | none => rw [hd] at h; simp at h
    | some ino =>
      rw [hd] at h
      have := Option.some.inj h
      subst this
      exact ⟨rfl, fun x => payload_assign fs a x ino _ hd rfl⟩
  | tail => simp [set_next] at h
  | null => simp [set_next] at h

theorem set_prev_frame (fs fs' : FS) (l v : Link) (h : set_prev fs l v = some fs') :
    fs'.store = fs.store
      ∧ ∀ x, (fs'.deref x).map inode.payload = (fs.deref x).map inode.payload := by
  cases l with
  | tail =>
    simp only [set_prev] at h
    have := Option.some.inj h
    subst this
    exact ⟨rfl, fun _ => rfl⟩
  | node a =>
    simp only [set_prev] at h
    cases hd : fs.deref a with
    | none => rw [hd] at h; simp at h
    | some ino =>
      rw [hd] at h
      have := Option.some.inj h
      subst this
      exact ⟨rfl, fun x => payload_assign fs a x ino _ hd rfl⟩
  | head => simp [set_prev] at h
  | null => simp [set_prev] at h

theorem list_push_front_frame (fs fs' : FS) (a : Nat) (h : list_push_front fs a = some fs') :
    fs'.store = fs.store
      ∧ ∀ x, (fs'.deref x).map inode.payload = (fs.deref x).map inode.payload := by
  unfold list_push_front at h
  dsimp only at h
  cases hp : get_prev fs fs.head_next with
  | none => rw [hp] at h; simp at h
  | some bp =>
    cases hd : fs.deref a with
    | none => rw [hp, hd] at h; simp at h
    | some ino =>
      rw [hp, hd] at h
      dsimp only at h
      cases h1 : set_next (fs.assign a { ino with elem_prev := bp, elem_next := fs.head_next })
          bp (.node a) with
      | none => rw [h1] at h; simp at h
      | some st2 =>
        rw [h1] at h
        dsimp only at h
        obtain ⟨s1, p1⟩ := set_next_frame _ _ _ _ h1
        obtain ⟨s2, p2⟩ := set_prev_frame _ _ _ _ h
        refine ⟨by rw [s2, s1]; rfl, fun x => ?_⟩
        rw [p2 x, p1 x]
        exact payload_assign fs a x ino _ hd rfl

theorem list_remove_frame (fs fs' : FS) (a : Nat) (h : list_remove fs a = some fs') :
    fs'.store = fs.store
      ∧ ∀ x, (fs'.deref x).map inode.payload = (fs.deref x).map inode.payload := by
  unfold list_remove at h
  cases hd : fs.deref a with
  | none => rw [hd] at h; simp at h
  | some ino =>
    rw [hd] at h
    dsimp only at h
    by_cases hn : ino.elem_prev = .null ∨ ino.elem_next = .null
    · rw [if_pos hn] at h; simp at h
    · rw [if_neg hn] at h
      cases h1 : set_next fs ino.elem_prev ino.elem_next with
      | none => rw [h1] at h; simp at h
      | some st1 =>
        rw [h1] at h
        dsimp only at h
        obtain ⟨s1, p1⟩ := set_next_frame _ _ _ _ h1
        obtain ⟨s2, p2⟩ := set_prev_frame _ _ _ _ h
        exact ⟨by rw [s2, s1], fun x => by rw [p2 x, p1 x]⟩

/-- `inode_open` of a sector that the open-inode list does not hold. -/
theorem inode_open_fresh (fs fs' : FS) (sector a : Nat)
    (hfind : find_open fs sector (fs.heap.length + 1) fs.head_next = some none)
    (h : inode_open fs sector = some (a, fs')) :
    fs'.store = fs.store ∧ ∃ ino, fs'.deref a = some ino ∧ ino.sector = sector
      ∧ ino.open_cnt = 1 ∧ ino.removed = false ∧ ino.deny_write_cnt = 0
      ∧ ino.data = inode_disk.ofBytes (block_read fs.store sector) := by
  unfold inode_open at h
  rw [hfind] at h
  dsimp only at h
  obtain ⟨ino0, hino0⟩ : ∃ x : inode, x = {
      elem_prev := .null, elem_next := .null,
      sector := sector, open_cnt := 1, removed := false, deny_write_cnt := 0,
      data := inode_disk.ofBytes (block_read fs.store sector) } := ⟨_, rfl⟩
  rw [← hino0] at h
  cases hp : list_push_front { fs with heap := fs.heap ++ [some ino0] } fs.heap.length with
  | none => rw [hp] at h; simp at h
  | some st1 =>
    rw [hp] at h
    have e := Prod.mk.inj (Option.some.inj h)
    have ea : fs.heap.length = a := e.1
    have est : st1 = fs' := e.2
    subst ea est
    obtain ⟨s1, p1⟩ := list_push_front_frame _ _ _ hp
    refine ⟨s1, ?_⟩
    have hp1 := p1 fs.heap.length
    have hold : FS.deref { fs with heap := fs.heap ++ [some ino0] } fs.heap.length
        = some ino0 := by
      unfold FS.deref
      rw [List.getD_append_right _ _ _ _ (Nat.le_refl _)]
      simp
    rw [hold] at hp1
    cases hd : st1.deref fs.heap.length with
    | none => rw [hd] at hp1; simp at hp1
    | some ino =>
      rw [hd] at hp1
      simp only [Option.map_some', Option.some.injEq, inode.payload, Prod.mk.injEq] at hp1
      rw [hino0] at hp1
      exact ⟨ino, rfl, hp1.1, hp1.2.1, hp1.2.2.1, hp1.2.2.2.1, hp1.2.2.2.2⟩

theorem read_at_eq (fs : FS) (a : Nat) (ino : inode) (h : fs.deref a = some ino)
    (size offset : Nat) : fs.read_at a size offset = inode_read_at fs.store ino size offset := by
  unfold FS.read_at
  rw [h]

/-- Never-written bytes read as zero when every allocation succeeds. (a) After
`inode_create (sector, N, is_dir)` returned true on a sector that the free-map
marks allocated, and `inode_open (sector)` on a list of open inodes that does
not hold the sector, `inode_read_at` over `[0, N)` returns `N` zero bytes. (b)
For every well-formed inode whose last sector is zero past the length, after an
`inode_write_at` at an offset greater than the old length (every allocation
succeeding), `inode_read_at` over `[old length, offset)` returns zero bytes
only. -/
theorem never_written_reads_zero :
    (∀ (st st' : Store) (sector N is_dir : Nat) (fs fs' : FS) (a : Nat),
      st.free_map.length ≤ NO_SECTOR → allocated st sector →
      inode_create st sector N is_dir = some (true, st') →
      fs.store = st' →
      find_open fs sector (fs.heap.length + 1) fs.head_next = some none →
      inode_open fs sector = some (a, fs') →
      fs'.read_at a N 0 = some (N, List.replicate N 0))
    ∧ (∀ (st : Store) (ino : inode) (buf : List Nat) (size offset : Nat),
      WF st ino → ino.deny_write_cnt = 0 → offset + size ≤ CAPACITY → buf.length = size →
      ino.data.length < offset →
      (∀ pos, ino.data.length ≤ pos →
        pos < bytes_to_sectors ino.data.length * BLOCK_SECTOR_SIZE →
        diskByte st ino.data.indirection pos = 0) →
      allocCount (bytes_to_sectors ino.data.length) (bytes_to_sectors (offset + size))
        ≤ freeCount st →
      ∃ ino' st', inode_write_at st ino buf size offset = some (size, ino', st')
        ∧ inode_read_at st' ino' (offset - ino.data.length) ino.data.length
          = some (offset - ino.data.length, List.replicate (offset - ino.data.length) 0)) := by
  constructor
  · intro st st' sector N is_dir fs fs' a hfm hal hcr hst hfind hopen
    obtain ⟨hs, ino, hd, hsec, _, _, _, hdata⟩ := inode_open_fresh fs fs' sector a hfind hopen
    rw [read_at_eq fs' a ino hd, hs, hst]
    have hdata' : ino.data = inode_disk.ofBytes (st'.disk sector) := by
      rw [hdata, hst]; rfl
    obtain ⟨hwf, hlen, hz⟩ := inode_create_ok st st' sector N is_dir hfm hal hcr ino hsec hdata'
    rw [inode_read_at_ok st' ino N 0 hwf, hlen]
    have hm : min N (N - 0) = N := by omega
    rw [hm]
    congr 2
    apply map_range_const
    intro i hi
    rw [fileByte_wf st' ino _ hwf (by rw [hlen]; omega)]
    unfold diskByte
    rw [hz _ (sector_index_lt _ _ (by omega)), getD_zeros]
  · intro st ino buf size offset hwf hdeny hcap hbuf hgap hpad hfree
    exact gap_reads_zero st ino buf size offset hwf hdeny hcap hbuf hgap hpad hfree

theorem assign_assign (fs : FS) (a : Nat) (x y : inode) :
    (fs.assign a x).assign a y = fs.assign a y := by
  unfold FS.assign
  simp

/-- C6 (deferred deallocation).  `inode_remove` changes nothing but the
`removed` flag of the inode.  A following `inode_close` that leaves
`open_cnt > 0` only decrements `open_cnt`: the device and the free-map are as
before, and `inode_read_at` through the inode returns what it returned before
the removal.  Whenever an `inode_close` changes the device or the free-map,
the inode was removed and the close took `open_cnt` from 1 to 0. -/
theorem deferred_deallocation (fs : FS) (a : Nat) (ino : inode) (hd : fs.deref a = some ino) :
    inode_remove fs a = some (fs.assign a { ino with removed := true })
    ∧ (1 < ino.open_cnt →
        inode_close (fs.assign a { ino with removed := true }) (some a)
          = some (fs.assign a { ino with removed := true, open_cnt := ino.open_cnt - 1 })
        ∧ (fs.assign a { ino with removed := true, open_cnt := ino.open_cnt - 1 }).store = fs.store
        ∧ ∀ size offset,
          (fs.assign a { ino with removed := true, open_cnt := ino.open_cnt - 1 }).read_at
            a size offset = fs.read_at a size offset)
    ∧ (∀ fs', inode_close fs (some a) = some fs' → fs'.store ≠ fs.store →
        ino.open_cnt = 1 ∧ ino.removed = true) := by
  have hlt := deref_lt fs a ino hd
  refine ⟨?_, ?_, ?_⟩
  · unfold inode_remove
    rw [hd]; rfl
  · intro hcnt
    refine ⟨?_, rfl, ?_⟩
    · unfold inode_close
      dsimp only
      rw [deref_assign, if_pos ⟨rfl, hlt⟩]
      dsimp only
      rw [if_neg (by omega), assign_assign]
    · intro size offset
      rw [read_at_eq _ a _ (by rw [deref_assign, if_pos ⟨rfl, hlt⟩]), read_at_eq fs a ino hd]
      rw [assign_store]
      apply inode_read_at_congr
      rfl
  · intro fs' hclose hne
    unfold inode_close at hclose
    dsimp only at hclose
    rw [hd] at hclose
    dsimp only at hclose
    by_cases h0 : ino.open_cnt - 1 = 0
    · rw [if_pos h0] at hclose
      refine ⟨by omega, ?_⟩
      cases hrm : list_remove (fs.assign a { ino with open_cnt := ino.open_cnt - 1 }) a with
      | none => rw [hrm] at hclose; simp at hclose
      | some st2 =>
        rw [hrm] at hclose
        dsimp only at hclose
        obtain ⟨s2, _⟩ := list_remove_frame _ _ _ hrm
        cases hr : ino.removed with
        | true => rfl
        | false =>
          rw [hr] at hclose
          simp only [Bool.false_eq_true, if_false, Option.map_some', Option.some.injEq] at hclose
          exfalso
          apply hne
          rw [← hclose]
          exact s2
    · rw [if_neg h0] at hclose
      exfalso
      apply hne
      rw [← Option.some.inj hclose]
      rfl

/-! ## Releasing the sectors of a removed inode -/

theorem free_map_release_frame (st : Store) (s : Nat) :
    (free_map_release st s).disk = st.disk
      ∧ ¬ allocated (free_map_release st s) s
      ∧ ∀ x, ¬ allocated st x → ¬ allocated (free_map_release st s) x := by
  refine ⟨rfl, ?_, ?_⟩
  · unfold allocated free_map_release
    rw [getD_set_eq]
    by_cases h : s < st.free_map.length
    · rw [if_pos ⟨rfl, h⟩]; exact Bool.false_ne_true
    · rw [if_neg (fun hc => h hc.2), List.getD_eq_default _ _ (by omega)]
      exact Bool.false_ne_true
  · intro x hx
    unfold allocated free_map_release at *
    rw [getD_set_eq]
    split
    · exact Bool.false_ne_true
    · exact hx

theorem explode_loop_frame (ind : indirection_block) (n : Nat) :
    ∀ (i : Nat) (st : Store), (explode_loop ind n i st).disk = st.disk
      ∧ ∀ x, ¬ allocated st x → ¬ allocated (explode_loop ind n i st) x := by
  induction n with
  | zero => intro i st; exact ⟨rfl, fun _ h => h⟩
  | succ n ih =>
    intro i st
    unfold explode_loop
    obtain ⟨h1, h2⟩ := ih (i + 1) (free_map_release st (ind.sectors.getD i 0))
    obtain ⟨f1, _, f3⟩ := free_map_release_frame st (ind.sectors.getD i 0)
    exact ⟨by rw [h1, f1], fun x hx => h2 x (f3 x hx)⟩

/-- `ind_block_explode` on a block whose header is within `TABLE_SIZE`. -/
theorem ind_block_explode_ok (st : Store) (b : Nat) (h : headerAt st b ≤ TABLE_SIZE) :
    ∃ st', ind_block_explode st b = some st' ∧ st'.disk = st.disk ∧ ¬ allocated st' b
      ∧ ∀ x, ¬ allocated st x → ¬ allocated st' x := by
  unfold ind_block_explode
  dsimp only
  have hh : (indirection_block.ofBytes (block_read st b)).length = headerAt st b := rfl
  rw [hh, if_neg (by simp only [TABLE_SIZE] at h; omega), if_neg (by omega)]
  obtain ⟨e1, e2⟩ := explode_loop_frame (indirection_block.ofBytes (block_read st b))
    (headerAt st b) 0 st
  obtain ⟨f1, f2, f3⟩ := free_map_release_frame
    (explode_loop (indirection_block.ofBytes (block_read st b)) (headerAt st b) 0 st) b
  exact ⟨_, rfl, by rw [f1, e1], f2, fun x hx => f3 x (e2 x hx)⟩

/-- The deallocation loop of `inode_close` over blocks whose headers are
within `TABLE_SIZE`. -/
theorem close_loop_ok (d : inode_disk) (m : Nat) :
    ∀ (i : Nat) (st : Store),
    (∀ j, i ≤ j → j < i + m →
      j < NUM_TABLES ∧ headerAt st (d.indirection.getD j 0) ≤ TABLE_SIZE) →
    ∃ st', close_loop d m i st = some st' ∧ st'.disk = st.disk
      ∧ (∀ x, ¬ allocated st x → ¬ allocated st' x)
      ∧ ∀ j, i ≤ j → j < i + m → ¬ allocated st' (d.indirection.getD j 0) := by
  induction m with
  | zero =>
    intro i st _
    exact ⟨st, rfl, rfl, fun _ h => h, fun j h1 h2 => by omega⟩
  | succ m ih =>
    intro i st h
    unfold close_loop
    obtain ⟨hi1, hi2⟩ := h i (Nat.le_refl _) (by omega)
    rw [if_neg (by omega)]
    obtain ⟨st1, he, hd1, hrel1, hkeep1⟩ := ind_block_explode_ok st _ hi2
    rw [he]
    dsimp only
    obtain ⟨st2, hc, hd2, hkeep2, hrel2⟩ := ih (i + 1) st1 (by
      intro j h1 h2
      obtain ⟨a1, a2⟩ := h j (by omega) (by omega)
      refine ⟨a1, ?_⟩
      unfold headerAt at a2 ⊢
      rw [hd1]; exact a2)
    refine ⟨st2, hc, by rw [hd2, hd1], fun x hx => hkeep2 x (hkeep1 x hx), ?_⟩
    intro j h1 h2
    by_cases hj : j = i
    · rw [hj]; exact hkeep2 _ hrel1
    · exact hrel2 j (by omega) (by omega)

theorem WF_congr (st : Store) (ino ino' : inode) (hs : ino'.sector = ino.sector)
    (hd : ino'.data = ino.data) (h : WF st ino) : WF st ino' := by
  constructor
  · rw [hd]; exact h.cap
  · rw [hd]; exact h.ind_len
  · rw [hd, hs]; exact h.layout

/-- The last close of a removed file whose length is a whole number of full
indirection blocks releases the sector recorded in the next slot of
`indirection`, which growth never allocated: sector 0 for a grown file. -/
theorem close_full_releases_next (st : Store) (ino : inode) (hwf : WF st ino)
    (hcnt : ino.open_cnt = 1) (hrm : ino.removed = true)
    (hprev : ino.elem_prev = .head) (hnext : ino.elem_next = .tail)
    (hpos : 0 < bytes_to_sectors ino.data.length)
    (hfull : bytes_to_sectors ino.data.length % TABLE_SIZE = 0)
    (hlim : bytes_to_sectors ino.data.length / TABLE_SIZE < NUM_TABLES)
    (hz : headerAt st (ino.data.indirection.getD
      (bytes_to_sectors ino.data.length / TABLE_SIZE) 0) ≤ TABLE_SIZE) :
    ∃ fs', inode_close (exampleFS st ino) (some 0) = some fs'
      ∧ ¬ allocated fs'.store (ino.data.indirection.getD
          (bytes_to_sectors ino.data.length / TABLE_SIZE) 0) := by
  have hbf : blocksFor (bytes_to_sectors ino.data.length)
      = bytes_to_sectors ino.data.length / TABLE_SIZE := by
    simp only [blocksFor, TABLE_SIZE] at hfull hpos ⊢; omega
  obtain ⟨s1, hc, hd1, hkeep, hrel⟩ := close_loop_ok ino.data
    (bytes_to_sectors ino.data.length / TABLE_SIZE + 1) 0 st (by
      intro j _ hj
      refine ⟨by omega, ?_⟩
      by_cases hjl : j < bytes_to_sectors ino.data.length / TABLE_SIZE
      · rw [hwf.layout.blk_hdr j (by rw [hbf]; exact hjl)]
        exact Nat.min_le_left _ _
      · have : j = bytes_to_sectors ino.data.length / TABLE_SIZE := by omega
        rw [this]; exact hz)
  have hrel' := hrel (bytes_to_sectors ino.data.length / TABLE_SIZE) (Nat.zero_le _) (by omega)
  obtain ⟨_, _, f3⟩ := free_map_release_frame s1 ino.sector
  refine ⟨FS.mk (free_map_release s1 ino.sector) [none] .tail .head none, ?_, f3 _ hrel'⟩
  unfold inode_close
  simp only [exampleFS, FS.deref, FS.assign, list_remove, set_next, set_prev, List.getD_cons_zero,
    List.set_cons_zero, hcnt, hrm, hprev, hnext, Int.sub_self, if_true, hc, Option.map_some',
    reduceCtorEq, or_self, if_false]

/-! ## Example states -/

set_option maxRecDepth 1000000 in
theorem exampleInode_wf : WF exampleStore exampleInode := by
  refine ⟨by decide!, by decide!, ?_⟩
  have hn : bytes_to_sectors exampleInode.data.length = 0 := by decide!
  have hb : blocksFor (bytes_to_sectors exampleInode.data.length) = 1 := by decide!
  constructor
  · decide!
  · decide!
  · decide!
  · decide!
  · decide!
  · decide!
  · decide!
  · decide!
  · decide!
  · intro j k _ hk; rw [hn] at hk; omega
  · intro j j' hj hj' _; rw [hb] at hj hj'; omega
  · intro k k' hk; rw [hn] at hk; omega

set_option maxRecDepth 1000000 in
theorem helloInode_wf : WF helloStore helloInode := by
  refine ⟨by decide!, by decide!, ?_⟩
  have hn : bytes_to_sectors helloInode.data.length = 1 := by decide!
  have hb : blocksFor (bytes_to_sectors helloInode.data.length) = 1 := by decide!
  constructor
  · decide!
  · decide!
  · decide!
  · decide!
  · decide!
  · decide!
  · decide!
  · decide!
  · decide!
  · intro j k hj hk
    rw [hb] at hj; rw [hn] at hk
    have h1 : j = 0 := by omega
    have h2 : k = 0 := by omega
    subst h1 h2
    decide!
  · intro j j' hj hj' _; rw [hb] at hj hj'; omega
  · intro k k' hk hk' _; rw [hn] at hk hk'; omega

set_option maxRecDepth 1000000 in
/-- C1 at a write of `hello` that straddles the first two sectors of an empty
file. -/
theorem write_read_round_trip_witness :
    WF exampleStore exampleInode
    ∧ ∃ ino' st', inode_write_at exampleStore exampleInode (cstr "hello") 5 510
          = some (5, ino', st')
        ∧ inode_read_at st' ino' 5 510 = some (5, cstr "hello") :=
  ⟨exampleInode_wf,
    write_read_round_trip exampleStore exampleInode (cstr "hello") 5 510 exampleInode_wf
      (by decide!) (by decide!) (by decide!) (by decide!)⟩

set_option maxRecDepth 1000000 in
/-- C7 at a read of 10 bytes from offset 2 of a five-byte file. -/
theorem inode_read_at_count_witness :
    WF helloStore helloInode
    ∧ inode_read_at helloStore helloInode 10 2
      = some (3, [fileByte helloStore helloInode 2, fileByte helloStore helloInode 3,
          fileByte helloStore helloInode 4]) :=
  ⟨helloInode_wf, inode_read_at_count helloStore helloInode 10 2 helloInode_wf⟩

set_option maxRecDepth 1000000 in
/-- Never-written bytes read as zero, at a new file of 600 bytes and at a
write at offset 1000 of an empty file of a device with free sectors. -/
theorem never_written_reads_zero_witness :
    (∃ st' a fs', inode_create exampleStore 2 600 0 = some (true, st')
        ∧ inode_open (emptyFS st') 2 = some (a, fs')
        ∧ fs'.read_at a 600 0 = some (600, List.replicate 600 0))
    ∧ (∃ ino' st', inode_write_at exampleStore exampleInode (cstr "hello") 5 1000
          = some (5, ino', st')
        ∧ inode_read_at st' ino' 1000 0 = some (1000, List.replicate 1000 0)) := by
  constructor
  · have hb : (inode_create exampleStore 2 600 0).map Prod.fst = some true := by decide!
    cases hc : inode_create exampleStore 2 600 0 with
    | none => rw [hc] at hb; simp at hb
    | some r =>
      obtain ⟨b, st'⟩ := r
      rw [hc] at hb
      simp only [Option.map_some', Option.some.injEq] at hb
      subst hb
      have hfind : find_open (emptyFS st') 2 ((emptyFS st').heap.length + 1)
          (emptyFS st').head_next = some none := rfl
      cases ho : inode_open (emptyFS st') 2 with
      | none =>
        unfold inode_open at ho
        rw [hfind] at ho
        simp [emptyFS, list_push_front, get_prev, FS.deref, FS.assign, set_next, set_prev] at ho
      | some r =>
        obtain ⟨a, fs'⟩ := r
        exact ⟨st', a, fs', rfl, ho,
          never_written_reads_zero.1 exampleStore st' 2 600 0 (emptyFS st') fs' a
            (by decide!) (by decide!) hc rfl hfind ho⟩
  · exact never_written_reads_zero.2 exampleStore exampleInode (cstr "hello") 5 1000
      exampleInode_wf (by decide!) (by decide!) (by decide!) (by decide!)
      (fun pos _ h2 => absurd h2 (by
        rw [show bytes_to_sectors exampleInode.data.length = 0 by decide!]; omega))
      (by decide!)

set_option maxRecDepth 1000000 in
/-- C6 at a five-byte file that two openers hold. -/
theorem deferred_deallocation_witness :
    (exampleFS helloStore { helloInode with open_cnt := 2 }).deref 0
      = some { helloInode with open_cnt := 2 }
    ∧ inode_remove (exampleFS helloStore { helloInode with open_cnt := 2 }) 0
      = some ((exampleFS helloStore { helloInode with open_cnt := 2 }).assign 0
          { helloInode with open_cnt := 2, removed := true })
    ∧ ∀ size offset,
        ((exampleFS helloStore { helloInode with open_cnt := 2 }).assign 0
          { helloInode with open_cnt := 2 - 1, removed := true }).read_at 0 size offset
        = (exampleFS helloStore { helloInode with open_cnt := 2 }).read_at 0 size offset :=
  ⟨rfl,
    (deferred_deallocation (exampleFS helloStore { helloInode with open_cnt := 2 }) 0
      { helloInode with open_cnt := 2 } rfl).1,
    ((deferred_deallocation (exampleFS helloStore { helloInode with open_cnt := 2 }) 0
      { helloInode with open_cnt := 2 } rfl).2.1 (by decide)).2.2⟩

/-- C10 at a five-byte file with one write denial. -/
theorem denied_write_witness :
    inode_write_at helloStore { helloInode with deny_write_cnt := 1 } (cstr "hello") 5 0
      = some (0, { helloInode with deny_write_cnt := 1 }, helloStore) :=
  denied_write helloStore { helloInode with deny_write_cnt := 1 } (cstr "hello") 5 0 (by decide)

set_option maxRecDepth 1000000 in
/-- C2 (create then open), at the path of the claim.  On a freshly formatted
device with `/dir1` and `/dir1/dir2` made, `filesys_create
("/dir1/dir2/file1", 0)` returns true and the `filesys_open` of the same path
that follows returns null: `dir_lookup` walks only the first `NAME_MAX` bytes
of the path, so its last segment is `fil`. -/
theorem create_then_open_long_path_fails :
    ((boot 64).bind (run_calls [
        (fun s => dir_make s (cstr "/dir1")),
        (fun s => dir_make s (cstr "/dir1/dir2")),
        (fun s => filesys_create s (cstr "/dir1/dir2/file1") 0)])).bind
      (fun r => (filesys_open r.2 (cstr "/dir1/dir2/file1")).map
        (fun o => (r.1, o.1.map (fun f => f.inode))))
      = some ([true, true, true], none) := by
  decide!

set_option maxRecDepth 1000000 in
/-- C3 (create/remove round trip), at a path of 17 bytes.  With `/a` holding
a file named by 11 letters `b` (inode sector 9), `filesys_create` and
`filesys_remove` of `/a/` followed by 14 letters `b` both return true, and the
`filesys_open` of that path that follows returns a handle, on inode sector 9:
`dir_lookup` walks only the first `NAME_MAX` bytes of the path. -/
theorem create_remove_open_finds_alias :
    ((boot 64).bind (run_calls [
        (fun s => dir_make s (cstr "/a")),
        (fun s => filesys_create s (cstr "/a/bbbbbbbbbbb") 0),
        (fun s => filesys_create s (cstr "/a/bbbbbbbbbbbbbb") 0),
        (fun s => filesys_remove s (cstr "/a/bbbbbbbbbbbbbb"))])).bind
      (fun r => (filesys_open r.2 (cstr "/a/bbbbbbbbbbbbbb")).map
        (fun o => (r.1, o.1.bind (fun f => inode_get_inumber o.2 f.inode))))
      = some ([true, true, true, true], some 9) := by
  decide!

set_option maxRecDepth 1000000 in
/-- C4 (removing a directory first refused as non-empty), at the sequence of
the claim.  On a freshly formatted device `dir_make ("/d")` and
`filesys_create ("/d/x", 0)` return true, and the three calls `filesys_remove
("/d")`, `filesys_remove ("/d/x")`, `filesys_remove ("/d")` return false, true
and false: the refused removal returns without closing the inode it opened,
so the emptied directory is found open by the last call. -/
theorem remove_emptied_directory_refused :
    ((boot 64).bind (run_calls [
        (fun s => dir_make s (cstr "/d")),
        (fun s => filesys_create s (cstr "/d/x") 0),
        (fun s => filesys_remove s (cstr "/d")),
        (fun s => filesys_remove s (cstr "/d/x")),
        (fun s => filesys_remove s (cstr "/d"))])).map Prod.fst
      = some [true, true, false, true, false] := by
  decide!

set_option maxRecDepth 1000000 in
/-- C5 (final close of a removed inode), at a file grown from length 0 to
exactly `TABLE_SIZE * BLOCK_SECTOR_SIZE` bytes by one write.  Sector 0 is
allocated after the write and is none of the file's sectors, yet the close of
the removed file by its only opener releases it: `inode_close` also explodes
`indirection[1]`, which growth never allocated and which holds 0. -/
theorem grown_file_close_releases_sector_zero :
    ∃ ino' st', inode_write_at exampleStore exampleInode
          (List.replicate (TABLE_SIZE * BLOCK_SECTOR_SIZE) 7) (TABLE_SIZE * BLOCK_SECTOR_SIZE) 0
        = some (TABLE_SIZE * BLOCK_SECTOR_SIZE, ino', st')
      ∧ ino'.data.length = TABLE_SIZE * BLOCK_SECTOR_SIZE
      ∧ allocated st' 0
      ∧ ∃ fs', inode_close (exampleFS st' { ino' with removed := true }) (some 0) = some fs'
          ∧ ¬ allocated fs'.store 0 := by
  obtain ⟨ino', st1, st', hG, hlen, hw, hwf', hfm, _, hfr, _⟩ :=
    inode_write_at_ok exampleStore exampleInode
      (List.replicate (TABLE_SIZE * BLOCK_SECTOR_SIZE) 7) (TABLE_SIZE * BLOCK_SECTOR_SIZE) 0
      exampleInode_wf (by decide!) (by decide!) (by simp) (by decide!)
  have hlen' : ino'.data.length = TABLE_SIZE * BLOCK_SECTOR_SIZE := by
    rw [hlen]; decide!
  have hn : bytes_to_sectors ino'.data.length = TABLE_SIZE := by rw [hlen']; decide!
  have h0 : allocated exampleStore 0 := by decide!
  have hal1 : allocated st1 0 := hG.alloc_mono 0 h0
  have hal' : allocated st' 0 := by
    unfold allocated at hal1 ⊢; rw [hfm]; exact hal1
  refine ⟨ino', st', hw, hlen', hal', ?_⟩
  have hslot : ino'.data.indirection.getD (bytes_to_sectors ino'.data.length / TABLE_SIZE) 0
      = 0 := by
    rw [hn, hG.ind_rest _ (by rw [hn]; decide!)]
    decide!
  have hdisk0 : st'.disk 0 = zeros := by
    rw [hfr 0 (fun k hk e => hG.data_fresh k (Nat.zero_le _) hk (e ▸ h0)),
      hG.frame 0 h0 (by decide!) (by
        intro j hj
        have : j = 0 := by
          have : blocksFor (bytes_to_sectors exampleInode.data.length) = 1 := by decide!
          omega
        rw [this]; decide!)]
    rfl
  have hsame := hG.same
  have hwf'' : WF st' { ino' with removed := true } := WF_congr st' ino' _ rfl rfl hwf'
  obtain ⟨fs', hc, hrel⟩ := close_full_releases_next st' { ino' with removed := true } hwf''
    (by rw [hsame]; rfl) rfl (by rw [hsame]; rfl) (by rw [hsame]; rfl)
    (by show 0 < bytes_to_sectors ino'.data.length; rw [hn]; decide!)
    (by show bytes_to_sectors ino'.data.length % TABLE_SIZE = 0; rw [hn]; decide!)
    (by show bytes_to_sectors ino'.data.length / TABLE_SIZE < NUM_TABLES; rw [hn]; decide!)
    (by
      show headerAt st' (ino'.data.indirection.getD
        (bytes_to_sectors ino'.data.length / TABLE_SIZE) 0) ≤ TABLE_SIZE
      rw [hslot]; unfold headerAt; rw [hdisk0, get32_zeros]; exact Nat.zero_le _)
  refine ⟨fs', hc, ?_⟩
  have : ({ ino' with removed := true } : inode).data.indirection.getD
      (bytes_to_sectors ({ ino' with removed := true } : inode).data.length / TABLE_SIZE) 0
      = 0 := hslot
  rw [this] at hrel
  exact hrel

/-! ## Call sequences evaluated on example states -/

set_option maxRecDepth 1000000 in
/-- C11 (directories and deny-write), at an empty directory opened once: a
write of one byte is accepted beforehand; after `inode_deny_write` and its
matching `inode_allow_write` the `deny_write_cnt` is still 1 and the same
write returns 0, because `inode_allow_write` returns early for a directory
and `inode_deny_write` has no such test. -/
theorem directory_deny_allow_blocks_write :
    (inode_write_at exampleStore exampleDir [7] 1 0).map (fun r => r.1) = some 1
    ∧ ∃ ino1 ino2, inode_deny_write exampleDir = some ino1
      ∧ inode_allow_write ino1 = some ino2
      ∧ ino2.deny_write_cnt = 1
      ∧ inode_write_at exampleStore ino2 [7] 1 0 = some (0, ino2, exampleStore) := by
  refine ⟨by decide!, _, _, rfl, rfl, by decide, ?_⟩
  rfl

set_option maxRecDepth 1000000 in
/-- C12 (unique names after `dir_add`), on a freshly formatted device of 64
sectors: `filesys_create ("/.", 0)` returns true twice, that is `dir_add
(root, ".", sector)` returned true twice, and the root directory then lists
two in-use entries named `.`. -/
theorem dir_add_dot_twice_in_root :
    ((boot 64).bind fun fs => (filesys_create fs (cstr "/.") 0).bind fun r1 =>
      (filesys_create r1.2 (cstr "/.") 0).bind fun r2 =>
        r2.2.cur_directory.bind fun d =>
          (readdir_all r2.2 17 d).map fun l => (r1.1, r2.1, l.1))
      = some (true, true, [cstr ".", cstr "."]) := by
  decide!

set_option maxRecDepth 1000000 in
/-- C14 (path resolution consumes every segment), at the path
`/dir1/dir2/file1` of a file that was created: looking up every segment of
the whole path finds the inode of the file, at sector 12, while `dir_lookup`
returns false, having walked only the first `NAME_MAX` bytes of the path. -/
theorem dir_lookup_stops_at_name_max :
    ((boot 64).bind fun fs =>
      (run_calls [fun s => dir_make s (cstr "/dir1"), fun s => dir_make s (cstr "/dir1/dir2"),
        fun s => filesys_create s (cstr "/dir1/dir2/file1") 0] fs).bind fun r =>
      r.2.cur_directory.bind fun d =>
        (dir_lookup r.2 (some d) (cstr "/dir1/dir2/file1")).bind fun c =>
          (dir_lookup_spec r.2 d (cstr "/dir1/dir2/file1")).map fun s =>
            (r.1, c.1.isSome, s.1.bind (inode_get_inumber s.2)))
      = some ([true, true, true], false, some 12) := by
  decide!

/-- C16 (`inode_create` reports allocation failure): when `calloc` yields a
null `disk_inode`, `inode_create (7, 100, 0)` returns true and sector 7 holds
no disk inode (neither the magic number nor the length). -/
theorem inode_create_true_without_disk_inode :
    ∃ st', inode_create_calloc false exampleStore 7 100 0 = some (true, st')
      ∧ (inode_disk.ofBytes (block_read st' 7)).magic ≠ INODE_MAGIC
      ∧ (inode_disk.ofBytes (block_read st' 7)).length ≠ 100 := by
  refine ⟨exampleStore, rfl, ?_, ?_⟩ <;> decide!

set_option maxRecDepth 1000000 in
/-- C17 (open counts balanced by the facade), on a freshly formatted device:
`filesys_open ("/nofile")` returns null and leaves the `open_cnt` of the root
directory's inode at 2 where it was 1. -/
theorem filesys_open_null_keeps_root_open :
    ((boot 64).bind fun fs => (filesys_open fs (cstr "/nofile")).map fun r =>
      (r.1.isNone, open_cnt_of fs ROOT_DIR_SECTOR, open_cnt_of r.2 ROOT_DIR_SECTOR))
      = some (true, some 1, some 2) := by
  decide!

set_option maxRecDepth 1000000 in
/-- C18 (mkdir is not idempotent), on a freshly formatted device with the
directory `/d1`: `dir_make ("/d1/aaaaaaaaaaaa")` returns true, and the
immediately following call with the same path returns true again and takes
three more sectors from the free-map. -/
theorem dir_make_twice_returns_true :
    ((boot 64).bind fun fs => (dir_make fs (cstr "/d1")).bind fun r1 =>
      (dir_make r1.2 (cstr "/d1/aaaaaaaaaaaa")).bind fun r2 =>
        (dir_make r2.2 (cstr "/d1/aaaaaaaaaaaa")).map fun r3 =>
          (r1.1, r2.1, r3.1, freeCount r2.2.store, freeCount r3.2.store))
      = some (true, true, true, 52, 49) := by
  decide!

set_option maxRecDepth 1000000 in
/-- C19 (the current directory is a directory), on a freshly formatted
device: after `filesys_create ("/f", 0)` the current directory has `is_dir`
set; `change_dir ("/f")` returns true and the inode of the current directory
then has `is_dir = 0`. -/
theorem change_dir_into_regular_file :
    ((boot 64).bind fun fs => (filesys_create fs (cstr "/f") 0).bind fun r1 =>
      (change_dir r1.2 (cstr "/f")).map fun r2 =>
        (r1.1, cur_is_dir r1.2, r2.1, cur_is_dir r2.2))
      = some (true, some 1, true, some 0) := by
  decide!

/-! ## Reading directory entries -/

theorem dir_entry_bytes_length (e : dir_entry) : e.bytes.length = DIR_ENTRY_SIZE := by
  simp [dir_entry.bytes, put32, NAME_MAX, DIR_ENTRY_SIZE]

/-- A read of a whole entry slot below the length of the directory. -/
theorem read_entry_full (fs : FS) (a : Nat) (ino : inode) (e : dir_entry) (ofs : Nat)
    (hd : fs.deref a = some ino) (hwf : WF fs.store ino)
    (h : ofs + DIR_ENTRY_SIZE ≤ ino.data.length) :
    read_entry fs a e ofs = some (DIR_ENTRY_SIZE, slotAt fs.store ino ofs) := by
  unfold read_entry
  rw [read_at_eq fs a ino hd, inode_read_at_ok _ _ _ _ hwf]
  have hm : min DIR_ENTRY_SIZE (ino.data.length - ofs) = DIR_ENTRY_SIZE := by omega
  rw [hm]
  dsimp only
  have hl : ((List.range DIR_ENTRY_SIZE).map (fun i => fileByte fs.store ino (ofs + i))).length
      = DIR_ENTRY_SIZE := by simp
  rw [hl, List.drop_of_length_le (by rw [dir_entry_bytes_length]), List.append_nil]
  rfl

/-- A read of an entry slot that the length of the directory cuts short. -/
theorem read_entry_short (fs : FS) (a : Nat) (ino : inode) (e : dir_entry) (ofs : Nat)
    (hd : fs.deref a = some ino) (hwf : WF fs.store ino)
    (h : ino.data.length < ofs + DIR_ENTRY_SIZE) :
    ∃ n e1, read_entry fs a e ofs = some (n, e1) ∧ n ≠ DIR_ENTRY_SIZE := by
  unfold read_entry
  rw [read_at_eq fs a ino hd, inode_read_at_ok _ _ _ _ hwf]
  exact ⟨_, _, rfl, by simp only [DIR_ENTRY_SIZE] at h ⊢; omega⟩

theorem scan_fuel_eq (fs : FS) (a : Nat) (ino : inode) (hd : fs.deref a = some ino) :
    scan_fuel fs a = ino.data.length / DIR_ENTRY_SIZE + 1 := by
  unfold scan_fuel
  rw [hd]

theorem readdir_loop_ok (fs : FS) (a : Nat) (ino : inode) (m : Nat)
    (hd : fs.deref a = some ino) (hwf : WF fs.store ino)
    (hm : m = ino.data.length / DIR_ENTRY_SIZE) (n : Nat) :
    ∀ (k fuel : Nat) (e : dir_entry), k + n = m → n < fuel →
      readdir_loop fs a fuel e (k * DIR_ENTRY_SIZE) = some (next_name fs.store ino n k) := by
  induction n with
  | zero =>
    intro k fuel e hk hf
    obtain ⟨f, rfl⟩ : ∃ f, fuel = f + 1 := ⟨fuel - 1, by omega⟩
    unfold readdir_loop
    obtain ⟨n1, e1, hr, hn⟩ := read_entry_short fs a ino e (k * DIR_ENTRY_SIZE) hd hwf (by
      simp only [DIR_ENTRY_SIZE] at hm ⊢; omega)
    rw [hr]
    simp only [if_neg hn]
    rfl
  | succ n ih =>
    intro k fuel e hk hf
    obtain ⟨f, rfl⟩ : ∃ f, fuel = f + 1 := ⟨fuel - 1, by omega⟩
    unfold readdir_loop
    rw [read_entry_full fs a ino e (k * DIR_ENTRY_SIZE) hd hwf (by
      simp only [DIR_ENTRY_SIZE] at hm ⊢; omega)]
    simp only [if_true]
    unfold next_name
    by_cases hu : (slotAt fs.store ino (k * DIR_ENTRY_SIZE)).in_use ≠ 0
    · rw [if_pos hu, if_pos hu]
      congr 2
      simp only [DIR_ENTRY_SIZE]; omega
    · rw [if_neg hu, if_neg hu]
      have := ih (k + 1) f (slotAt fs.store ino (k * DIR_ENTRY_SIZE)) (by omega) (by omega)
      rw [← this]
      congr 1
      simp only [DIR_ENTRY_SIZE]; omega

theorem dir_readdir_ok (fs : FS) (a : Nat) (ino : inode) (m : Nat)
    (hd : fs.deref a = some ino) (hwf : WF fs.store ino)
    (hm : m = ino.data.length / DIR_ENTRY_SIZE) (n k : Nat) (hk : k + n = m) :
    dir_readdir fs { inode := a, pos := k * DIR_ENTRY_SIZE }
      = some ((next_name fs.store ino n k).1,
          { inode := a, pos := (next_name fs.store ino n k).2 }) := by
  unfold dir_readdir
  dsimp only
  rw [scan_fuel_eq fs a ino hd,
    readdir_loop_ok fs a ino m hd hwf hm n k _ dir_entry.blank hk (by omega)]

theorem next_name_pos (st : Store) (ino : inode) (n : Nat) :
    ∀ k, ∃ j, (next_name st ino n k).2 = j * DIR_ENTRY_SIZE ∧ k ≤ j ∧ j ≤ k + n
      ∧ ((next_name st ino n k).1.isSome → k < j)
      ∧ ((next_name st ino n k).1 = none → j = k + n) := by
  induction n with
  | zero => intro k; exact ⟨k, rfl, Nat.le_refl _, Nat.le_refl _, by simp [next_name], fun _ => rfl⟩
  | succ n ih =>
    intro k
    unfold next_name
    by_cases hu : (slotAt st ino (k * DIR_ENTRY_SIZE)).in_use ≠ 0
    · rw [if_pos hu]
      exact ⟨k + 1, rfl, by omega, by omega, fun _ => by omega, by simp⟩
    · rw [if_neg hu]
      obtain ⟨j, h1, h2, h3, h4, h5⟩ := ih (k + 1)
      exact ⟨j, h1, by omega, by omega, fun h => by omega, fun h => by have := h5 h; omega⟩

theorem readdir_all_ok (fs : FS) (a : Nat) (ino : inode) (m : Nat)
    (hd : fs.deref a = some ino) (hwf : WF fs.store ino)
    (hm : m = ino.data.length / DIR_ENTRY_SIZE)
    (hterm : ∀ k, k < m → (slotAt fs.store ino (k * DIR_ENTRY_SIZE)).cname.length ≤ NAME_MAX)
    (n : Nat) :
    ∀ (k fuel : Nat), k + n = m → n < fuel →
      readdir_all fs fuel { inode := a, pos := k * DIR_ENTRY_SIZE }
        = some (names_from fs.store ino n k, { inode := a, pos := m * DIR_ENTRY_SIZE }) := by
  induction n with
  | zero =>
    intro k fuel hk hf
    obtain ⟨f, rfl⟩ : ∃ f, fuel = f + 1 := ⟨fuel - 1, by omega⟩
    unfold readdir_all
    rw [dir_readdir_ok fs a ino m hd hwf hm 0 k hk]
    have : k = m := by omega
    subst this
    rfl
  | succ n ih =>
    intro k fuel hk hf
    obtain ⟨f, rfl⟩ : ∃ f, fuel = f + 1 := ⟨fuel - 1, by omega⟩
    by_cases hu : (slotAt fs.store ino (k * DIR_ENTRY_SIZE)).in_use ≠ 0
    · unfold readdir_all
      rw [dir_readdir_ok fs a ino m hd hwf hm (n + 1) k hk]
      unfold next_name names_from
      rw [if_pos hu, if_pos hu]
      dsimp only
      rw [ih (k + 1) f (by omega) (by omega)]
      rw [List.take_of_length_le (hterm k (by omega))]
      rfl
    · have h1 : readdir_all fs (f + 1) { inode := a, pos := k * DIR_ENTRY_SIZE }
          = readdir_all fs (f + 1) { inode := a, pos := (k + 1) * DIR_ENTRY_SIZE } := by
        unfold readdir_all
        rw [dir_readdir_ok fs a ino m hd hwf hm (n + 1) k hk,
          dir_readdir_ok fs a ino m hd hwf hm n (k + 1) (by omega)]
        have : next_name fs.store ino (n + 1) k = next_name fs.store ino n (k + 1) := by
          conv => lhs; unfold next_name
          rw [if_neg hu]
        rw [this]
      rw [h1, ih (k + 1) (f + 1) (by omega) (by omega)]
      conv => rhs; unfold names_from
      rw [if_neg hu]

set_option maxRecDepth 1000000 in
theorem listingDir_wf : WF listingStore listingDir := by
  refine ⟨by decide!, by decide!, ?_⟩
  have hn : bytes_to_sectors listingDir.data.length = 1 := by decide!
  have hb : blocksFor (bytes_to_sectors listingDir.data.length) = 1 := by decide!
  constructor
  · decide!
  · decide!
  · decide!
  · decide!
  · decide!
  · decide!
  · decide!
  · decide!
  · decide!
  · intro j k hj hk
    rw [hb] at hj; rw [hn] at hk
    have h1 : j = 0 := by omega
    have h2 : k = 0 := by omega
    subst h1 h2
    decide!
  · intro j j' hj hj' _; rw [hb] at hj hj'; omega
  · intro k k' hk hk' _; rw [hn] at hk hk'; omega

/-- C20 (`dir_readdir` enumerates the in-use entries).  For every well-formed
directory inode whose length is `m` whole entry slots and whose names are
NUL-terminated, calling `dir_readdir` on a handle with cursor 0 until it
returns false yields the names of the in-use entries, in slot order and each
once, and leaves the cursor past the last slot; and from every slot boundary a
single call moves the cursor forward to a slot boundary, by at least one slot
when it returns a name, and returns false exactly at the end of the scan. -/
theorem dir_readdir_enumerates (fs : FS) (a : Nat) (ino : inode) (m : Nat)
    (hd : fs.deref a = some ino) (hwf : WF fs.store ino)
    (hlen : ino.data.length = m * DIR_ENTRY_SIZE)
    (hterm : ∀ k, k < m → (slotAt fs.store ino (k * DIR_ENTRY_SIZE)).cname.length ≤ NAME_MAX) :
    readdir_all fs (m + 1) { inode := a, pos := 0 }
        = some (in_use_names fs.store ino m, { inode := a, pos := m * DIR_ENTRY_SIZE })
    ∧ (∀ k, k ≤ m → ∃ r j, dir_readdir fs { inode := a, pos := k * DIR_ENTRY_SIZE }
          = some (r, { inode := a, pos := j * DIR_ENTRY_SIZE })
        ∧ k ≤ j ∧ j ≤ m ∧ (r.isSome → k < j) ∧ (r = none → j = m))
    ∧ dir_readdir fs { inode := a, pos := m * DIR_ENTRY_SIZE }
        = some (none, { inode := a, pos := m * DIR_ENTRY_SIZE }) := by
  have hm : m = ino.data.length / DIR_ENTRY_SIZE := by
    rw [hlen]; simp only [DIR_ENTRY_SIZE]; omega
  refine ⟨?_, ?_, ?_⟩
  · have := readdir_all_ok fs a ino m hd hwf hm hterm m 0 (m + 1) (by omega) (by omega)
    rw [Nat.zero_mul] at this
    exact this
  · intro k hk
    obtain ⟨j, h1, h2, h3, h4, h5⟩ := next_name_pos fs.store ino (m - k) k
    refine ⟨(next_name fs.store ino (m - k) k).1, j, ?_, h2, by omega, h4, fun h => ?_⟩
    · rw [dir_readdir_ok fs a ino m hd hwf hm (m - k) k (by omega), h1]
    · have := h5 h; omega
  · rw [dir_readdir_ok fs a ino m hd hwf hm 0 m (by omega)]
    rfl

set_option maxRecDepth 1000000 in
/-- C20 at a directory of three slots of which the middle one is free. -/
theorem dir_readdir_enumerates_witness :
    WF listingStore listingDir
    ∧ in_use_names listingStore listingDir 3 = [cstr "a", cstr "c"]
    ∧ readdir_all (exampleFS listingStore listingDir) 4 { inode := 0, pos := 0 }
        = some (in_use_names listingStore listingDir 3, { inode := 0, pos := 60 }) :=
  ⟨listingDir_wf, by decide!,
    (dir_readdir_enumerates (exampleFS listingStore listingDir) 0 listingDir 3 rfl listingDir_wf
      (by decide!) (by decide!)).1⟩

/-! ## `lookup` and `dir_add` -/

theorem scan_name_ok (fs : FS) (a : Nat) (ino : inode) (name : List Nat) (m : Nat)
    (hd : fs.deref a = some ino) (hwf : WF fs.store ino)
    (hm : m = ino.data.length / DIR_ENTRY_SIZE) (n : Nat) :
    ∀ (k fuel : Nat) (e : dir_entry), k + n = m → n < fuel →
      scan_name fs a name fuel e (k * DIR_ENTRY_SIZE) = some (find_name fs.store ino name n k) := by
  induction n with
  | zero =>
    intro k fuel e hk hf
    obtain ⟨f, rfl⟩ : ∃ f, fuel = f + 1 := ⟨fuel - 1, by omega⟩
    unfold scan_name
    obtain ⟨n1, e1, hr, hn⟩ := read_entry_short fs a ino e (k * DIR_ENTRY_SIZE) hd hwf (by
      simp only [DIR_ENTRY_SIZE] at hm ⊢; omega)
    rw [hr]
    simp only [if_neg hn]
    rfl
  | succ n ih =>
    intro k fuel e hk hf
    obtain ⟨f, rfl⟩ : ∃ f, fuel = f + 1 := ⟨fuel - 1, by omega⟩
    unfold scan_name
    rw [read_entry_full fs a ino e (k * DIR_ENTRY_SIZE) hd hwf (by
      simp only [DIR_ENTRY_SIZE] at hm ⊢; omega)]
    simp only [if_true]
    unfold find_name
    by_cases hu : (slotAt fs.store ino (k * DIR_ENTRY_SIZE)).in_use ≠ 0
        ∧ name = (slotAt fs.store ino (k * DIR_ENTRY_SIZE)).cname
    · rw [if_pos hu, if_pos hu]
    · rw [if_neg hu, if_neg hu]
      have := ih (k + 1) f (slotAt fs.store ino (k * DIR_ENTRY_SIZE)) (by omega) (by omega)
      rw [← this]
      congr 1
      simp only [DIR_ENTRY_SIZE]; omega

theorem find_name_none (st : Store) (ino : inode) (name : List Nat) (n : Nat) :
    ∀ k, find_name st ino name n k = none ↔
      ∀ j, k ≤ j → j < k + n → ¬ ((slotAt st ino (j * DIR_ENTRY_SIZE)).in_use ≠ 0
        ∧ (slotAt st ino (j * DIR_ENTRY_SIZE)).cname = name) := by
  induction n with
  | zero =>
    intro k
    constructor
    · intro _ j h1 h2; omega
    · intro _; rfl
  | succ n ih =>
    intro k
    unfold find_name
    by_cases hu : (slotAt st ino (k * DIR_ENTRY_SIZE)).in_use ≠ 0
        ∧ name = (slotAt st ino (k * DIR_ENTRY_SIZE)).cname
    · rw [if_pos hu]
      constructor
      · intro h; cases h
      · intro h
        exact absurd ⟨hu.1, hu.2.symm⟩ (h k (Nat.le_refl _) (by omega))
    · rw [if_neg hu, ih (k + 1)]
      constructor
      · intro h j h1 h2
        by_cases hj : j = k
        · subst hj
          intro hc
          exact hu ⟨hc.1, hc.2.symm⟩
        · exact h j (by omega) (by omega)
      · intro h j h1 h2
        exact h j (by omega) (by omega)

theorem free_slot_ok (fs : FS) (a : Nat) (ino : inode) (m : Nat)
    (hd : fs.deref a = some ino) (hwf : WF fs.store ino)
    (hm : m = ino.data.length / DIR_ENTRY_SIZE) (n : Nat) :
    ∀ (k fuel : Nat) (e : dir_entry), k + n = m → n < fuel →
      ∃ e1 j, free_slot fs a fuel e (k * DIR_ENTRY_SIZE) = some (e1, j * DIR_ENTRY_SIZE)
        ∧ j ≤ m := by
  induction n with
  | zero =>
    intro k fuel e hk hf
    obtain ⟨f, rfl⟩ : ∃ f, fuel = f + 1 := ⟨fuel - 1, by omega⟩
    unfold free_slot
    obtain ⟨n1, e1, hr, hn⟩ := read_entry_short fs a ino e (k * DIR_ENTRY_SIZE) hd hwf (by
      simp only [DIR_ENTRY_SIZE] at hm ⊢; omega)
    rw [hr]
    simp only [if_neg hn]
    exact ⟨e1, k, rfl, by omega⟩
  | succ n ih =>
    intro k fuel e hk hf
    obtain ⟨f, rfl⟩ : ∃ f, fuel = f + 1 := ⟨fuel - 1, by omega⟩
    unfold free_slot
    rw [read_entry_full fs a ino e (k * DIR_ENTRY_SIZE) hd hwf (by
      simp only [DIR_ENTRY_SIZE] at hm ⊢; omega)]
    simp only [if_true]
    by_cases hu : (slotAt fs.store ino (k * DIR_ENTRY_SIZE)).in_use = 0
    · rw [if_pos hu]
      exact ⟨_, k, rfl, by omega⟩
    · rw [if_neg hu]
      obtain ⟨e1, j, h1, h2⟩ :=
        ih (k + 1) f (slotAt fs.store ino (k * DIR_ENTRY_SIZE)) (by omega) (by omega)
      refine ⟨e1, j, ?_, h2⟩
      rw [← h1]
      congr 1
      simp only [DIR_ENTRY_SIZE]; omega

/-- For a name that is neither empty nor `.` nor `..`, `lookup` scans the
entries of the directory and leaves the state as it was. -/
theorem lookup_ordinary (fs : FS) (d : dir) (ino : inode) (name : List Nat)
    (hd : fs.deref d.inode = some ino) (hwf : WF fs.store ino)
    (hname : ∀ c, c ∈ name → c ≠ 0) (hne : name ≠ [])
    (hdot : name ≠ [DOT]) (hdotdot : name ≠ [DOT, DOT]) :
    lookup fs d name
      = some (find_name fs.store ino name (ino.data.length / DIR_ENTRY_SIZE) 0, fs) := by
  unfold lookup
  rw [hd]
  dsimp only
  have h0 : name.getD 0 0 ≠ 0 := by
    cases name with
    | nil => exact absurd rfl hne
    | cons c cs => exact hname c (by simp)
  have h1 : ¬ (name.getD 0 0 = 0 ∨ (name.getD 0 0 = DOT ∧ name.getD 1 0 = 0)) := by
    intro h
    rcases h with h | ⟨h, h'⟩
    · exact h0 h
    · cases name with
      | nil => exact absurd rfl hne
      | cons c cs =>
        cases cs with
        | nil => exact hdot (by simp at h; rw [h])
        | cons c2 cs2 => exact hname c2 (by simp) (by simpa using h')
  have h2 : ¬ (name.getD 0 0 = DOT ∧ name.getD 1 0 = DOT ∧ name.getD 2 0 = 0) := by
    intro ⟨h, h', h''⟩
    cases name with
    | nil => exact absurd rfl hne
    | cons c cs =>
      cases cs with
      | nil => exact hname 0 (by simp at h'; simp [DOT] at h') rfl
      | cons c2 cs2 =>
        cases cs2 with
        | nil => exact hdotdot (by simp at h h'; rw [h, h'])
        | cons c3 cs3 => exact hname c3 (by simp) (by simpa using h'')
  rw [if_neg h1, if_neg h2, scan_fuel_eq fs d.inode ino hd]
  have := scan_name_ok fs d.inode ino name _ hd hwf rfl (ino.data.length / DIR_ENTRY_SIZE) 0
    (ino.data.length / DIR_ENTRY_SIZE + 1) dir_entry.blank (by omega) (by omega)
  rw [Nat.zero_mul] at this
  rw [this]

/-- The bytes of a file only depend on its indirection blocks and data
sectors. -/
theorem fileByte_frame (st st' : Store) (ino : inode) (pos : Nat) (hwf : WF st ino)
    (hpos : pos < ino.data.length)
    (hblk : ∀ j, j < blocksFor (bytes_to_sectors ino.data.length) →
      st'.disk (ino.data.indirection.getD j 0) = st.disk (ino.data.indirection.getD j 0))
    (hdata : ∀ k, k < bytes_to_sectors ino.data.length →
      st'.disk (dataSector st ino.data.indirection k)
        = st.disk (dataSector st ino.data.indirection k)) :
    fileByte st' ino pos = fileByte st ino pos := by
  have hj : pos / (TABLE_SIZE * BLOCK_SECTOR_SIZE)
      < blocksFor (bytes_to_sectors ino.data.length) := by
    simp only [blocksFor, bytes_to_sectors, TABLE_SIZE, BLOCK_SECTOR_SIZE]; omega
  have e1 : byte_to_sector st' ino pos = byte_to_sector st ino pos := by
    unfold byte_to_sector block_read
    dsimp only
    rw [hblk _ hj]
  unfold fileByte
  rw [e1, byte_to_sector_wf st ino pos hwf hpos]
  dsimp only
  unfold block_read
  rw [hdata _ (sector_index_lt _ _ hpos)]

theorem allocCount_one_entry (len ofs : Nat) (h : ofs ≤ len) :
    allocCount (bytes_to_sectors len) (bytes_to_sectors (ofs + DIR_ENTRY_SIZE)) ≤ 2 := by
  simp only [allocCount, bytes_to_sectors, TABLE_SIZE, BLOCK_SECTOR_SIZE, DIR_ENTRY_SIZE]
  omega

/-- `dir_add` outside the special names `.` and `..`. -/
theorem dir_add_ok (fs : FS) (d : dir) (ino : inode) (name : List Nat) (s : Nat)
    (hd : fs.deref d.inode = some ino) (hwf : WF fs.store ino)
    (hname : ∀ c, c ∈ name → c ≠ 0) (hdot : name ≠ [DOT]) (hdotdot : name ≠ [DOT, DOT]) :
    ((name = [] ∨ NAME_MAX < name.length) → dir_add fs d name s = some (false, fs))
    ∧ (name ≠ [] → name.length ≤ NAME_MAX →
        (∃ k, k < ino.data.length / DIR_ENTRY_SIZE
          ∧ (slotAt fs.store ino (k * DIR_ENTRY_SIZE)).in_use ≠ 0
          ∧ (slotAt fs.store ino (k * DIR_ENTRY_SIZE)).cname = name) →
        dir_add fs d name s = some (false, fs.withStore (block_write fs.store s
          ({ inode_disk.ofBytes (block_read fs.store s) with
              parent_directory := ino.sector } : inode_disk).bytes)))
    ∧ (name ≠ [] → name.length ≤ NAME_MAX →
        (¬ ∃ k, k < ino.data.length / DIR_ENTRY_SIZE
          ∧ (slotAt fs.store ino (k * DIR_ENTRY_SIZE)).in_use ≠ 0
          ∧ (slotAt fs.store ino (k * DIR_ENTRY_SIZE)).cname = name) →
        ino.deny_write_cnt = 0 → ino.data.length + DIR_ENTRY_SIZE ≤ CAPACITY →
        2 ≤ freeCount fs.store →
        ∃ fs', dir_add fs d name s = some (true, fs')) := by
  have hhead : name ≠ [] → name.length ≤ NAME_MAX →
      ¬ (name.getD 0 0 = 0 ∨ NAME_MAX < name.length) := by
    intro hne hlen h
    rcases h with h | h
    · cases name with
      | nil => exact hne rfl
      | cons c cs => exact hname c (by simp) (by simpa using h)
    · omega
  refine ⟨?_, ?_, ?_⟩
  · intro h
    unfold dir_add
    rw [if_pos]
    rcases h with h | h
    · left; rw [h]; rfl
    · right; exact h
  · intro hne hlen ⟨k, hk, hu, hc⟩
    unfold dir_add
    rw [if_neg (hhead hne hlen), lookup_ordinary fs d ino name hd hwf hname hne hdot hdotdot]
    cases hf : find_name fs.store ino name (ino.data.length / DIR_ENTRY_SIZE) 0 with
    | none =>
      exact absurd ⟨hu, hc⟩ ((find_name_none _ _ _ _ 0).1 hf k (Nat.zero_le _) (by omega))
    | some r =>
      dsimp only
      unfold set_parent
      rw [hd]
      rfl
  · intro hne hlen hno hdeny hcap hfree
    unfold dir_add
    rw [if_neg (hhead hne hlen), lookup_ordinary fs d ino name hd hwf hname hne hdot hdotdot]
    have hf : find_name fs.store ino name (ino.data.length / DIR_ENTRY_SIZE) 0 = none := by
      rw [find_name_none]
      intro j _ hj hc
      exact hno ⟨j, by omega, hc.1, hc.2⟩
    rw [hf]
    dsimp only
    obtain ⟨e1, j, hfs, hj⟩ := free_slot_ok fs d.inode ino _ hd hwf rfl
      (ino.data.length / DIR_ENTRY_SIZE) 0 (scan_fuel fs d.inode) dir_entry.blank (by omega)
      (by rw [scan_fuel_eq fs d.inode ino hd]; omega)
    rw [Nat.zero_mul] at hfs
    rw [hfs]
    dsimp only
    have hofs : j * DIR_ENTRY_SIZE ≤ ino.data.length := by
      simp only [DIR_ENTRY_SIZE] at hj ⊢; omega
    obtain ⟨ino', st1, st', _, _, hw, _⟩ := inode_write_at_ok fs.store ino
      (dir_entry.bytes { ({ e1 with in_use := 1 } : dir_entry).strlcpy_name name with
        inode_sector := s }) DIR_ENTRY_SIZE (j * DIR_ENTRY_SIZE) hwf hdeny (by omega)
      (by rw [dir_entry_bytes_length]) (Nat.le_trans (allocCount_one_entry _ _ hofs) hfree)
    unfold FS.write_at
    rw [hd]
    dsimp only
    rw [hw]
    dsimp only
    unfold set_parent
    have hlt := deref_lt fs d.inode ino hd
    have hd' : ((fs.assign d.inode ino').withStore st').deref d.inode = some ino' := by
      show (fs.assign d.inode ino').deref d.inode = some ino'
      rw [deref_assign, if_pos ⟨rfl, hlt⟩]
    rw [hd']
    exact ⟨_, rfl⟩

/-- The outcomes of `dir_add` for an ordinary name: for a C string `name` other
than `.` and `..` and a well-formed directory inode, (a) `dir_add` returns
false and changes nothing when `name` is empty or longer than `NAME_MAX`; (b)
it returns false when an in-use entry of the directory already has that name,
and then the in-memory inode of the directory is as before and, `inode_sector`
being none of the directory's indirection blocks and data sectors, every byte
of its entry array is as before; (c) for any other name it returns true when
writes are allowed on the directory, the slot fits the two-level capacity and
the free-map holds the two sectors that the growth of one slot can claim. -/
theorem dir_add_failure_cases (fs : FS) (d : dir) (ino : inode) (name : List Nat) (s : Nat)
    (hd : fs.deref d.inode = some ino) (hwf : WF fs.store ino)
    (hname : ∀ c, c ∈ name → c ≠ 0) (hdot : name ≠ [DOT]) (hdotdot : name ≠ [DOT, DOT]) :
    ((name = [] ∨ NAME_MAX < name.length) → dir_add fs d name s = some (false, fs))
    ∧ (name ≠ [] → name.length ≤ NAME_MAX →
        (∃ k, k < ino.data.length / DIR_ENTRY_SIZE
          ∧ (slotAt fs.store ino (k * DIR_ENTRY_SIZE)).in_use ≠ 0
          ∧ (slotAt fs.store ino (k * DIR_ENTRY_SIZE)).cname = name) →
        ∃ fs', dir_add fs d name s = some (false, fs') ∧ fs'.deref d.inode = some ino
          ∧ ((∀ j, j < blocksFor (bytes_to_sectors ino.data.length) →
                s ≠ ino.data.indirection.getD j 0) →
              (∀ k, k < bytes_to_sectors ino.data.length →
                s ≠ dataSector fs.store ino.data.indirection k) →
              ∀ pos, pos < ino.data.length →
                fileByte fs'.store ino pos = fileByte fs.store ino pos))
    ∧ (name ≠ [] → name.length ≤ NAME_MAX →
        (¬ ∃ k, k < ino.data.length / DIR_ENTRY_SIZE
          ∧ (slotAt fs.store ino (k * DIR_ENTRY_SIZE)).in_use ≠ 0
          ∧ (slotAt fs.store ino (k * DIR_ENTRY_SIZE)).cname = name) →
        ino.deny_write_cnt = 0 → ino.data.length + DIR_ENTRY_SIZE ≤ CAPACITY →
        2 ≤ freeCount fs.store →
        ∃ fs', dir_add fs d name s = some (true, fs')) := by
  obtain ⟨ha, hb, hc⟩ := dir_add_ok fs d ino name s hd hwf hname hdot hdotdot
  refine ⟨ha, ?_, hc⟩
  intro hne hlen hex
  refine ⟨_, hb hne hlen hex, hd, ?_⟩
  intro hblk hdata pos hpos
  apply fileByte_frame _ _ _ _ hwf hpos
  · intro j hj
    exact block_write_other _ _ _ _ (fun h => hblk j hj h.symm)
  · intro k hk
    exact block_write_other _ _ _ _ (fun h => hdata k hk h.symm)

set_option maxRecDepth 1000000 in
/-- The outcomes of `dir_add` at a directory of three slots in which `a` and
`c` are in use: the empty name and the name `a` are refused, the name `d` is
added. -/
theorem dir_add_failure_cases_witness :
    WF listingStore listingDir
    ∧ dir_add (exampleFS listingStore listingDir) { inode := 0, pos := 0 } [] 9
        = some (false, exampleFS listingStore listingDir)
    ∧ (∃ fs', dir_add (exampleFS listingStore listingDir) { inode := 0, pos := 0 } (cstr "a") 9
          = some (false, fs') ∧ fs'.deref 0 = some listingDir
        ∧ ∀ pos, pos < 60 → fileByte fs'.store listingDir pos
            = fileByte listingStore listingDir pos)
    ∧ (∃ fs', dir_add (exampleFS listingStore listingDir) { inode := 0, pos := 0 } (cstr "d") 9
          = some (true, fs')) := by
  refine ⟨listingDir_wf, ?_, ?_, ?_⟩
  · exact (dir_add_failure_cases (exampleFS listingStore listingDir) { inode := 0, pos := 0 }
      listingDir [] 9 rfl listingDir_wf (by decide!) (by decide!) (by decide!)).1 (Or.inl rfl)
  · obtain ⟨fs', h1, h2, h3⟩ :=
      (dir_add_failure_cases (exampleFS listingStore listingDir) { inode := 0, pos := 0 }
        listingDir (cstr "a") 9 rfl listingDir_wf (by decide!) (by decide!)
        (by decide!)).2.1 (by decide!) (by decide!) ⟨0, by decide!, by decide!, by decide!⟩
    refine ⟨fs', h1, h2, h3 ?_ ?_⟩
    · intro j hj
      have hb : blocksFor (bytes_to_sectors listingDir.data.length) = 1 := by decide!
      rw [hb] at hj
      have : j = 0 := by omega
      subst this
      decide!
    · intro k hk
      have hn : bytes_to_sectors listingDir.data.length = 1 := by decide!
      rw [hn] at hk
      have : k = 0 := by omega
      subst this
      decide!
  · exact (dir_add_failure_cases (exampleFS listingStore listingDir) { inode := 0, pos := 0 }
      listingDir (cstr "d") 9 rfl listingDir_wf (by decide!) (by decide!)
      (by decide!)).2.2 (by decide!) (by decide!) (by decide!) (by decide!) (by decide!)
      (by decide!)

/-! ## The open-inode list -/

theorem lnk_zero (l : List Nat) : lnk l 0 = .head := by simp [lnk]

theorem lnk_node (l : List Nat) (i : Nat) (h : i < l.length) :
    lnk l (i + 1) = .node (l.getD i 0) := by
  unfold lnk
  rw [if_neg (by omega), if_pos (by omega)]
  rfl

theorem lnk_tail (l : List Nat) (i : Nat) (h : l.length < i) : lnk l i = .tail := by
  unfold lnk
  rw [if_neg (by omega), if_neg (by omega)]

theorem lnk_ne_null (l : List Nat) (i : Nat) : lnk l i ≠ .null := by
  unfold lnk
  split
  · intro h; cases h
  · split <;> (intro h; cases h)

theorem getD_mem (l : List Nat) (i : Nat) (h : i < l.length) : l.getD i 0 ∈ l := by
  rw [List.getD_eq_getElem _ _ h]
  exact List.getElem_mem h

theorem getD_inj_of_nodup (l : List Nat) (hn : l.Nodup) (i j : Nat) (hi : i < l.length)
    (hj : j < l.length) (h : l.getD i 0 = l.getD j 0) : i = j := by
  rw [List.getD_eq_getElem _ _ hi, List.getD_eq_getElem _ _ hj] at h
  exact (List.Nodup.getElem_inj_iff hn).1 h

theorem lnk_inj (l : List Nat) (hn : l.Nodup) (i j : Nat) (hi : i ≤ l.length + 1)
    (hj : j ≤ l.length + 1) (h : lnk l i = lnk l j) : i = j := by
  unfold lnk at h
  by_cases hi0 : i = 0
  · rw [if_pos hi0] at h
    by_cases hj0 : j = 0
    · omega
    · rw [if_neg hj0] at h
      split at h <;> cases h
  · rw [if_neg hi0] at h
    by_cases hj0 : j = 0
    · rw [if_pos hj0] at h
      split at h <;> cases h
    · rw [if_neg hj0] at h
      by_cases hil : i ≤ l.length
      · rw [if_pos hil] at h
        by_cases hjl : j ≤ l.length
        · rw [if_pos hjl] at h
          have := getD_inj_of_nodup l hn (i - 1) (j - 1) (by omega) (by omega) (Link.node.inj h)
          omega
        · rw [if_neg hjl] at h; cases h
      · rw [if_neg hil] at h
        by_cases hjl : j ≤ l.length
        · rw [if_pos hjl] at h; cases h
        · omega

theorem mem_iff_getD (l : List Nat) (a : Nat) (h : a ∈ l) : ∃ i, i < l.length ∧ l.getD i 0 = a := by
  obtain ⟨i, hi, e⟩ := List.getElem_of_mem h
  exact ⟨i, hi, by rw [List.getD_eq_getElem _ _ hi]; exact e⟩

/-- The in-memory inode of a registered address, with its links. -/
theorem Registry.at {fs : FS} {l : List Nat} (R : Registry fs l) (i : Nat) (hi : i < l.length) :
    ∃ ino, fs.deref (l.getD i 0) = some ino ∧ ino.elem_prev = lnk l i
      ∧ ino.elem_next = lnk l (i + 2) := by
  have h1 := (R.links (i + 1) (by omega)).1
  have h2 := (R.links i (by omega)).2
  rw [lnk_node l i hi] at h1 h2
  simp only [get_next, get_prev] at h1 h2
  cases hd : fs.deref (l.getD i 0) with
  | none => rw [hd] at h1; simp at h1
  | some ino =>
    rw [hd] at h1 h2
    simp at h1 h2
    exact ⟨ino, rfl, h2, h1⟩

theorem deref_append (fs : FS) (v : Option inode) (x : Nat) :
    ({ fs with heap := fs.heap ++ [v] } : FS).deref x
      = if x = fs.heap.length then v else fs.deref x := by
  unfold FS.deref
  dsimp only
  by_cases h1 : x < fs.heap.length
  · rw [List.getD_append _ _ _ _ h1, if_neg (by omega)]
  · by_cases h2 : x = fs.heap.length
    · rw [if_pos h2, h2, List.getD_append_right _ _ _ _ (Nat.le_refl _)]
      simp
    · rw [if_neg h2, List.getD_eq_default _ _ (by simp; omega),
        List.getD_eq_default _ _ (by omega)]

theorem deref_free (fs : FS) (a x : Nat) (s : Store) :
    ({ fs with store := s, heap := fs.heap.set a none } : FS).deref x
      = if a = x then none else fs.deref x := by
  unfold FS.deref
  dsimp only
  rw [getD_set_eq]
  by_cases h : a = x
  · by_cases h2 : a < fs.heap.length
    · rw [if_pos ⟨h, h2⟩, if_pos h]
    · rw [if_neg (fun hc => h2 hc.2), if_pos h, List.getD_eq_default _ _ (by omega)]
  · rw [if_neg (fun hc => h hc.1), if_neg h]

theorem get_next_assign (fs : FS) (a : Nat) (ino ino' : inode) (h : fs.deref a = some ino)
    (x : Link) :
    get_next (fs.assign a ino') x
      = if x = .node a then some ino'.elem_next else get_next fs x := by
  have hlt := deref_lt fs a ino h
  cases x with
  | head => rw [if_neg (by intro hc; cases hc)]; rfl
  | tail => rw [if_neg (by intro hc; cases hc)]; rfl
  | null => rw [if_neg (by intro hc; cases hc)]; rfl
  | node b =>
    simp only [get_next]
    rw [deref_assign]
    by_cases hb : a = b
    · subst hb
      rw [if_pos ⟨rfl, hlt⟩, if_pos rfl]
      rfl
    · rw [if_neg (fun hc => hb hc.1), if_neg (by intro hc; exact hb (Link.node.inj hc).symm)]

theorem get_prev_assign (fs : FS) (a : Nat) (ino ino' : inode) (h : fs.deref a = some ino)
    (x : Link) :
    get_prev (fs.assign a ino') x
      = if x = .node a then some ino'.elem_prev else get_prev fs x := by
  have hlt := deref_lt fs a ino h
  cases x with
  | head => rw [if_neg (by intro hc; cases hc)]; rfl
  | tail => rw [if_neg (by intro hc; cases hc)]; rfl
  | null => rw [if_neg (by intro hc; cases hc)]; rfl
  | node b =>
    simp only [get_prev]
    rw [deref_assign]
    by_cases hb : a = b
    · subst hb
      rw [if_pos ⟨rfl, hlt⟩, if_pos rfl]
      rfl
    · rw [if_neg (fun hc => hb hc.1), if_neg (by intro hc; exact hb (Link.node.inj hc).symm)]

/-- The effect of `e->next = v` on the links. -/
theorem set_next_links (fs fs' : FS) (p v : Link) (h : set_next fs p v = some fs') :
    (∀ x, get_next fs' x = if x = p then some v else get_next fs x)
      ∧ (∀ x, get_prev fs' x = get_prev fs x) := by
  cases p with
  | head =>
    simp only [set_next] at h
    have := Option.some.inj h
    subst this
    constructor
    · intro x
      cases x with
      | head => rw [if_pos rfl]; rfl
      | tail => rw [if_neg (by intro hc; cases hc)]; rfl
      | null => rw [if_neg (by intro hc; cases hc)]; rfl
      | node b => rw [if_neg (by intro hc; cases hc)]; rfl
    · intro x
      cases x <;> rfl
  | node a =>
    simp only [set_next] at h
    cases hd : fs.deref a with
    | none => rw [hd] at h; simp at h
    | some ino =>
      rw [hd] at h
      have := Option.some.inj h
      subst this
      constructor
      · intro x
        rw [get_next_assign fs a ino _ hd x]
      · intro x
        rw [get_prev_assign fs a ino _ hd x]
        by_cases hx : x = .node a
        · rw [if_pos hx, hx]
          simp only [get_prev]
          rw [hd]
          rfl
        · rw [if_neg hx]
  | tail => simp [set_next] at h
  | null => simp [set_next] at h

/-- The effect of `e->prev = v` on the links. -/
theorem set_prev_links (fs fs' : FS) (p v : Link) (h : set_prev fs p v = some fs') :
    (∀ x, get_prev fs' x = if x = p then some v else get_prev fs x)
      ∧ (∀ x, get_next fs' x = get_next fs x) := by
  cases p with
  | tail =>
    simp only [set_prev] at h
    have := Option.some.inj h
    subst this
    constructor
    · intro x
      cases x with
      | tail => rw [if_pos rfl]; rfl
      | head => rw [if_neg (by intro hc; cases hc)]; rfl
      | null => rw [if_neg (by intro hc; cases hc)]; rfl
      | node b => rw [if_neg (by intro hc; cases hc)]; rfl
    · intro x
      cases x <;> rfl
  | node a =>
    simp only [set_prev] at h
    cases hd : fs.deref a with
    | none => rw [hd] at h; simp at h
    | some ino =>
      rw [hd] at h
      have := Option.some.inj h
      subst this
      constructor
      · intro x
        rw [get_prev_assign fs a ino _ hd x]
      · intro x
        rw [get_next_assign fs a ino _ hd x]
        by_cases hx : x = .node a
        · rw [if_pos hx, hx]
          simp only [get_next]
          rw [hd]
          rfl
        · rw [if_neg hx]
  | head => simp [set_prev] at h
  | null => simp [set_prev] at h

theorem set_next_total (fs : FS) (p v : Link)
    (h : p = .head ∨ ∃ b ino, p = .node b ∧ fs.deref b = some ino) :
    ∃ fs', set_next fs p v = some fs' := by
  rcases h with h | ⟨b, ino, h, hd⟩
  · subst h; exact ⟨_, rfl⟩
  · subst h
    simp only [set_next]
    rw [hd]
    exact ⟨_, rfl⟩

theorem set_prev_total (fs : FS) (p v : Link)
    (h : p = .tail ∨ ∃ b ino, p = .node b ∧ fs.deref b = some ino) :
    ∃ fs', set_prev fs p v = some fs' := by
  rcases h with h | ⟨b, ino, h, hd⟩
  · subst h; exact ⟨_, rfl⟩
  · subst h
    simp only [set_prev]
    rw [hd]
    exact ⟨_, rfl⟩

/-- Equal payloads: an object lives after a step when it lived before, with
the same fields other than the links. -/
theorem payload_some {fs fs' : FS} {x : Nat} {y' : inode}
    (hp : (fs'.deref x).map inode.payload = (fs.deref x).map inode.payload)
    (h : fs'.deref x = some y') : ∃ y, fs.deref x = some y ∧ y.payload = y'.payload := by
  rw [h] at hp
  cases hd : fs.deref x with
  | none => rw [hd] at hp; simp at hp
  | some y =>
    rw [hd] at hp
    simp only [Option.map_some'] at hp
    exact ⟨y, rfl, (Option.some.inj hp).symm⟩

theorem payload_sector {x y : inode} (h : x.payload = y.payload) : x.sector = y.sector := by
  unfold inode.payload at h
  exact (Prod.mk.inj h).1

/-- The links of a registered position are live objects or sentinels. -/
theorem Registry.pos {fs : FS} {l : List Nat} (R : Registry fs l) (i : Nat)
    (hi : i ≤ l.length + 1) :
    (i = 0 ∧ lnk l i = .head) ∨ (i = l.length + 1 ∧ lnk l i = .tail)
      ∨ (1 ≤ i ∧ i ≤ l.length ∧ ∃ ino, lnk l i = .node (l.getD (i - 1) 0)
          ∧ fs.deref (l.getD (i - 1) 0) = some ino) := by
  by_cases h0 : i = 0
  · left; exact ⟨h0, by rw [h0]; exact lnk_zero l⟩
  · by_cases h1 : i ≤ l.length
    · right; right
      obtain ⟨ino, hd, _, _⟩ := R.at (i - 1) (by omega)
      refine ⟨by omega, h1, ino, ?_, hd⟩
      have := lnk_node l (i - 1) (by omega)
      rw [show i - 1 + 1 = i by omega] at this
      exact this
    · right; left
      exact ⟨by omega, lnk_tail l i (by omega)⟩

/-- The search loop of `inode_open` on a well-formed list: it ends, with the
registered inode of the sector if there is one. -/
theorem find_open_ok (fs : FS) (l : List Nat) (R : Registry fs l) (sector : Nat) (n : Nat) :
    ∀ (i fuel : Nat), i + n = l.length → n < fuel →
      (∃ b ino, find_open fs sector fuel (lnk l (i + 1)) = some (some b)
          ∧ fs.deref b = some ino ∧ ino.sector = sector)
      ∨ (find_open fs sector fuel (lnk l (i + 1)) = some none
          ∧ ∀ j, i ≤ j → j < l.length → ∀ ino, fs.deref (l.getD j 0) = some ino →
              ino.sector ≠ sector) := by
  induction n with
  | zero =>
    intro i fuel hi hf
    obtain ⟨f, rfl⟩ : ∃ f, fuel = f + 1 := ⟨fuel - 1, by omega⟩
    right
    rw [lnk_tail l (i + 1) (by omega)]
    exact ⟨rfl, fun j h1 h2 => by omega⟩
  | succ n ih =>
    intro i fuel hi hf
    obtain ⟨f, rfl⟩ : ∃ f, fuel = f + 1 := ⟨fuel - 1, by omega⟩
    obtain ⟨ino, hd, _, hnext⟩ := R.at i (by omega)
    rw [lnk_node l i (by omega)]
    unfold find_open
    dsimp only
    rw [hd]
    dsimp only
    by_cases hs : ino.sector = sector
    · left
      rw [if_pos hs]
      exact ⟨_, ino, rfl, hd, hs⟩
    · rw [if_neg hs, hnext]
      rcases ih (i + 1) f (by omega) (by omega) with h | ⟨h1, h2⟩
      · left; exact h
      · right
        refine ⟨h1, fun j hj1 hj2 ino' hd' => ?_⟩
        by_cases hji : j = i
        · subst hji
          rw [hd] at hd'
          cases hd'
          exact hs
        · exact h2 j (by omega) hj2 ino' hd'

/-- Storing an object with the same links and the same sector keeps the list. -/
theorem Registry_assign (fs : FS) (l : List Nat) (R : Registry fs l) (a : Nat)
    (ino ino' : inode) (hd : fs.deref a = some ino)
    (hp : ino'.elem_prev = ino.elem_prev) (hn : ino'.elem_next = ino.elem_next)
    (hs : ino'.sector = ino.sector) : Registry (fs.assign a ino') l := by
  have hlt := deref_lt fs a ino hd
  constructor
  · intro i hi
    rw [get_next_assign fs a ino ino' hd, get_prev_assign fs a ino ino' hd]
    obtain ⟨h1, h2⟩ := R.links i hi
    constructor
    · by_cases hx : lnk l i = .node a
      · rw [if_pos hx, hn, ← h1, hx]
        simp only [get_next]
        rw [hd]; rfl
      · rw [if_neg hx, h1]
    · by_cases hx : lnk l (i + 1) = .node a
      · rw [if_pos hx, hp, ← h2, hx]
        simp only [get_prev]
        rw [hd]; rfl
      · rw [if_neg hx, h2]
  · exact R.nodup
  · intro b y hb
    rw [deref_assign] at hb
    by_cases hab : a = b ∧ a < fs.heap.length
    · exact hab.1 ▸ R.live a ino hd
    · rw [if_neg hab] at hb
      exact R.live b y hb
  · intro b c x y hb hc hxy
    rw [deref_assign] at hb hc
    by_cases hab : a = b ∧ a < fs.heap.length
    · rw [if_pos hab] at hb
      cases hb
      by_cases hac : a = c ∧ a < fs.heap.length
      · rw [← hab.1, ← hac.1]
      · rw [if_neg hac] at hc
        rw [← hab.1]
        exact R.sectors a c ino y hd hc (by rw [← hs]; exact hxy)
    · rw [if_neg hab] at hb
      by_cases hac : a = c ∧ a < fs.heap.length
      · rw [if_pos hac] at hc
        cases hc
        rw [← hac.1]
        exact R.sectors b a x ino hb hd (by rw [hxy, hs])
      · rw [if_neg hac] at hc
        exact R.sectors b c x y hb hc hxy

theorem Registry_empty (s : Store) : Registry (emptyFS s) [] := by
  constructor
  · intro i hi
    have : i = 0 := by simpa using hi
    subst this
    exact ⟨rfl, rfl⟩
  · exact List.nodup_nil
  · intro a ino h
    simp [FS.deref, emptyFS] at h
  · intro a b x y h
    simp [FS.deref, emptyFS] at h

theorem lnk_cons_zero (a : Nat) (l : List Nat) : lnk (a :: l) 0 = .head := lnk_zero _

theorem lnk_cons_one (a : Nat) (l : List Nat) : lnk (a :: l) 1 = .node a := by
  simp [lnk]

theorem lnk_cons_succ (a : Nat) (l : List Nat) (k : Nat) (hk : 1 ≤ k) :
    lnk (a :: l) (k + 1) = lnk l k := by
  unfold lnk
  simp only [List.length_cons]
  rw [if_neg (show ¬ k + 1 = 0 by omega), if_neg (show ¬ k = 0 by omega)]
  by_cases h : k ≤ l.length
  · rw [if_pos (show k + 1 ≤ l.length + 1 by omega), if_pos h]
    obtain ⟨j, rfl⟩ : ∃ j, k = j + 1 := ⟨k - 1, by omega⟩
    simp
  · rw [if_neg (show ¬ k + 1 ≤ l.length + 1 by omega), if_neg h]

/-- A position of the list is a sentinel or a live object below the end of the
heap. -/
theorem Registry.lnk_lt {fs : FS} {l : List Nat} (R : Registry fs l) (k : Nat) :
    lnk l k ≠ .node fs.heap.length := by
  by_cases hk : k ≤ l.length + 1
  · rcases R.pos k hk with ⟨_, h⟩ | ⟨_, h⟩ | ⟨_, _, ino, h, hd⟩
    · rw [h]; intro hc; cases hc
    · rw [h]; intro hc; cases hc
    · rw [h]
      intro hc
      have := deref_lt fs _ ino hd
      rw [Link.node.inj hc] at this
      omega
  · rw [lnk_tail l k (by omega)]; intro hc; cases hc

theorem get_next_append (fs : FS) (v : Option inode) (x : Link) (hx : x ≠ .node fs.heap.length) :
    get_next ({ fs with heap := fs.heap ++ [v] } : FS) x = get_next fs x := by
  cases x with
  | head => rfl
  | tail => rfl
  | null => rfl
  | node b =>
    simp only [get_next]
    rw [deref_append, if_neg (by intro hc; exact hx (by rw [hc]))]

theorem get_prev_append (fs : FS) (v : Option inode) (x : Link) (hx : x ≠ .node fs.heap.length) :
    get_prev ({ fs with heap := fs.heap ++ [v] } : FS) x = get_prev fs x := by
  cases x with
  | head => rfl
  | tail => rfl
  | null => rfl
  | node b =>
    simp only [get_prev]
    rw [deref_append, if_neg (by intro hc; exact hx (by rw [hc]))]

theorem inode_eq_of_payload {x y : inode} (h : x.payload = y.payload)
    (hp : x.elem_prev = y.elem_prev) (hn : x.elem_next = y.elem_next) : x = y := by
  cases x; cases y
  simp only [inode.payload, Prod.mk.injEq] at h
  simp only at hp hn
  obtain ⟨h1, h2, h3, h4, h5⟩ := h
  subst h1 h2 h3 h4 h5 hp hn
  rfl

theorem Registry.head_eq {fs : FS} {l : List Nat} (R : Registry fs l) :
    fs.head_next = lnk l 1 := by
  have := (R.links 0 (Nat.zero_le _)).1
  rw [lnk_zero] at this
  exact Option.some.inj this

/-- `list_push_front` of a new object on a well-formed list. -/
theorem push_front_ok (fs : FS) (l : List Nat) (R : Registry fs l) (ino0 : inode)
    (hsec : ∀ b y, fs.deref b = some y → y.sector ≠ ino0.sector) :
    ∃ fs', list_push_front ({ fs with heap := fs.heap ++ [some ino0] } : FS) fs.heap.length
        = some fs'
      ∧ Registry fs' (fs.heap.length :: l)
      ∧ fs'.deref fs.heap.length
        = some { ino0 with elem_prev := .head, elem_next := lnk l 1 }
      ∧ fs'.store = fs.store
      ∧ ∀ x, x ≠ fs.heap.length → fs'.deref x = none ∨ x ∈ l := by
  obtain ⟨fs0, hfs0⟩ : ∃ x : FS, x = { fs with heap := fs.heap ++ [some ino0] } := ⟨_, rfl⟩
  obtain ⟨ino1, hino1⟩ : ∃ x : inode, x = { ino0 with elem_prev := .head, elem_next := lnk l 1 } :=
    ⟨_, rfl⟩
  rw [← hfs0, ← hino1]
  have hhn : fs0.head_next = lnk l 1 := by rw [hfs0]; exact R.head_eq
  have hgp0 : get_prev fs (lnk l 1) = some .head := by
    have := (R.links 0 (Nat.zero_le _)).2
    rw [lnk_zero] at this
    exact this
  have hgp : get_prev fs0 (lnk l 1) = some .head := by
    rw [hfs0, get_prev_append fs _ _ (R.lnk_lt 1)]; exact hgp0
  have hda : fs0.deref fs.heap.length = some ino0 := by
    rw [hfs0, deref_append, if_pos rfl]
  have hd0 : ∀ x, x ≠ fs.heap.length → fs0.deref x = fs.deref x := by
    intro x hx; rw [hfs0, deref_append, if_neg hx]
  have hlen0 : fs.heap.length < fs0.heap.length := by rw [hfs0]; simp
  -- the three steps
  obtain ⟨st1, hst1⟩ : ∃ x : FS, x = fs0.assign fs.heap.length ino1 := ⟨_, rfl⟩
  obtain ⟨st2, hst2⟩ : ∃ x : FS, x = { st1 with head_next := .node fs.heap.length } := ⟨_, rfl⟩
  have hsn : set_next st1 .head (.node fs.heap.length) = some st2 := by rw [hst2]; rfl
  have hd1 : ∀ x, st1.deref x = if fs.heap.length = x then some ino1 else fs0.deref x := by
    intro x
    rw [hst1, deref_assign]
    by_cases hx : fs.heap.length = x
    · rw [if_pos ⟨hx, hlen0⟩, if_pos hx]
    · rw [if_neg (fun hc => hx hc.1), if_neg hx]
  have hd2 : ∀ x, st2.deref x = st1.deref x := by intro x; rw [hst2]; rfl
  obtain ⟨fs', hsp⟩ := set_prev_total st2 (lnk l 1) (.node fs.heap.length) (by
    rcases R.pos 1 (by omega) with ⟨h, _⟩ | ⟨_, h⟩ | ⟨_, _, ino, h, hd⟩
    · omega
    · left; exact h
    · right
      refine ⟨_, ino, h, ?_⟩
      have hlt := deref_lt fs _ ino hd
      rw [hd2, hd1, if_neg (by omega), hd0 _ (by omega)]
      exact hd)
  have hpush : list_push_front fs0 fs.heap.length = some fs' := by
    unfold list_push_front
    dsimp only
    rw [hhn, hgp, hda]
    dsimp only
    rw [← hino1, ← hst1, hsn]
    exact hsp
  obtain ⟨hP, hN⟩ := set_prev_links st2 fs' _ _ hsp
  obtain ⟨hN2, hP2⟩ := set_next_links st1 st2 _ _ hsn
  have hN1 := get_next_assign fs0 fs.heap.length ino0 ino1 hda
  have hP1 := get_prev_assign fs0 fs.heap.length ino0 ino1 hda
  rw [← hst1] at hN1 hP1
  have hnext : ∀ x, get_next fs' x = if x = .head then some (.node fs.heap.length)
      else if x = .node fs.heap.length then some (lnk l 1) else get_next fs x := by
    intro x
    rw [hN, hN2, hN1]
    by_cases h1 : x = .head
    · rw [if_pos h1, if_pos h1]
    · rw [if_neg h1, if_neg h1]
      by_cases h2 : x = .node fs.heap.length
      · rw [if_pos h2, if_pos h2, hino1]
      · rw [if_neg h2, if_neg h2, hfs0, get_next_append fs _ _ h2]
  have hprev : ∀ x, get_prev fs' x = if x = lnk l 1 then some (.node fs.heap.length)
      else if x = .node fs.heap.length then some .head else get_prev fs x := by
    intro x
    rw [hP, hP2, hP1]
    by_cases h1 : x = lnk l 1
    · rw [if_pos h1, if_pos h1]
    · rw [if_neg h1, if_neg h1]
      by_cases h2 : x = .node fs.heap.length
      · rw [if_pos h2, if_pos h2, hino1]
      · rw [if_neg h2, if_neg h2, hfs0, get_prev_append fs _ _ h2]
  obtain ⟨hstore', hpay'⟩ := set_prev_frame _ _ _ _ hsp
  have hpay : ∀ x, (fs'.deref x).map inode.payload
      = if fs.heap.length = x then some ino1.payload else (fs.deref x).map inode.payload := by
    intro x
    rw [hpay' x, hd2, hd1]
    by_cases hx : fs.heap.length = x
    · rw [if_pos hx, if_pos hx]; rfl
    · rw [if_neg hx, if_neg hx, hd0 x (fun h => hx h.symm)]
  -- the new object
  have hnew : fs'.deref fs.heap.length = some ino1 := by
    have h1 := hpay fs.heap.length
    rw [if_pos rfl] at h1
    have h2 := hnext (.node fs.heap.length)
    rw [if_neg (by intro hc; cases hc), if_pos rfl] at h2
    have h3 := hprev (.node fs.heap.length)
    rw [if_neg (fun hc => R.lnk_lt 1 hc.symm), if_pos rfl] at h3
    simp only [get_next, get_prev] at h2 h3
    cases hz : fs'.deref fs.heap.length with
    | none => rw [hz] at h1; simp at h1
    | some z =>
      rw [hz] at h1 h2 h3
      simp only [Option.map_some', Option.some.injEq] at h1 h2 h3
      rw [inode_eq_of_payload h1 (by rw [h3, hino1]) (by rw [h2, hino1])]
  have hold : ∀ x y', x ≠ fs.heap.length → fs'.deref x = some y' →
      ∃ y, fs.deref x = some y ∧ y.payload = y'.payload := by
    intro x y' hx h
    have h1 := hpay x
    rw [if_neg (fun hc => hx hc.symm)] at h1
    exact payload_some h1 h
  refine ⟨fs', hpush, ?_, hnew, ?_, ?_⟩
  · constructor
    · intro i hi
      simp only [List.length_cons] at hi
      by_cases h0 : i = 0
      · subst h0
        rw [lnk_cons_zero, lnk_cons_one, hnext, if_pos rfl, hprev,
          if_neg (fun hc => R.lnk_lt 1 hc.symm), if_pos rfl]
        exact ⟨rfl, rfl⟩
      · by_cases h1 : i = 1
        · subst h1
          rw [lnk_cons_one, lnk_cons_succ _ _ 1 (Nat.le_refl _), hnext,
            if_neg (by intro hc; cases hc), if_pos rfl, hprev, if_pos rfl]
          exact ⟨rfl, rfl⟩
        · obtain ⟨k, rfl⟩ : ∃ k, i = k + 1 := ⟨i - 1, by omega⟩
          rw [lnk_cons_succ _ _ k (by omega), lnk_cons_succ _ _ (k + 1) (by omega), hnext, hprev]
          obtain ⟨r1, r2⟩ := R.links k (by omega)
          have hk0 : lnk l k ≠ .head := by
            intro hc
            rw [← lnk_zero l] at hc
            have := lnk_inj l R.nodup k 0 (by omega) (by omega) hc
            omega
          have hk1 : lnk l (k + 1) ≠ lnk l 1 := by
            intro hc
            have := lnk_inj l R.nodup (k + 1) 1 (by omega) (by omega) hc
            omega
          rw [if_neg hk0, if_neg (R.lnk_lt k), if_neg hk1, if_neg (R.lnk_lt (k + 1))]
          exact ⟨r1, r2⟩
    · rw [List.nodup_cons]
      refine ⟨fun hm => ?_, R.nodup⟩
      obtain ⟨i, hi, e⟩ := mem_iff_getD l _ hm
      obtain ⟨ino, hd, _, _⟩ := R.at i hi
      have := deref_lt fs _ ino hd
      omega
    · intro b y hb
      by_cases hba : b = fs.heap.length
      · rw [hba]; exact List.mem_cons_self _ _
      · obtain ⟨y0, hy0, _⟩ := hold b y hba hb
        exact List.mem_cons_of_mem _ (R.live b y0 hy0)
    · intro b c x y hb hc hxy
      by_cases hba : b = fs.heap.length
      · by_cases hca : c = fs.heap.length
        · rw [hba, hca]
        · exfalso
          obtain ⟨y0, hy0, hp0⟩ := hold c y hca hc
          rw [hba, hnew] at hb
          cases hb
          refine hsec c y0 hy0 ?_
          rw [payload_sector hp0, ← hxy, hino1]
      · by_cases hca : c = fs.heap.length
        · exfalso
          obtain ⟨x0, hx0, hp0⟩ := hold b x hba hb
          rw [hca, hnew] at hc
          cases hc
          refine hsec b x0 hx0 ?_
          rw [payload_sector hp0, hxy, hino1]
        · obtain ⟨x0, hx0, hpx⟩ := hold b x hba hb
          obtain ⟨y0, hy0, hpy⟩ := hold c y hca hc
          exact R.sectors b c x0 y0 hx0 hy0 (by
            rw [payload_sector hpx, payload_sector hpy]; exact hxy)
  · rw [hstore', hst2]
    show st1.store = fs.store
    rw [hst1, assign_store, hfs0]
  · intro x hx
    cases hz : fs'.deref x with
    | none => left; rfl
    | some y' =>
      right
      obtain ⟨y0, hy0, _⟩ := hold x y' hx hz
      exact R.live x y0 hy0

theorem length_erase (l : List Nat) (i0 : Nat) (h : i0 < l.length) :
    (l.take i0 ++ l.drop (i0 + 1)).length + 1 = l.length := by
  simp only [List.length_append, List.length_take, List.length_drop]
  omega

theorem getD_erase (l : List Nat) (i0 k : Nat) (h : i0 < l.length) :
    (l.take i0 ++ l.drop (i0 + 1)).getD k 0
      = if k < i0 then l.getD k 0 else l.getD (k + 1) 0 := by
  have hl : (l.take i0).length = i0 := by simp; omega
  by_cases hk : k < i0
  · rw [if_pos hk, List.getD_append _ _ _ _ (by omega), getD_take_eq, if_pos hk]
  · rw [if_neg hk, List.getD_append_right _ _ _ _ (by omega), hl, getD_drop_eq]
    congr 1
    omega

/-- The positions of the list after the element at index `i0` left it. -/
theorem lnk_erase (l : List Nat) (i0 k : Nat) (h : i0 < l.length) :
    lnk (l.take i0 ++ l.drop (i0 + 1)) k = lnk l (if k ≤ i0 then k else k + 1) := by
  have hlen := length_erase l i0 h
  by_cases hk0 : k = 0
  · subst hk0
    rw [if_pos (Nat.zero_le _), lnk_zero, lnk_zero]
  · obtain ⟨j, rfl⟩ : ∃ j, k = j + 1 := ⟨k - 1, by omega⟩
    by_cases hk : j + 1 ≤ i0
    · rw [if_pos hk, lnk_node _ j (by omega), lnk_node l j (by omega), getD_erase l i0 j h,
        if_pos (by omega)]
    · rw [if_neg hk]
      by_cases hj : j + 1 < l.length
      · rw [lnk_node _ j (by omega), lnk_node l (j + 1) hj, getD_erase l i0 j h,
          if_neg (by omega)]
      · rw [lnk_tail _ _ (by omega), lnk_tail _ _ (by omega)]

theorem get_next_free (fs : FS) (a : Nat) (s : Store) (x : Link) (hx : x ≠ .node a) :
    get_next ({ fs with store := s, heap := fs.heap.set a none } : FS) x = get_next fs x := by
  cases x with
  | head => rfl
  | tail => rfl
  | null => rfl
  | node b =>
    simp only [get_next]
    rw [deref_free, if_neg (by intro hc; exact hx (by rw [hc]))]

theorem get_prev_free (fs : FS) (a : Nat) (s : Store) (x : Link) (hx : x ≠ .node a) :
    get_prev ({ fs with store := s, heap := fs.heap.set a none } : FS) x = get_prev fs x := by
  cases x with
  | head => rfl
  | tail => rfl
  | null => rfl
  | node b =>
    simp only [get_prev]
    rw [deref_free, if_neg (by intro hc; exact hx (by rw [hc]))]

theorem mem_erase (l : List Nat) (i0 : Nat) (h : i0 < l.length) (x : Nat)
    (hx : x ∈ l) (hne : x ≠ l.getD i0 0) : x ∈ l.take i0 ++ l.drop (i0 + 1) := by
  obtain ⟨j, hj, e⟩ := mem_iff_getD l x hx
  have hji : j ≠ i0 := by intro hc; rw [hc] at e; exact hne e.symm
  have hlen := length_erase l i0 h
  by_cases hlt : j < i0
  · have := getD_erase l i0 j h
    rw [if_pos hlt, e] at this
    rw [← this]
    exact getD_mem _ _ (by omega)
  · have := getD_erase l i0 (j - 1) h
    rw [if_neg (by omega), show j - 1 + 1 = j by omega, e] at this
    rw [← this]
    exact getD_mem _ _ (by omega)

/-- `list_remove` of a registered object on a well-formed list, followed by
the `free` of the object. -/
theorem remove_ok (fs : FS) (l : List Nat) (R : Registry fs l) (i0 : Nat) (hi0 : i0 < l.length) :
    ∃ fs2, list_remove fs (l.getD i0 0) = some fs2 ∧ fs2.store = fs.store
      ∧ ∀ s, Registry ({ fs2 with store := s, heap := fs2.heap.set (l.getD i0 0) none } : FS)
          (l.take i0 ++ l.drop (i0 + 1)) := by
  obtain ⟨ino, hd, hprev, hnext⟩ := R.at i0 hi0
  have hna : lnk l (i0 + 1) = .node (l.getD i0 0) := lnk_node l i0 hi0
  obtain ⟨st1, hsn⟩ := set_next_total fs (lnk l i0) (lnk l (i0 + 2)) (by
    rcases R.pos i0 (by omega) with ⟨_, h⟩ | ⟨h, _⟩ | ⟨_, _, y, h, hy⟩
    · left; exact h
    · omega
    · right; exact ⟨_, y, h, hy⟩)
  obtain ⟨hs1, hp1⟩ := set_next_frame _ _ _ _ hsn
  obtain ⟨fs2, hsp⟩ := set_prev_total st1 (lnk l (i0 + 2)) (lnk l i0) (by
    rcases R.pos (i0 + 2) (by omega) with ⟨h, _⟩ | ⟨_, h⟩ | ⟨_, _, y, h, hy⟩
    · omega
    · left; exact h
    · right
      have := hp1 (l.getD (i0 + 2 - 1) 0)
      rw [hy] at this
      cases hz : st1.deref (l.getD (i0 + 2 - 1) 0) with
      | none => rw [hz] at this; simp at this
      | some z => exact ⟨_, z, h, hz⟩)
  obtain ⟨hs2, hp2⟩ := set_prev_frame _ _ _ _ hsp
  have hrem : list_remove fs (l.getD i0 0) = some fs2 := by
    unfold list_remove
    rw [hd]
    dsimp only
    rw [hprev, hnext, if_neg (by
      intro hc
      rcases hc with hc | hc
      · exact lnk_ne_null _ _ hc
      · exact lnk_ne_null _ _ hc), hsn]
    exact hsp
  obtain ⟨hN1, hP1⟩ := set_next_links _ _ _ _ hsn
  obtain ⟨hP2, hN2⟩ := set_prev_links _ _ _ _ hsp
  have hpay : ∀ x, (fs2.deref x).map inode.payload = (fs.deref x).map inode.payload := by
    intro x; rw [hp2, hp1]
  refine ⟨fs2, hrem, by rw [hs2, hs1], fun s => ?_⟩
  have hlen := length_erase l i0 hi0
  have hold : ∀ x y',
      ({ fs2 with store := s, heap := fs2.heap.set (l.getD i0 0) none } : FS).deref x = some y' →
      x ≠ l.getD i0 0 ∧ ∃ y, fs.deref x = some y ∧ y.payload = y'.payload := by
    intro x y' h
    rw [deref_free] at h
    by_cases hx : l.getD i0 0 = x
    · rw [if_pos hx] at h; cases h
    · rw [if_neg hx] at h
      exact ⟨fun hc => hx hc.symm, payload_some (hpay x) h⟩
  constructor
  · intro i hi
    have hne : ∀ k, k ≤ l.length + 1 → k ≠ i0 + 1 → lnk l k ≠ .node (l.getD i0 0) := by
      intro k hk hk' hc
      rw [← hna] at hc
      exact hk' (lnk_inj l R.nodup k (i0 + 1) hk (by omega) hc)
    rw [lnk_erase l i0 i hi0, lnk_erase l i0 (i + 1) hi0]
    by_cases h1 : i < i0
    · rw [if_pos (by omega), if_pos (by omega),
        get_next_free _ _ _ _ (hne i (by omega) (by omega)),
        get_prev_free _ _ _ _ (hne (i + 1) (by omega) (by omega)), hN2, hN1, hP2, hP1,
        if_neg (fun hc => by
          have := lnk_inj l R.nodup i i0 (by omega) (by omega) hc; omega),
        if_neg (fun hc => by
          have := lnk_inj l R.nodup (i + 1) (i0 + 2) (by omega) (by omega) hc; omega)]
      exact R.links i (by omega)
    · by_cases h2 : i = i0
      · subst h2
        rw [if_pos (Nat.le_refl _), if_neg (by omega),
          get_next_free _ _ _ _ (hne i (by omega) (by omega)),
          get_prev_free _ _ _ _ (hne (i + 1 + 1) (by omega) (by omega)), hN2, hN1, hP2,
          if_pos rfl, if_pos rfl]
        exact ⟨rfl, rfl⟩
      · rw [if_neg (by omega), if_neg (by omega),
          get_next_free _ _ _ _ (hne (i + 1) (by omega) (by omega)),
          get_prev_free _ _ _ _ (hne (i + 1 + 1) (by omega) (by omega)), hN2, hN1, hP2, hP1,
          if_neg (fun hc => by
            have := lnk_inj l R.nodup (i + 1) i0 (by omega) (by omega) hc; omega),
          if_neg (fun hc => by
            have := lnk_inj l R.nodup (i + 1 + 1) (i0 + 2) (by omega) (by omega) hc; omega)]
        exact R.links (i + 1) (by omega)
  · have hsub : (l.take i0 ++ l.drop (i0 + 1)).Sublist l := by
      rw [← List.eraseIdx_eq_take_drop_succ]
      exact List.eraseIdx_sublist l i0
    exact List.Nodup.sublist hsub R.nodup
  · intro x y' h
    obtain ⟨hx, y, hy, _⟩ := hold x y' h
    exact mem_erase l i0 hi0 x (R.live x y hy) hx
  · intro b c x y hb hc hxy
    obtain ⟨_, x0, hx0, hpx⟩ := hold b x hb
    obtain ⟨_, y0, hy0, hpy⟩ := hold c y hc
    exact R.sectors b c x0 y0 hx0 hy0 (by
      rw [payload_sector hpx, payload_sector hpy]; exact hxy)

theorem nodup_length_le (l : List Nat) (n : Nat) (hn : l.Nodup) (h : ∀ x, x ∈ l → x < n) :
    l.length ≤ n := by
  have h1 : l.toFinset ⊆ Finset.range n := by
    intro x hx
    simp only [List.mem_toFinset] at hx
    simp only [Finset.mem_range]
    exact h x hx
  have h2 := Finset.card_le_card h1
  rw [List.toFinset_card_of_nodup hn, Finset.card_range] at h2
  exact h2

theorem Registry.length_le {fs : FS} {l : List Nat} (R : Registry fs l) :
    l.length ≤ fs.heap.length := by
  apply nodup_length_le l _ R.nodup
  intro x hx
  obtain ⟨i, hi, e⟩ := mem_iff_getD l x hx
  obtain ⟨ino, hd, _, _⟩ := R.at i hi
  rw [e] at hd
  exact deref_lt fs x ino hd

/-- `inode_open` of a sector that has an in-memory inode: the same object,
opened once more. -/
theorem inode_open_registered (fs : FS) (l : List Nat) (R : Registry fs l) (sector b : Nat)
    (ino : inode) (hd : fs.deref b = some ino) (hs : ino.sector = sector) :
    inode_open fs sector = some (b, fs.assign b { ino with open_cnt := ino.open_cnt + 1 })
      ∧ Registry (fs.assign b { ino with open_cnt := ino.open_cnt + 1 }) l := by
  refine ⟨?_, Registry_assign fs l R b ino _ hd rfl rfl rfl⟩
  unfold inode_open
  rw [R.head_eq]
  rcases find_open_ok fs l R sector l.length 0 (fs.heap.length + 1) (by omega)
      (by have := R.length_le; omega) with ⟨b', ino', hf, hd', hs'⟩ | ⟨_, hno⟩
  · rw [hf]
    have hbb : b' = b := R.sectors b' b ino' ino hd' hd (by rw [hs', hs])
    subst hbb
    dsimp only
    unfold inode_reopen
    dsimp only
    rw [hd]
    rfl
  · exfalso
    obtain ⟨j, hj, e⟩ := mem_iff_getD l b (R.live b ino hd)
    exact hno j (Nat.zero_le _) hj ino (by rw [e]; exact hd) hs

/-- `inode_open` of a sector without an in-memory inode: a new object at the
front of the list, read from the disk inode. -/
theorem inode_open_unregistered (fs : FS) (l : List Nat) (R : Registry fs l) (sector : Nat)
    (hno : ∀ b ino, fs.deref b = some ino → ino.sector ≠ sector) :
    ∃ fs', inode_open fs sector = some (fs.heap.length, fs')
      ∧ Registry fs' (fs.heap.length :: l) ∧ fs'.store = fs.store
      ∧ fs'.deref fs.heap.length = some
          { elem_prev := .head, elem_next := lnk l 1, sector := sector, open_cnt := 1
            removed := false, deny_write_cnt := 0
            data := inode_disk.ofBytes (block_read fs.store sector) } := by
  obtain ⟨fs', hpush, hR, hnew, hstore, _⟩ := push_front_ok fs l R
    { elem_prev := .null, elem_next := .null, sector := sector, open_cnt := 1
      removed := false, deny_write_cnt := 0
      data := inode_disk.ofBytes (block_read fs.store sector) } hno
  refine ⟨fs', ?_, hR, hstore, hnew⟩
  unfold inode_open
  rcases find_open_ok fs l R sector l.length 0 (fs.heap.length + 1) (by omega)
      (by have := R.length_le; omega) with ⟨b', ino', _, hd', hs'⟩ | ⟨hf, _⟩
  · exact absurd hs' (hno b' ino' hd')
  · rw [show lnk l (0 + 1) = fs.head_next from R.head_eq.symm] at hf
    rw [hf]
    dsimp only
    rw [hpush]
    rfl

theorem inode_open_registry (fs fs' : FS) (l : List Nat) (R : Registry fs l) (sector a : Nat)
    (h : inode_open fs sector = some (a, fs')) : ∃ l', Registry fs' l' := by
  by_cases hex : ∃ b ino, fs.deref b = some ino ∧ ino.sector = sector
  · obtain ⟨b, ino, hd, hs⟩ := hex
    obtain ⟨h1, h2⟩ := inode_open_registered fs l R sector b ino hd hs
    rw [h1] at h
    have := (Prod.mk.inj (Option.some.inj h)).2
    rw [← this]
    exact ⟨l, h2⟩
  · obtain ⟨fs1, h1, h2, _⟩ := inode_open_unregistered fs l R sector (by
      intro b ino hd hs
      exact hex ⟨b, ino, hd, hs⟩)
    rw [h1] at h
    have := (Prod.mk.inj (Option.some.inj h)).2
    rw [← this]
    exact ⟨_, h2⟩

theorem inode_reopen_registry (fs fs' : FS) (l : List Nat) (R : Registry fs l) (p : Option Nat)
    (h : inode_reopen fs p = some fs') : Registry fs' l := by
  cases p with
  | none =>
    simp only [inode_reopen] at h
    rw [← Option.some.inj h]
    exact R
  | some a =>
    simp only [inode_reopen] at h
    cases hd : fs.deref a with
    | none => rw [hd] at h; simp at h
    | some ino =>
      rw [hd] at h
      rw [← Option.some.inj h]
      exact Registry_assign fs l R a ino _ hd rfl rfl rfl

theorem inode_close_registry (fs fs' : FS) (l : List Nat) (R : Registry fs l) (p : Option Nat)
    (h : inode_close fs p = some fs') : ∃ l', Registry fs' l' := by
  cases p with
  | none =>
    simp only [inode_close] at h
    rw [← Option.some.inj h]
    exact ⟨l, R⟩
  | some a =>
    simp only [inode_close] at h
    cases hd : fs.deref a with
    | none => rw [hd] at h; simp at h
    | some ino =>
      rw [hd] at h
      dsimp only at h
      have R1 := Registry_assign fs l R a ino { ino with open_cnt := ino.open_cnt - 1 } hd
        rfl rfl rfl
      by_cases h0 : ino.open_cnt - 1 = 0
      · rw [if_pos h0] at h
        obtain ⟨i0, hi0, e⟩ := mem_iff_getD l a (R.live a ino hd)
        obtain ⟨fs2, hrem, _, hreg⟩ := remove_ok _ l R1 i0 hi0
        rw [e] at hrem hreg
        rw [hrem] at h
        dsimp only at h
        generalize (if ino.removed = true then
          Option.map (fun s => free_map_release s ino.sector)
            (close_loop ino.data (bytes_to_sectors ino.data.length / TABLE_SIZE + 1) 0 fs2.store)
          else some fs2.store) = released at h
        cases released with
        | none => simp at h
        | some s =>
          simp only [Option.map_some', Option.some.injEq] at h
          rw [← h]
          exact ⟨_, hreg s⟩
      · rw [if_neg h0] at h
        rw [← Option.some.inj h]
        exact ⟨l, R1⟩

/-- Every run of `inode_open`, `inode_reopen` and `inode_close` calls keeps the
open-inode list well-formed. -/
theorem run_reg_registry (calls : List RegCall) :
    ∀ (fs fs' : FS) (l : List Nat), Registry fs l → run_reg calls fs = some fs' →
      ∃ l', Registry fs' l' := by
  induction calls with
  | nil =>
    intro fs fs' l R h
    simp only [run_reg] at h
    rw [← Option.some.inj h]
    exact ⟨l, R⟩
  | cons c cs ih =>
    intro fs fs' l R h
    cases c with
    | call_open sector =>
      simp only [run_reg] at h
      cases ho : inode_open fs sector with
      | none => rw [ho] at h; simp at h
      | some r =>
        obtain ⟨a, fs1⟩ := r
        rw [ho] at h
        obtain ⟨l1, R1⟩ := inode_open_registry fs fs1 l R sector a ho
        exact ih fs1 fs' l1 R1 h
    | call_reopen p =>
      simp only [run_reg] at h
      cases ho : inode_reopen fs p with
      | none => rw [ho] at h; simp at h
      | some fs1 =>
        rw [ho] at h
        exact ih fs1 fs' l (inode_reopen_registry fs fs1 l R p ho) h
    | call_close p =>
      simp only [run_reg] at h
      cases ho : inode_close fs p with
      | none => rw [ho] at h; simp at h
      | some fs1 =>
        rw [ho] at h
        obtain ⟨l1, R1⟩ := inode_close_registry fs fs1 l R p ho
        exact ih fs1 fs' l1 R1 h

/-- C15 (open-inode registry sharing).  (1) After every sequence of
`inode_open`, `inode_reopen` and `inode_close` calls that starts from the
list as `inode_init` leaves it, the open-inode list is well-formed: it holds
every in-memory inode, and no two in-memory inodes have the same sector.
(2) On a well-formed list, `inode_open (sector)` of a sector that has an
in-memory inode returns that object with `open_cnt` increased by one and every
other field, and every other object, as before.  (3) On a well-formed list,
`inode_open (sector)` of a sector without an in-memory inode returns a new
object, registered at the front of the list, with `open_cnt = 1`,
`deny_write_cnt = 0`, `removed = false` and `data` read from the disk inode at
`sector`. -/
theorem registry_sharing :
    (∀ (s : Store) (calls : List RegCall) (fs : FS),
        run_reg calls (emptyFS s) = some fs →
        ∃ l, Registry fs l
          ∧ ∀ a b x y, fs.deref a = some x → fs.deref b = some y → x.sector = y.sector → a = b)
    ∧ (∀ (fs : FS) (l : List Nat) (sector b : Nat) (ino : inode), Registry fs l →
        fs.deref b = some ino → ino.sector = sector →
        inode_open fs sector = some (b, fs.assign b { ino with open_cnt := ino.open_cnt + 1 })
          ∧ Registry (fs.assign b { ino with open_cnt := ino.open_cnt + 1 }) l)
    ∧ (∀ (fs : FS) (l : List Nat) (sector : Nat), Registry fs l →
        (∀ b ino, fs.deref b = some ino → ino.sector ≠ sector) →
        ∃ a fs' ino, inode_open fs sector = some (a, fs') ∧ a ∉ l ∧ Registry fs' (a :: l)
          ∧ fs'.store = fs.store ∧ fs'.deref a = some ino ∧ ino.sector = sector
          ∧ ino.open_cnt = 1 ∧ ino.deny_write_cnt = 0 ∧ ino.removed = false
          ∧ ino.data = inode_disk.ofBytes (block_read fs.store sector)) := by
  refine ⟨?_, ?_, ?_⟩
  · intro s calls fs h
    obtain ⟨l, R⟩ := run_reg_registry calls (emptyFS s) fs [] (Registry_empty s) h
    exact ⟨l, R, R.sectors⟩
  · intro fs l sector b ino R hd hs
    exact inode_open_registered fs l R sector b ino hd hs
  · intro fs l sector R hno
    obtain ⟨fs', h1, h2, h3, h4⟩ := inode_open_unregistered fs l R sector hno
    refine ⟨fs.heap.length, fs', _, h1, ?_, h2, h3, h4, rfl, rfl, rfl, rfl, rfl⟩
    intro hm
    have := (List.nodup_cons.1 h2.nodup).1
    exact this hm

set_option maxRecDepth 1000000 in
/-- C15 at two opens of sector 2, an open of sector 1, a reopen and two closes
of the inode of sector 2. -/
theorem registry_sharing_witness :
    (run_reg [.call_open 2, .call_open 1, .call_open 2, .call_reopen (some 0),
        .call_close (some 0), .call_close (some 0)] (emptyFS exampleStore)).map
          (fun fs => (open_cnt_of fs 2, open_cnt_of fs 1, fs.heap.length))
        = some (some 1, some 1, 2)
    ∧ ∃ fs, run_reg [.call_open 2, .call_open 1, .call_open 2, .call_reopen (some 0),
          .call_close (some 0), .call_close (some 0)] (emptyFS exampleStore) = some fs
        ∧ ∃ l, Registry fs l
          ∧ ∀ a b x y, fs.deref a = some x → fs.deref b = some y → x.sector = y.sector →
              a = b := by
  refine ⟨by decide!, ?_⟩
  have h : (run_reg [.call_open 2, .call_open 1, .call_open 2, .call_reopen (some 0),
      .call_close (some 0), .call_close (some 0)] (emptyFS exampleStore)).isSome = true := by
    decide!
  obtain ⟨fs, hfs⟩ := Option.isSome_iff_exists.1 h
  exact ⟨fs, hfs, registry_sharing.1 exampleStore _ fs hfs⟩

/-! ## Call sequences on a full free-map and after formatting -/

set_option maxRecDepth 1000000 in
theorem fullStore_wf : WF fullStore exampleInode := by
  refine ⟨by decide!, by decide!, ?_⟩
  have hn : bytes_to_sectors exampleInode.data.length = 0 := by decide!
  have hb : blocksFor (bytes_to_sectors exampleInode.data.length) = 1 := by decide!
  constructor
  · decide!
  · decide!
  · decide!
  · decide!
  · decide!
  · decide!
  · decide!
  · decide!
  · decide!
  · intro j k _ hk; rw [hn] at hk; omega
  · intro j j' hj hj' _; rw [hb] at hj hj'; omega
  · intro k k' hk; rw [hn] at hk; omega

set_option maxRecDepth 1000000 in
/-- C21 (root is its own parent): after `filesys_init` with `format = true` on
a device of 64 sectors, the disk inode stored at `ROOT_DIR_SECTOR` is a
directory inode (magic number and `is_dir` set) whose `parent_directory` is 0,
the free-map's sector, not `ROOT_DIR_SECTOR`. -/
theorem root_parent_directory_is_zero :
    (filesys_init 64 true).map (fun fs =>
      [(inode_disk.ofBytes (block_read fs.store ROOT_DIR_SECTOR)).magic,
        (inode_disk.ofBytes (block_read fs.store ROOT_DIR_SECTOR)).is_dir,
        (inode_disk.ofBytes (block_read fs.store ROOT_DIR_SECTOR)).parent_directory])
      = some [INODE_MAGIC, 1, 0] := by
  decide!

set_option maxRecDepth 1000000 in
/-- C26 (growth keeps length within reachable data), at a well-formed empty
file on a device without a free sector: `grow_inode (inode, 1)` returns true;
afterwards the length needs one data sector while the header of the only
indirection block is still 0, and byte 0 resolves through `byte_to_sector` to
sector 0. -/
theorem grow_inode_true_without_sector :
    WF fullStore exampleInode
    ∧ headerAt fullStore 3 = bytes_to_sectors exampleInode.data.length
    ∧ (grow_inode fullStore exampleInode 1).map (fun r =>
        (r.1, [r.2.1.data.length, bytes_to_sectors r.2.1.data.length, headerAt r.2.2 3],
          byte_to_sector r.2.2 r.2.1 0))
      = some (true, [1, 1, 0], some 0) :=
  ⟨fullStore_wf, by decide!, by decide!⟩

set_option maxRecDepth 1000000 in
/-- C27 (the three growth cases), at a file of exactly `TABLE_SIZE *
BLOCK_SECTOR_SIZE` bytes made by `inode_create`: the new inode references the
indirection blocks at sectors 4 and 132; `grow_inode (inode, 1)` returns true
and replaces `indirection[1]` by the new block 133, so that sector 132 is
still allocated and no longer referenced by the inode. -/
theorem grow_inode_drops_created_block :
    ((inode_create exampleStore 2 (TABLE_SIZE * BLOCK_SECTOR_SIZE) 0).bind fun r1 =>
      (inode_open (emptyFS r1.2) 2).bind fun r2 =>
        (r2.2.deref r2.1).bind fun ino =>
          (grow_inode r1.2 ino 1).map fun r3 =>
            (r1.1 && r3.1 && decide (allocated r1.2 132) && decide (allocated r3.2.2 132)
                && decide (132 ∉ r3.2.1.data.indirection),
              [ino.data.indirection.take 3, r3.2.1.data.indirection.take 3,
                [ino.data.length, r3.2.1.data.length]]))
      = some (true, [[4, 132, 0], [4, 133, 0], [65024, 65025]]) := by
  decide!

set_option maxRecDepth 1000000 in
/-- C29 (`inode_write_at` touches only the inode's own sectors), at a
well-formed empty file (inode sector 2, indirection block 3) on a device
without a free sector: the write of one byte at offset 0 returns 1 and stores
the byte in sector 0. -/
theorem inode_write_at_writes_sector_zero :
    WF fullStore exampleInode
    ∧ (fullStore.disk 0).take 4 = [0, 0, 0, 0]
    ∧ (inode_write_at fullStore exampleInode [7] 1 0).map (fun r =>
        (r.1, (r.2.2.disk 0).take 4)) = some (1, [7, 0, 0, 0]) :=
  ⟨fullStore_wf, by decide!, by decide!⟩

set_option maxRecDepth 1000000 in
/-- C30 (a refused create leaks nothing), on a freshly formatted device of 64
sectors: `filesys_create ("/f", 0)` returns true; the second
`filesys_create ("/f", 0)` returns false and leaves one sector fewer free
than before it (55 instead of 56): the indirection block that `inode_create`
allocated stays allocated. -/
theorem refused_create_leaks_block :
    ((boot 64).bind fun fs => (filesys_create fs (cstr "/f") 0).bind fun r1 =>
      (filesys_create r1.2 (cstr "/f") 0).map fun r2 =>
        (r1.1, r2.1, freeCount r1.2.store, freeCount r2.2.store))
      = some (true, false, 56, 55) := by
  decide!

/-! ## `byte_to_sector` -/

/-- C24 (`byte_to_sector` matches its definition).  (1) At or past the length
`byte_to_sector` returns the sentinel `(block_sector_t) -1`.  (2) Below the
length, with `pos / (TABLE_SIZE * BLOCK_SECTOR_SIZE)` inside the `indirection`
array, it returns entry `(pos / BLOCK_SECTOR_SIZE) mod TABLE_SIZE` of the
indirection block stored at sector `indirection[pos / (TABLE_SIZE *
BLOCK_SECTOR_SIZE)]`.  (3) For a well-formed inode and `pos` below the length
this is the `k`-th data sector of the file, `k = pos / BLOCK_SECTOR_SIZE`, it
is not the sentinel, and positions in different sectors of the file resolve to
different sectors of the device. -/
theorem byte_to_sector_matches_definition (st : Store) (ino : inode) (pos : Nat) :
    (ino.data.length ≤ pos → byte_to_sector st ino pos = some NO_SECTOR)
    ∧ (pos < ino.data.length → pos / (TABLE_SIZE * BLOCK_SECTOR_SIZE) < NUM_TABLES →
        byte_to_sector st ino pos
          = some (entryAt st
              (ino.data.indirection.getD (pos / (TABLE_SIZE * BLOCK_SECTOR_SIZE)) 0)
              (pos / BLOCK_SECTOR_SIZE % TABLE_SIZE)))
    ∧ (WF st ino → pos < ino.data.length →
        byte_to_sector st ino pos
            = some (dataSector st ino.data.indirection (pos / BLOCK_SECTOR_SIZE))
          ∧ byte_to_sector st ino pos ≠ some NO_SECTOR
          ∧ ∀ pos', pos' < ino.data.length →
              pos / BLOCK_SECTOR_SIZE ≠ pos' / BLOCK_SECTOR_SIZE →
              byte_to_sector st ino pos ≠ byte_to_sector st ino pos') := by
  refine ⟨byte_to_sector_eof st ino pos, ?_, ?_⟩
  · intro hpos hidx
    unfold byte_to_sector
    rw [if_pos hpos]
    dsimp only
    rw [if_neg (by omega)]
    have h2 : pos / BLOCK_SECTOR_SIZE % TABLE_SIZE < TABLE_SIZE := by
      simp only [TABLE_SIZE]; omega
    rw [ofBytes_sectors_getD _ _ h2]
    rfl
  · intro hwf hpos
    have h1 := byte_to_sector_wf st ino pos hwf hpos
    refine ⟨h1, ?_, ?_⟩
    · rw [h1]
      intro hc
      exact dataSector_ne_NO_SECTOR st ino _ hwf (sector_index_lt _ _ hpos) (Option.some.inj hc)
    · intro pos' hpos' hne hc
      rw [h1, byte_to_sector_wf st ino pos' hwf hpos'] at hc
      exact hne (hwf.layout.data_inj _ _ (sector_index_lt _ _ hpos)
        (sector_index_lt _ _ hpos') (Option.some.inj hc))

set_option maxRecDepth 1000000 in
/-- C24 at bytes 2 and 700 of a five-byte file. -/
theorem byte_to_sector_matches_definition_witness :
    WF helloStore helloInode
    ∧ byte_to_sector helloStore helloInode 700 = some NO_SECTOR
    ∧ byte_to_sector helloStore helloInode 2 = some (entryAt helloStore 3 0)
    ∧ entryAt helloStore 3 0 = 4
    ∧ byte_to_sector helloStore helloInode 2 ≠ some NO_SECTOR :=
  ⟨helloInode_wf,
    (byte_to_sector_matches_definition helloStore helloInode 700).1 (by decide!),
    (byte_to_sector_matches_definition helloStore helloInode 2).2.1 (by decide!) (by decide!),
    by decide!,
    ((byte_to_sector_matches_definition helloStore helloInode 2).2.2 helloInode_wf
      (by decide!)).2.1⟩

/-! ## Path splitting -/

theorem last_slash_none (l : List Nat) : ∀ (i prev : Nat), SLASH ∉ l →
    last_slash l i prev = prev := by
  induction l with
  | nil => intro i prev _; rfl
  | cons c cs ih =>
    intro i prev h
    unfold last_slash
    have hc : c ≠ SLASH := fun e => h (by rw [e]; exact List.mem_cons_self _ _)
    rw [if_neg hc]
    exact ih (i + 1) prev (fun hm => h (List.mem_cons_of_mem _ hm))

theorem last_slash_split (l1 l2 : List Nat) (h2 : SLASH ∉ l2) : ∀ (i prev : Nat),
    last_slash (l1 ++ SLASH :: l2) i prev = i + l1.length := by
  induction l1 with
  | nil =>
    intro i prev
    simp only [List.nil_append, List.length_nil, Nat.add_zero]
    unfold last_slash
    rw [if_pos rfl]
    exact last_slash_none l2 (i + 1) i h2
  | cons c cs ih =>
    intro i prev
    simp only [List.cons_append, List.length_cons]
    unfold last_slash
    rw [ih (i + 1)]
    omega

theorem exists_last_slash (l : List Nat) (h : SLASH ∈ l) :
    ∃ l1 l2, l = l1 ++ SLASH :: l2 ∧ SLASH ∉ l2 := by
  induction l with
  | nil => cases h
  | cons c cs ih =>
    by_cases hcs : SLASH ∈ cs
    · obtain ⟨l1, l2, e, h2⟩ := ih hcs
      exact ⟨c :: l1, l2, by rw [e]; rfl, h2⟩
    · have hc : SLASH = c := by
        rcases List.mem_cons.1 h with h | h
        · exact h
        · exact absurd h hcs
      exact ⟨[], cs, by rw [hc]; rfl, hcs⟩

theorem split_without_slash (name : List Nat) (h : SLASH ∉ name) :
    filesys_create_split name = (name, []) := by
  unfold filesys_create_split
  dsimp only
  rw [last_slash_none name 0 0 h]
  have h0 : name.getD 0 0 ≠ SLASH := by
    cases name with
    | nil => simp [SLASH]
    | cons c cs =>
      simp only [List.getD_cons_zero]
      exact fun e => h (by rw [← e]; exact List.mem_cons_self _ _)
  rw [if_neg h0]
  simp

theorem split_with_slash (l1 l2 : List Nat) (h2 : SLASH ∉ l2) :
    filesys_create_split (l1 ++ SLASH :: l2) = (l2, l1) := by
  unfold filesys_create_split
  dsimp only
  rw [last_slash_split l1 l2 h2 0 0, Nat.zero_add]
  have h0 : (l1 ++ SLASH :: l2).getD l1.length 0 = SLASH := by
    rw [List.getD_append_right _ _ _ _ (Nat.le_refl _), Nat.sub_self]
    rfl
  rw [if_pos h0]
  have hp : List.take l1.length
      (List.take (l1 ++ SLASH :: l2).length (l1 ++ SLASH :: l2)) = l1 := by
    rw [List.take_length, List.take_left' rfl]
  rw [hp]
  simp

/-- C28 (path splitting).  The splitters of `filesys_create`,
`filesys_remove` and `dir_make` compute the same pair.  For a path without
`'/'` the leaf is the whole path and the parent path is empty.  For a path
with a `'/'` the leaf holds no `'/'` and parent path, `'/'` and leaf make up
the path, so the leaf is what follows the last `'/'` and the parent path is
what precedes it (empty when that `'/'` is the first character). -/
theorem path_split (name : List Nat) :
    filesys_remove_split name = filesys_create_split name
    ∧ dir_make_split name = filesys_create_split name
    ∧ (SLASH ∉ name → filesys_create_split name = (name, []))
    ∧ (SLASH ∈ name → ∃ parent leaf, filesys_create_split name = (leaf, parent)
        ∧ SLASH ∉ leaf ∧ parent ++ [SLASH] ++ leaf = name
        ∧ (name.getD 0 0 = SLASH → SLASH ∉ name.drop 1 → parent = [])) := by
  refine ⟨rfl, rfl, split_without_slash name, ?_⟩
  intro h
  obtain ⟨l1, l2, e, h2⟩ := exists_last_slash name h
  refine ⟨l1, l2, by rw [e]; exact split_with_slash l1 l2 h2, h2, by rw [e]; simp, ?_⟩
  intro h0 h1
  cases l1 with
  | nil => rfl
  | cons c cs =>
    exfalso
    rw [e] at h1
    apply h1
    simp

set_option maxRecDepth 1000000 in
/-- C28 at the paths `/a/b/c`, `/abc` and `abc`. -/
theorem path_split_witness :
    filesys_create_split (cstr "abc") = (cstr "abc", [])
    ∧ (∃ parent leaf, filesys_create_split (cstr "/a/b/c") = (leaf, parent)
        ∧ SLASH ∉ leaf ∧ parent ++ [SLASH] ++ leaf = cstr "/a/b/c"
        ∧ (List.getD (cstr "/a/b/c") 0 0 = SLASH → SLASH ∉ List.drop 1 (cstr "/a/b/c") →
            parent = []))
    ∧ filesys_create_split (cstr "/a/b/c") = (cstr "c", cstr "/a/b")
    ∧ filesys_create_split (cstr "/abc") = (cstr "abc", []) :=
  ⟨(path_split (cstr "abc")).2.2.1 (by decide!),
    (path_split (cstr "/a/b/c")).2.2.2 (by decide!), by decide!, by decide!⟩

/-! ## Sectors claimed by `inode_create` -/

theorem free_map_allocate_count (st st1 : Store) (s : Nat)
    (h : free_map_allocate st = some (s, st1)) :
    freeCount st1 + 1 = freeCount st ∧ (∀ x, allocated st x → allocated st1 x)
      ∧ st1.disk = st.disk := by
  obtain ⟨s', e, hlt, _, hc⟩ := free_map_allocate_ok st (free_map_allocate_pos st _ h)
  rw [h] at e
  have e1 := Prod.mk.inj (Option.some.inj e)
  have es : s = s' := e1.1
  subst es
  rw [e1.2]
  exact ⟨hc, fun x hx => (allocated_set st s x hlt).2 (Or.inr hx), rfl⟩

theorem add_sector_count (st st' : Store) (b : Nat) (h : add_sector st b = some (true, st')) :
    freeCount st' + 1 = freeCount st ∧ (∀ x, allocated st x → allocated st' x) := by
  unfold add_sector at h
  dsimp only at h
  split at h
  · cases h
  · cases hal : free_map_allocate st with
    | none => rw [hal] at h; simp at h
    | some r =>
      obtain ⟨s, st1⟩ := r
      rw [hal] at h
      dsimp only at h
      obtain ⟨hc, hm, _⟩ := free_map_allocate_count st st1 s hal
      split at h
      · cases h
      · have e := (Prod.mk.inj (Option.some.inj h)).2
        rw [← e]
        exact ⟨hc, hm⟩

theorem create_rest_count (table : Nat) (m : Nat) : ∀ (st st' : Store),
    create_rest table m st = some (true, st') →
    freeCount st' + m = freeCount st ∧ (∀ x, allocated st x → allocated st' x) := by
  induction m with
  | zero =>
    intro st st' h
    simp only [create_rest] at h
    have e := (Prod.mk.inj (Option.some.inj h)).2
    rw [← e]
    exact ⟨rfl, fun _ hx => hx⟩
  | succ m ih =>
    intro st st' h
    unfold create_rest at h
    cases hadd : add_sector st table with
    | none => rw [hadd] at h; simp at h
    | some r =>
      obtain ⟨b, st1⟩ := r
      cases b with
      | false => rw [hadd] at h; simp at h
      | true =>
        rw [hadd] at h
        dsimp only at h
        obtain ⟨c1, m1⟩ := add_sector_count st st1 table hadd
        obtain ⟨c2, m2⟩ := ih st1 st' h
        exact ⟨by omega, fun x hx => m2 x (m1 x hx)⟩

theorem create_tables_count (m : Nat) : ∀ (st st' : Store) (d d' : inode_disk) (i : Nat),
    create_tables m i d st = some (true, d', st') →
    freeCount st' + m * (TABLE_SIZE + 1) = freeCount st
      ∧ (∀ x, allocated st x → allocated st' x) := by
  induction m with
  | zero =>
    intro st st' d d' i h
    simp only [create_tables] at h
    have e := (Prod.mk.inj (Prod.mk.inj (Option.some.inj h)).2).2
    rw [← e]
    exact ⟨by omega, fun _ hx => hx⟩
  | succ m ih =>
    intro st st' d d' i h
    unfold create_tables at h
    cases hal : free_map_allocate st with
    | none => rw [hal] at h; simp at h
    | some r =>
      obtain ⟨s, st1⟩ := r
      rw [hal] at h
      dsimp only at h
      split at h
      · cases h
      · obtain ⟨c1, m1, _⟩ := free_map_allocate_count st st1 s hal
        unfold fill_indirection_block at h
        rw [fill_loop_eq] at h
        cases hfill : create_rest s TABLE_SIZE (init_indirection_block st1 s) with
        | none => rw [hfill] at h; simp at h
        | some r =>
          obtain ⟨b, st3⟩ := r
          cases b with
          | false => rw [hfill] at h; simp at h
          | true =>
            rw [hfill] at h
            dsimp only at h
            obtain ⟨c2, m2⟩ := create_rest_count s TABLE_SIZE _ st3 hfill
            obtain ⟨c3, m3⟩ := ih st3 st' _ d' (i + 1) h
            have c2' : freeCount st3 + TABLE_SIZE = freeCount st1 := c2
            refine ⟨?_, fun x hx => m3 x (m2 x (m1 x hx))⟩
            rw [Nat.succ_mul]
            omega

/-- The number of sectors that a successful `inode_create` takes from the
free-map. -/
theorem inode_create_count (st st' : Store) (sector N is_dir : Nat)
    (h : inode_create st sector N is_dir = some (true, st')) :
    freeCount st' + (bytes_to_sectors N + (bytes_to_sectors N / TABLE_SIZE + 1)) = freeCount st
      ∧ (∀ x, allocated st x → allocated st' x) := by
  unfold inode_create at h
  dsimp only at h
  cases htab : create_tables (bytes_to_sectors N / TABLE_SIZE) 0
      { length := N, magic := INODE_MAGIC, is_dir := is_dir, parent_directory := 0,
        indirection := List.replicate NUM_TABLES 0 } st with
  | none => rw [htab] at h; simp at h
  | some r =>
    obtain ⟨b, d1, st1⟩ := r
    cases b with
    | false => rw [htab] at h; simp at h
    | true =>
      rw [htab] at h
      dsimp only at h
      obtain ⟨c1, m1⟩ := create_tables_count _ st st1 _ d1 0 htab
      cases hal2 : free_map_allocate st1 with
      | none => rw [hal2] at h; simp at h
      | some r2 =>
        obtain ⟨table, st2⟩ := r2
        rw [hal2] at h
        dsimp only at h
        obtain ⟨c2, m2, _⟩ := free_map_allocate_count st1 st2 table hal2
        split at h
        · cases h
        · cases hrest : create_rest table
              (bytes_to_sectors N - bytes_to_sectors N / TABLE_SIZE * TABLE_SIZE)
              (init_indirection_block st2 table) with
          | none => rw [hrest] at h; simp at h
          | some r3 =>
            obtain ⟨b3, st4⟩ := r3
            cases b3 with
            | false => rw [hrest] at h; simp at h
            | true =>
              rw [hrest] at h
              dsimp only at h
              obtain ⟨c3, m3⟩ := create_rest_count table _ _ st4 hrest
              have e := (Prod.mk.inj (Option.some.inj h)).2
              rw [← e]
              have c3' : freeCount st4
                  + (bytes_to_sectors N - bytes_to_sectors N / TABLE_SIZE * TABLE_SIZE)
                  = freeCount st2 := c3
              refine ⟨?_, fun x hx => m3 x (m2 x (m1 x hx))⟩
              show freeCount st4 + _ = _
              have hdm : bytes_to_sectors N / TABLE_SIZE * TABLE_SIZE ≤ bytes_to_sectors N :=
                Nat.div_mul_le_self _ _
              have hmul : bytes_to_sectors N / TABLE_SIZE * (TABLE_SIZE + 1)
                  = bytes_to_sectors N / TABLE_SIZE * TABLE_SIZE
                    + bytes_to_sectors N / TABLE_SIZE := by
                rw [Nat.mul_succ]
              omega

/-- The data sectors that `create_rest` appends were free in an earlier state
`st0` of the free-map. -/
theorem create_rest_fresh (st0 : Store) (isec : Nat) (ind : List Nat) (nb : Nat) (m : Nat) :
    ∀ (st st' : Store) (n : Nat), Layout st isec ind nb n → 0 < nb →
    (nb - 1) * TABLE_SIZE ≤ n → n + m ≤ nb * TABLE_SIZE →
    (∀ k, k < n → st.disk (dataSector st ind k) = zeros) →
    (∀ x, allocated st0 x → allocated st x) →
    (∀ k, k < n → ¬ allocated st0 (dataSector st ind k)) →
    create_rest (ind.getD (nb - 1) 0) m st = some (true, st') →
    ∀ k, k < n + m → ¬ allocated st0 (dataSector st' ind k) := by
  induction m with
  | zero =>
    intro st st' n _ _ _ _ _ _ hf h
    simp only [create_rest] at h
    have e := (Prod.mk.inj (Option.some.inj h)).2
    rw [← e]
    exact hf
  | succ m ih =>
    intro st st' n hL hnb hlo hhi hz hmono hf h
    unfold create_rest at h
    have hidx : n / TABLE_SIZE = nb - 1 := by
      simp only [TABLE_SIZE] at hlo hhi ⊢; omega
    have hn : n < nb * TABLE_SIZE := by simp only [TABLE_SIZE] at hhi ⊢; omega
    cases hadd : add_sector st (ind.getD (nb - 1) 0) with
    | none => rw [hadd] at h; simp at h
    | some r =>
      obtain ⟨b, st1⟩ := r
      cases b with
      | false => rw [hadd] at h; simp at h
      | true =>
        rw [hadd] at h
        dsimp only at h
        rw [← hidx] at hadd
        obtain ⟨s, st2, hadd2, _, _, hsfree, _, hnew, _, hdata, _⟩ :=
          Layout_add st isec ind nb n hL hn (add_sector_true_pos st st1 _ hadd)
        rw [hadd] at hadd2
        have hst : st1 = st2 := (Prod.mk.inj (Option.some.inj hadd2)).2
        subst hst
        obtain ⟨hL1, hz1⟩ := Layout_add_of_true st st1 isec ind nb n hL hn hz hadd
        obtain ⟨_, hm1⟩ := add_sector_count st st1 _ hadd
        have hf1 : ∀ k, k < n + 1 → ¬ allocated st0 (dataSector st1 ind k) := by
          intro k hk
          by_cases hkn : k = n
          · rw [hkn, hnew]
            exact fun hc => hsfree (hmono s hc)
          · rw [hdata k (by omega)]
            exact hf k (by omega)
        have := ih st1 st' (n + 1) hL1 hnb (by omega) (by omega) hz1
          (fun x hx => hm1 x (hmono x hx)) hf1 h
        rw [show n + (m + 1) = n + 1 + m by omega]
        exact this

/-- The indirection blocks and data sectors that `create_tables` allocates
were free in an earlier state `st0` of the free-map. -/
theorem create_tables_fresh (st0 : Store) (isec : Nat) (m : Nat) :
    ∀ (st st' : Store) (d d' : inode_disk) (i : Nat),
    d.indirection.length = NUM_TABLES →
    Layout st isec d.indirection i (i * TABLE_SIZE) →
    (∀ k, k < i * TABLE_SIZE → st.disk (dataSector st d.indirection k) = zeros) →
    (∀ x, allocated st0 x → allocated st x) →
    (∀ j, j < i → ¬ allocated st0 (d.indirection.getD j 0)) →
    (∀ k, k < i * TABLE_SIZE → ¬ allocated st0 (dataSector st d.indirection k)) →
    create_tables m i d st = some (true, d', st') →
    (∀ j, j < i + m → ¬ allocated st0 (d'.indirection.getD j 0))
      ∧ (∀ k, k < (i + m) * TABLE_SIZE → ¬ allocated st0 (dataSector st' d'.indirection k)) := by
  induction m with
  | zero =>
    intro st st' d d' i _ _ _ _ hfb hfd h
    simp only [create_tables] at h
    have h3 := Prod.mk.inj (Prod.mk.inj (Option.some.inj h)).2
    rw [← h3.1, ← h3.2]
    exact ⟨hfb, hfd⟩
  | succ m ih =>
    intro st st' d d' i hlen hL hz hmono hfb hfd h
    unfold create_tables at h
    by_cases hi : NUM_TABLES ≤ i
    · cases hal : free_map_allocate st with
      | none => rw [hal] at h; simp at h
      | some r => rw [hal] at h; simp [hi] at h
    · cases hal : free_map_allocate st with
      | none => rw [hal] at h; simp at h
      | some r =>
        obtain ⟨s, st1⟩ := r
        rw [hal] at h
        dsimp only at h
        rw [if_neg hi] at h
        obtain ⟨s', st1', hal', hL2, _, hsfree, hiff, hdata2, hframe2⟩ :=
          Layout_new_block st isec d.indirection i (i * TABLE_SIZE) hL (by omega)
            (free_map_allocate_pos st _ hal)
        rw [hal] at hal'
        have e1 := Prod.mk.inj (Option.some.inj hal')
        have es : s = s' := e1.1
        have est : st1 = st1' := e1.2
        subst es est
        have hz2 : ∀ k, k < i * TABLE_SIZE →
            (init_indirection_block st1 s).disk
              (dataSector (init_indirection_block st1 s) (d.indirection.set i s) k) = zeros := by
          intro k hk
          rw [hdata2 k hk, hframe2 _ (fun e => hsfree (e ▸ hL.data_alloc k hk))]
          exact hz k hk
        have hsel : (d.indirection.set i s).getD (i + 1 - 1) 0 = s := by
          rw [Nat.add_sub_cancel, getD_set_eq, if_pos ⟨rfl, by omega⟩]
        have hmono2 : ∀ x, allocated st0 x → allocated (init_indirection_block st1 s) x :=
          fun x hx => (hiff x).2 (Or.inr (hmono x hx))
        have hfb2 : ∀ j, j < i + 1 → ¬ allocated st0 ((d.indirection.set i s).getD j 0) := by
          intro j hj
          rw [getD_set_eq]
          by_cases hji : i = j
          · rw [if_pos ⟨hji, by omega⟩]
            exact fun hc => hsfree (hmono s hc)
          · rw [if_neg (fun hc => hji hc.1)]
            exact hfb j (by omega)
        have hfd2 : ∀ k, k < i * TABLE_SIZE → ¬ allocated st0
            (dataSector (init_indirection_block st1 s) (d.indirection.set i s) k) := by
          intro k hk
          rw [hdata2 k hk]
          exact hfd k hk
        unfold fill_indirection_block at h
        rw [fill_loop_eq] at h
        cases hfill : create_rest s TABLE_SIZE (init_indirection_block st1 s) with
        | none => rw [hfill] at h; simp at h
        | some r =>
          obtain ⟨b, st3⟩ := r
          cases b with
          | false => rw [hfill] at h; simp at h
          | true =>
            rw [hfill] at h
            dsimp only at h
            have hfill' : create_rest ((d.indirection.set i s).getD (i + 1 - 1) 0) TABLE_SIZE
                (init_indirection_block st1 s) = some (true, st3) := by
              rw [hsel]; exact hfill
            obtain ⟨hL3, hz3⟩ := create_rest_ok isec (d.indirection.set i s) (i + 1) TABLE_SIZE
              (init_indirection_block st1 s) st3 (i * TABLE_SIZE) hL2 (by omega)
              (by simp) (by simp only [TABLE_SIZE]; omega) hz2 hfill'
            have hf3 := create_rest_fresh st0 isec (d.indirection.set i s) (i + 1) TABLE_SIZE
              (init_indirection_block st1 s) st3 (i * TABLE_SIZE) hL2 (by omega)
              (by simp) (by simp only [TABLE_SIZE]; omega) hz2 hmono2 hfd2 hfill'
            obtain ⟨_, hm3⟩ := create_rest_count s TABLE_SIZE _ st3 hfill
            have hsum : (i + 1) * TABLE_SIZE = i * TABLE_SIZE + TABLE_SIZE := by
              simp only [TABLE_SIZE]; omega
            have hL3' : Layout st3 isec (d.indirection.set i s) (i + 1) ((i + 1) * TABLE_SIZE) := by
              rw [hsum]; exact hL3
            have hz3' : ∀ k, k < (i + 1) * TABLE_SIZE →
                st3.disk (dataSector st3 (d.indirection.set i s) k) = zeros := by
              intro k hk
              exact hz3 k (by rw [← hsum]; exact hk)
            have hf3' : ∀ k, k < (i + 1) * TABLE_SIZE →
                ¬ allocated st0 (dataSector st3 (d.indirection.set i s) k) := by
              intro k hk
              exact hf3 k (by rw [← hsum]; exact hk)
            have := ih st3 st' { d with indirection := d.indirection.set i s } d' (i + 1)
              (by simp [hlen]) hL3' hz3' (fun x hx => hm3 x (hmono2 x hx)) hfb2 hf3' h
            rw [show i + (m + 1) = i + 1 + m by omega]
            exact this

/-- The indirection blocks `indirection[0 .. sectors / TABLE_SIZE]` and the
data sectors of an inode that `inode_create` made were free before the call
and are allocated after it. -/
theorem inode_create_fresh (st st' : Store) (sector N is_dir : Nat)
    (hfm : st.free_map.length ≤ NO_SECTOR) (hal : allocated st sector)
    (h : inode_create st sector N is_dir = some (true, st')) (ino : inode)
    (hdata : ino.data = inode_disk.ofBytes (st'.disk sector)) :
    (∀ j, j < bytes_to_sectors N / TABLE_SIZE + 1 →
        ¬ allocated st (ino.data.indirection.getD j 0)
          ∧ allocated st' (ino.data.indirection.getD j 0))
      ∧ (∀ k, k < bytes_to_sectors N →
        ¬ allocated st (dataSector st' ino.data.indirection k)) := by
  unfold inode_create at h
  dsimp only at h
  cases htab : create_tables (bytes_to_sectors N / TABLE_SIZE) 0
      { length := N, magic := INODE_MAGIC, is_dir := is_dir, parent_directory := 0,
        indirection := List.replicate NUM_TABLES 0 } st with
  | none => rw [htab] at h; simp at h
  | some r =>
    obtain ⟨b, d1, st1⟩ := r
    cases b with
    | false => rw [htab] at h; simp at h
    | true =>
      rw [htab] at h
      dsimp only at h
      obtain ⟨hlen1, hdl1, hL1, hz1⟩ := create_tables_ok sector _ st st1 _ d1 0
        (by simp) (by rw [Nat.zero_mul]; exact Layout_empty st sector _ hfm hal)
        (by intro k hk; omega) htab
      obtain ⟨hfb1, hfd1⟩ := create_tables_fresh st sector _ st st1 _ d1 0
        (by simp) (by rw [Nat.zero_mul]; exact Layout_empty st sector _ hfm hal)
        (by intro k hk; omega) (fun _ hx => hx) (by intro j hj; omega)
        (by intro k hk; omega) htab
      obtain ⟨_, hm1⟩ := create_tables_count _ st st1 _ d1 0 htab
      rw [Nat.zero_add] at hL1 hz1 hfb1 hfd1
      by_cases hnt : NUM_TABLES ≤ bytes_to_sectors N / TABLE_SIZE
      · cases hal2 : free_map_allocate st1 with
        | none => rw [hal2] at h; simp at h
        | some r2 => rw [hal2] at h; simp [hnt] at h
      · cases hal2 : free_map_allocate st1 with
        | none => rw [hal2] at h; simp at h
        | some r2 =>
          obtain ⟨table, st2⟩ := r2
          rw [hal2] at h
          dsimp only at h
          rw [if_neg hnt] at h
          obtain ⟨s', st2', hal', hL2, _, hsfree, hiff, hdata2, hframe2⟩ :=
            Layout_new_block st1 sector d1.indirection _ _ hL1 (by omega)
              (free_map_allocate_pos st1 _ hal2)
          rw [hal2] at hal'
          have e1 := Prod.mk.inj (Option.some.inj hal')
          have es : table = s' := e1.1
          have est : st2 = st2' := e1.2
          subst es est
          have hz2 : ∀ k, k < bytes_to_sectors N / TABLE_SIZE * TABLE_SIZE →
              (init_indirection_block st2 table).disk
                (dataSector (init_indirection_block st2 table)
                  (d1.indirection.set (bytes_to_sectors N / TABLE_SIZE) table) k) = zeros := by
            intro k hk
            rw [hdata2 k hk, hframe2 _ (fun e => hsfree (e ▸ hL1.data_alloc k hk))]
            exact hz1 k hk
          have hsel : (d1.indirection.set (bytes_to_sectors N / TABLE_SIZE) table).getD
              (bytes_to_sectors N / TABLE_SIZE + 1 - 1) 0 = table := by
            rw [Nat.add_sub_cancel, getD_set_eq, if_pos ⟨rfl, by omega⟩]
          have hmono2 : ∀ x, allocated st x → allocated (init_indirection_block st2 table) x :=
            fun x hx => (hiff x).2 (Or.inr (hm1 x hx))
          have hfb2 : ∀ j, j < bytes_to_sectors N / TABLE_SIZE + 1 → ¬ allocated st
              ((d1.indirection.set (bytes_to_sectors N / TABLE_SIZE) table).getD j 0) := by
            intro j hj
            rw [getD_set_eq]
            by_cases hji : bytes_to_sectors N / TABLE_SIZE = j
            · rw [if_pos ⟨hji, by omega⟩]
              exact fun hc => hsfree (hm1 table hc)
            · rw [if_neg (fun hc => hji hc.1)]
              exact hfb1 j (by omega)
          have hfd2 : ∀ k, k < bytes_to_sectors N / TABLE_SIZE * TABLE_SIZE → ¬ allocated st
              (dataSector (init_indirection_block st2 table)
                (d1.indirection.set (bytes_to_sectors N / TABLE_SIZE) table) k) := by
            intro k hk
            rw [hdata2 k hk]
            exact hfd1 k hk
          cases hrest : create_rest table
              (bytes_to_sectors N - bytes_to_sectors N / TABLE_SIZE * TABLE_SIZE)
              (init_indirection_block st2 table) with
          | none => rw [hrest] at h; simp at h
          | some r3 =>
            obtain ⟨b3, st4⟩ := r3
            cases b3 with
            | false => rw [hrest] at h; simp at h
            | true =>
              rw [hrest] at h
              dsimp only at h
              obtain ⟨d2, hd2⟩ : ∃ d2 : inode_disk, d2 = { d1 with
                indirection := d1.indirection.set (bytes_to_sectors N / TABLE_SIZE) table } :=
                ⟨_, rfl⟩
              have hd2i : d2.indirection
                  = d1.indirection.set (bytes_to_sectors N / TABLE_SIZE) table := by rw [hd2]
              rw [← hd2] at h
              have hst' : st' = block_write st4 sector d2.bytes :=
                (Prod.mk.inj (Option.some.inj h)).2.symm
              have hrest' : create_rest
                  ((d1.indirection.set (bytes_to_sectors N / TABLE_SIZE) table).getD
                    (bytes_to_sectors N / TABLE_SIZE + 1 - 1) 0)
                  (bytes_to_sectors N - bytes_to_sectors N / TABLE_SIZE * TABLE_SIZE)
                  (init_indirection_block st2 table) = some (true, st4) := by
                rw [hsel]; exact hrest
              obtain ⟨hL4, _⟩ := create_rest_ok sector _ (bytes_to_sectors N / TABLE_SIZE + 1) _
                (init_indirection_block st2 table) st4 _ hL2 (Nat.succ_pos _) (by simp)
                (by simp only [TABLE_SIZE]; omega) hz2 hrest'
              have hf4 := create_rest_fresh st sector _ (bytes_to_sectors N / TABLE_SIZE + 1) _
                (init_indirection_block st2 table) st4 _ hL2 (Nat.succ_pos _) (by simp)
                (by simp only [TABLE_SIZE]; omega) hz2 hmono2 hfd2 hrest'
              have hsum : bytes_to_sectors N / TABLE_SIZE * TABLE_SIZE
                  + (bytes_to_sectors N - bytes_to_sectors N / TABLE_SIZE * TABLE_SIZE)
                  = bytes_to_sectors N := by
                simp only [TABLE_SIZE]; omega
              rw [hsum] at hL4 hf4
              have hdisk : st'.disk sector = d2.bytes := by
                rw [hst', block_write_same, inode_bytes_take]
              have hind : ∀ j, j < bytes_to_sectors N / TABLE_SIZE + 1 →
                  ino.data.indirection.getD j 0
                    = (d1.indirection.set (bytes_to_sectors N / TABLE_SIZE) table).getD j 0 := by
                intro j hj
                rw [hdata, hdisk, ofBytes_inode_indirection_getD _ _ (by omega), hd2i]
                exact allocated_mod st4 hL4.fm_bound _ (hL4.blk_alloc j hj)
              have hL5 := Layout_write_self st4 sector _ ino.data.indirection _ _
                d2.bytes hL4 hind
              rw [← hst'] at hL5
              refine ⟨fun j hj => ⟨?_, ?_⟩, fun k hk => ?_⟩
              · rw [hind j hj]; exact hfb2 j hj
              · exact hL5.1.blk_alloc j hj
              · rw [hL5.2 k hk]; exact hf4 k hk

/-- C25 (sectors claimed by `inode_create`), amended.  A successful
`inode_create (sector, N, is_dir)` on an allocated `sector` takes from the
free-map exactly `n + (n / TABLE_SIZE + 1)` sectors, `n = bytes_to_sectors N`:
the `n` data sectors of the file and the `n / TABLE_SIZE + 1` indirection
blocks `indirection[0 .. n / TABLE_SIZE]` (one block for `N = 0`), each of
them free before the call and allocated after it, while every sector that was
allocated stays allocated.  The inode read back from `sector` is well-formed
with length `N`: its `k`-th data sector is entry `k mod TABLE_SIZE` of the
block at `indirection[k / TABLE_SIZE]`, the data sectors are allocated and
pairwise distinct, and the headers of the blocks add up to `n`. -/
theorem inode_create_sectors (st st' : Store) (sector N is_dir : Nat) (ino : inode)
    (hfm : st.free_map.length ≤ NO_SECTOR) (hal : allocated st sector)
    (h : inode_create st sector N is_dir = some (true, st'))
    (hsec : ino.sector = sector) (hdata : ino.data = inode_disk.ofBytes (st'.disk sector)) :
    freeCount st' + (bytes_to_sectors N + (bytes_to_sectors N / TABLE_SIZE + 1)) = freeCount st
      ∧ (∀ x, allocated st x → allocated st' x)
      ∧ (∀ j, j < bytes_to_sectors N / TABLE_SIZE + 1 →
          ¬ allocated st (ino.data.indirection.getD j 0)
            ∧ allocated st' (ino.data.indirection.getD j 0))
      ∧ (∀ k, k < bytes_to_sectors N →
          ¬ allocated st (dataSector st' ino.data.indirection k)
            ∧ allocated st' (dataSector st' ino.data.indirection k)
            ∧ dataSector st' ino.data.indirection k
              = entryAt st' (ino.data.indirection.getD (k / TABLE_SIZE) 0) (k % TABLE_SIZE))
      ∧ WF st' ino ∧ ino.data.length = N := by
  obtain ⟨hc, hm⟩ := inode_create_count st st' sector N is_dir h
  obtain ⟨hb, hd⟩ := inode_create_fresh st st' sector N is_dir hfm hal h ino hdata
  obtain ⟨hwf, hlen, _⟩ := inode_create_ok st st' sector N is_dir hfm hal h ino hsec hdata
  refine ⟨hc, hm, hb, fun k hk => ⟨hd k hk, ?_, rfl⟩, hwf, hlen⟩
  have := hwf.layout.data_alloc k (by rw [hlen]; exact hk)
  exact this

set_option maxRecDepth 1000000 in
/-- C25 (sectors claimed by `inode_create`) at `N = 0`: the call succeeds and
takes one sector from the free-map, the first indirection block, where the
count `ceil (ceil (N / SECTOR_SIZE) / TABLE_SIZE)` is 0. -/
theorem inode_create_empty_claims_block :
    (inode_create exampleStore 2 0 0).map (fun r =>
      (r.1, [freeCount exampleStore, freeCount r.2, bytes_to_sectors 0,
        (bytes_to_sectors 0 + TABLE_SIZE - 1) / TABLE_SIZE],
        (inode_disk.ofBytes (r.2.disk 2)).indirection.take 2,
        decide (allocated exampleStore 4), decide (allocated r.2 4)))
      = some (true, [252, 251, 0, 0], [4, 0], false, true) := by
  decide!

set_option maxRecDepth 1000000 in
/-- C25 at a file of 600 bytes: two data sectors and one indirection block. -/
theorem inode_create_sectors_witness :
    ∃ st', inode_create exampleStore 2 600 0 = some (true, st')
      ∧ freeCount st' + 3 = freeCount exampleStore
      ∧ WF st' { exampleInode with data := inode_disk.ofBytes (st'.disk 2) } := by
  have hc : (inode_create exampleStore 2 600 0).map Prod.fst = some true := by decide!
  cases h : inode_create exampleStore 2 600 0 with
  | none => rw [h] at hc; simp at hc
  | some r =>
    obtain ⟨b, st'⟩ := r
    rw [h] at hc
    simp only [Option.map_some', Option.some.injEq] at hc
    subst hc
    have := inode_create_sectors exampleStore st' 2 600 0
      { exampleInode with data := inode_disk.ofBytes (st'.disk 2) }
      (by decide!) (by decide!) h rfl rfl
    exact ⟨st', rfl, this.1, this.2.2.2.2.1⟩

/-! ## The disk inode of a child after `dir_add` -/

theorem get32_lt (bs : List Nat) (i : Nat) (h : ∀ j, bs.getD j 0 < 256) :
    get32 bs i < 4294967296 := by
  unfold get32
  have h0 := h i
  have h1 := h (i + 1)
  have h2 := h (i + 2)
  have h3 := h (i + 3)
  omega

theorem put32_length (v : Nat) : (put32 v).length = 4 := rfl

theorem get32_inode_bytes_magic (d : inode_disk) :
    get32 d.bytes 4 = d.magic % 4294967296 := by
  apply get32_word
  intro j hj
  simp only [inode_disk.bytes, List.append_assoc]
  rw [List.getD_append_right _ _ _ _ (by rw [put32_length]; omega), put32_length,
    List.getD_append _ _ _ _ (by rw [put32_length]; omega)]
  congr 1
  omega

theorem get32_inode_bytes_is_dir (d : inode_disk) :
    get32 d.bytes 8 = d.is_dir % 4294967296 := by
  apply get32_word
  intro j hj
  simp only [inode_disk.bytes, List.append_assoc]
  rw [List.getD_append_right _ _ _ _ (by rw [put32_length]; omega), put32_length,
    List.getD_append_right _ _ _ _ (by rw [put32_length]; omega), put32_length,
    List.getD_append _ _ _ _ (by rw [put32_length]; omega)]
  congr 1
  omega

theorem get32_inode_bytes_parent (d : inode_disk) :
    get32 d.bytes 12 = d.parent_directory % 4294967296 := by
  apply get32_word
  intro j hj
  simp only [inode_disk.bytes, List.append_assoc]
  rw [List.getD_append_right _ _ _ _ (by rw [put32_length]; omega), put32_length,
    List.getD_append_right _ _ _ _ (by rw [put32_length]; omega), put32_length,
    List.getD_append_right _ _ _ _ (by rw [put32_length]; omega), put32_length,
    List.getD_append _ _ _ _ (by rw [put32_length]; omega)]
  congr 1
  omega

/-- Writing back the disk inode read from a sector of bytes, with a new
`parent_directory`, changes that field only. -/
theorem ofBytes_set_parent (bs : List Nat) (p : Nat) (hb : ∀ j, bs.getD j 0 < 256)
    (hp : p < 4294967296) :
    inode_disk.ofBytes
        ({ inode_disk.ofBytes bs with parent_directory := p } : inode_disk).bytes
      = { inode_disk.ofBytes bs with parent_directory := p } := by
  obtain ⟨d, hd⟩ : ∃ d : inode_disk, d = { inode_disk.ofBytes bs with parent_directory := p } :=
    ⟨_, rfl⟩
  rw [← hd]
  have hlen : d.length < 4294967296 := by rw [hd]; exact get32_lt bs 0 hb
  have hmag : d.magic < 4294967296 := by rw [hd]; exact get32_lt bs 4 hb
  have hdir : d.is_dir < 4294967296 := by rw [hd]; exact get32_lt bs 8 hb
  have hpar : d.parent_directory < 4294967296 := by rw [hd]; exact hp
  have hind : ∀ i, i < NUM_TABLES → d.indirection.getD i 0 < 4294967296 := by
    intro i hi
    rw [hd]
    simp only [inode_disk.ofBytes]
    rw [getD_map_range _ _ _ _ hi]
    exact get32_lt bs _ hb
  have hil : d.indirection.length = NUM_TABLES := by
    rw [hd]; simp [inode_disk.ofBytes]
  have e : inode_disk.ofBytes d.bytes
      = { length := d.length, magic := d.magic, is_dir := d.is_dir,
          parent_directory := d.parent_directory, indirection := d.indirection } := by
    simp only [inode_disk.ofBytes]
    rw [get32_inode_bytes_length, get32_inode_bytes_magic, get32_inode_bytes_is_dir,
      get32_inode_bytes_parent, Nat.mod_eq_of_lt hlen, Nat.mod_eq_of_lt hmag,
      Nat.mod_eq_of_lt hdir, Nat.mod_eq_of_lt hpar]
    congr 1
    apply List.ext_getElem
    · simp [hil]
    · intro i h1 h2
      simp only [List.length_map, List.length_range] at h1
      simp only [List.getElem_map, List.getElem_range]
      rw [get32_inode_bytes_indirection _ _ h1, Nat.mod_eq_of_lt (hind i h1),
        List.getD_eq_getElem _ _ (by omega)]
  rw [e]

/-- `dir_add` of a name that the directory does not hold, with the state it
leaves: the entry written by `inode_write_at` and the `parent_directory` of
the disk inode at `inode_sector` set. -/
theorem dir_add_new_entry (fs : FS) (d : dir) (ino : inode) (name : List Nat) (s : Nat)
    (hd : fs.deref d.inode = some ino) (hwf : WF fs.store ino)
    (hname : ∀ c, c ∈ name → c ≠ 0) (hdot : name ≠ [DOT]) (hdotdot : name ≠ [DOT, DOT])
    (hne : name ≠ []) (hlen : name.length ≤ NAME_MAX)
    (hno : ¬ ∃ k, k < ino.data.length / DIR_ENTRY_SIZE
      ∧ (slotAt fs.store ino (k * DIR_ENTRY_SIZE)).in_use ≠ 0
      ∧ (slotAt fs.store ino (k * DIR_ENTRY_SIZE)).cname = name)
    (hdeny : ino.deny_write_cnt = 0) (hcap : ino.data.length + DIR_ENTRY_SIZE ≤ CAPACITY)
    (hfree : 2 ≤ freeCount fs.store) :
    ∃ ino' st1 st2, Grown fs.store ino st1 ino'
      ∧ (∀ x, (∀ k, k < bytes_to_sectors ino'.data.length →
          x ≠ dataSector st1 ino'.data.indirection k) → st2.disk x = st1.disk x)
      ∧ dir_add fs d name s = some (true,
          ((fs.assign d.inode ino').withStore st2).withStore (block_write st2 s
            ({ inode_disk.ofBytes (block_read st2 s) with
                parent_directory := ino'.sector } : inode_disk).bytes)) := by
  have hhead : ¬ (name.getD 0 0 = 0 ∨ NAME_MAX < name.length) := by
    intro h
    rcases h with h | h
    · cases name with
      | nil => exact hne rfl
      | cons c cs => exact hname c (by simp) (by simpa using h)
    · omega
  have hf : find_name fs.store ino name (ino.data.length / DIR_ENTRY_SIZE) 0 = none := by
    rw [find_name_none]
    intro j _ hj hc
    exact hno ⟨j, by omega, hc.1, hc.2⟩
  obtain ⟨e1, j, hfs, hj⟩ := free_slot_ok fs d.inode ino _ hd hwf rfl
    (ino.data.length / DIR_ENTRY_SIZE) 0 (scan_fuel fs d.inode) dir_entry.blank (by omega)
    (by rw [scan_fuel_eq fs d.inode ino hd]; omega)
  rw [Nat.zero_mul] at hfs
  have hofs : j * DIR_ENTRY_SIZE ≤ ino.data.length := by
    simp only [DIR_ENTRY_SIZE] at hj ⊢; omega
  obtain ⟨ino', st1, st2, hG, _, hw, _, _, _, hframe, _⟩ := inode_write_at_ok fs.store ino
    (dir_entry.bytes { ({ e1 with in_use := 1 } : dir_entry).strlcpy_name name with
      inode_sector := s }) DIR_ENTRY_SIZE (j * DIR_ENTRY_SIZE) hwf hdeny (by omega)
    (by rw [dir_entry_bytes_length]) (Nat.le_trans (allocCount_one_entry _ _ hofs) hfree)
  refine ⟨ino', st1, st2, hG, hframe, ?_⟩
  unfold dir_add
  rw [if_neg hhead, lookup_ordinary fs d ino name hd hwf hname hne hdot hdotdot, hf]
  dsimp only
  rw [hfs]
  dsimp only
  unfold FS.write_at
  rw [hd]
  dsimp only
  rw [hw]
  dsimp only
  unfold set_parent
  have hlt := deref_lt fs d.inode ino hd
  have hd' : ((fs.assign d.inode ino').withStore st2).deref d.inode = some ino' := by
    show (fs.assign d.inode ino').deref d.inode = some ino'
    rw [deref_assign, if_pos ⟨rfl, hlt⟩]
  rw [hd']
  rfl

/-- With free sectors for its growth `dir_add` links the child to its parent.
For a well-formed directory inode on which writes are allowed, with room for
one more slot within the capacity and two free sectors for its growth, a C
string `name` other than `.` and `..`, and an allocated `inode_sector` that
holds bytes and is none of the directory's own sectors: after a `dir_add (dir,
name, inode_sector)` that returned true, the disk inode stored at
`inode_sector` is the one stored there before with `parent_directory` set to
the sector of the directory's inode; `length`, `magic`, `is_dir` and
`indirection` are as before. -/
theorem dir_add_links_child (fs fs' : FS) (d : dir) (ino : inode) (name : List Nat) (s : Nat)
    (hd : fs.deref d.inode = some ino) (hwf : WF fs.store ino)
    (hname : ∀ c, c ∈ name → c ≠ 0) (hdot : name ≠ [DOT]) (hdotdot : name ≠ [DOT, DOT])
    (hdeny : ino.deny_write_cnt = 0) (hcap : ino.data.length + DIR_ENTRY_SIZE ≤ CAPACITY)
    (hfree : 2 ≤ freeCount fs.store)
    (hs : allocated fs.store s) (hself : s ≠ ino.sector)
    (hblk : ∀ j, j < blocksFor (bytes_to_sectors ino.data.length) →
      s ≠ ino.data.indirection.getD j 0)
    (hdat : ∀ k, k < bytes_to_sectors ino.data.length →
      s ≠ dataSector fs.store ino.data.indirection k)
    (hbytes : ∀ j, (fs.store.disk s).getD j 0 < 256)
    (h : dir_add fs d name s = some (true, fs')) :
    inode_disk.ofBytes (block_read fs'.store s)
        = { inode_disk.ofBytes (block_read fs.store s) with parent_directory := ino.sector }
      ∧ (inode_disk.ofBytes (block_read fs'.store s)).parent_directory = ino.sector
      ∧ (inode_disk.ofBytes (block_read fs'.store s)).length
          = (inode_disk.ofBytes (block_read fs.store s)).length
      ∧ (inode_disk.ofBytes (block_read fs'.store s)).magic
          = (inode_disk.ofBytes (block_read fs.store s)).magic
      ∧ (inode_disk.ofBytes (block_read fs'.store s)).is_dir
          = (inode_disk.ofBytes (block_read fs.store s)).is_dir
      ∧ (inode_disk.ofBytes (block_read fs'.store s)).indirection
          = (inode_disk.ofBytes (block_read fs.store s)).indirection := by
  obtain ⟨ha, hb, _⟩ := dir_add_ok fs d ino name s hd hwf hname hdot hdotdot
  have hne : name ≠ [] := by
    intro hc
    rw [ha (Or.inl hc)] at h
    cases h
  have hlen : name.length ≤ NAME_MAX := by
    by_contra hc
    rw [ha (Or.inr (by omega))] at h
    cases h
  have hno : ¬ ∃ k, k < ino.data.length / DIR_ENTRY_SIZE
      ∧ (slotAt fs.store ino (k * DIR_ENTRY_SIZE)).in_use ≠ 0
      ∧ (slotAt fs.store ino (k * DIR_ENTRY_SIZE)).cname = name := by
    intro hex
    rw [hb hne hlen hex] at h
    cases h
  obtain ⟨ino', st1, st2, hG, hframe, hadd⟩ := dir_add_new_entry fs d ino name s hd hwf hname
    hdot hdotdot hne hlen hno hdeny hcap hfree
  rw [hadd] at h
  have hfs' := (Prod.mk.inj (Option.some.inj h)).2
  have hsec : ino'.sector = ino.sector := Grown_sector hG
  have h1 : st1.disk s = fs.store.disk s := hG.frame s hs hself hblk
  have h2 : st2.disk s = st1.disk s := by
    apply hframe
    intro k hk hc
    by_cases hko : k < bytes_to_sectors ino.data.length
    · rw [hG.data_same k hko] at hc
      exact hdat k hko hc
    · exact hG.data_fresh k (by omega) hk (hc ▸ hs)
  have hslt : ino.sector < 4294967296 := by
    have := allocated_lt fs.store _ hwf.layout.self_alloc
    have := hwf.layout.fm_bound
    simp only [NO_SECTOR] at this
    omega
  have hmain : inode_disk.ofBytes (block_read fs'.store s)
      = { inode_disk.ofBytes (block_read fs.store s) with parent_directory := ino.sector } := by
    rw [← hfs']
    show inode_disk.ofBytes ((block_write st2 s _).disk s) = _
    rw [block_write_same, inode_bytes_take]
    unfold block_read
    rw [h2, h1, hsec]
    exact ofBytes_set_parent _ _ hbytes hslt
  refine ⟨hmain, ?_, ?_, ?_, ?_, ?_⟩ <;> rw [hmain]

set_option maxRecDepth 1000000 in
/-- The link made by `dir_add`, at the directory of three slots at sector 2 and
the name `d` for the inode at sector 1. -/
theorem dir_add_links_child_witness :
    WF listingStore listingDir
    ∧ ∃ fs', dir_add (exampleFS listingStore listingDir) { inode := 0, pos := 0 } (cstr "d") 1
          = some (true, fs')
        ∧ (inode_disk.ofBytes (block_read fs'.store 1)).parent_directory = 2
        ∧ (inode_disk.ofBytes (block_read fs'.store 1)).length
            = (inode_disk.ofBytes (block_read listingStore 1)).length := by
  refine ⟨listingDir_wf, ?_⟩
  obtain ⟨fs', h⟩ := (dir_add_ok (exampleFS listingStore listingDir) { inode := 0, pos := 0 }
    listingDir (cstr "d") 1 rfl listingDir_wf (by decide!) (by decide!) (by decide!)).2.2
    (by decide!) (by decide!) (by decide!) (by decide!) (by decide!) (by decide!)
  have hb : blocksFor (bytes_to_sectors listingDir.data.length) = 1 := by decide!
  have hn : bytes_to_sectors listingDir.data.length = 1 := by decide!
  have := dir_add_links_child (exampleFS listingStore listingDir) fs' { inode := 0, pos := 0 }
    listingDir (cstr "d") 1 rfl listingDir_wf (by decide!) (by decide!) (by decide!)
    (by decide!) (by decide!) (by decide!) (by decide!) (by decide!)
    (by
      intro j hj
      rw [hb] at hj
      have : j = 0 := by omega
      subst this
      decide!)
    (by
      intro k hk
      rw [hn] at hk
      have : k = 0 := by omega
      subst this
      decide!)
    (by
      intro j
      show (zeros).getD j 0 < 256
      rw [getD_zeros]
      omega)
    h
  exact ⟨fs', h, this.2.1, this.2.2.1⟩

/-! ## `dir_make` -/

set_option maxRecDepth 1000000 in
/-- C31 (`dir_make` reports what it did), on a freshly formatted device of 64
sectors.  (1) `dir_make ("/aaaaaaaaaaaaaaa")`, whose leaf has 15 bytes, one
more than `NAME_MAX`, returns true; afterwards the root directory has no
in-use entry, and three sectors fewer are free (55 instead of 58).  (2)
`dir_lookup` from the root does not find `/nodir`, and `dir_make ("/nodir/x")`
does not return: the `ASSERT` on the lookup of the parent path fails. -/
theorem dir_make_true_without_entry :
    ((boot 64).bind fun fs => (dir_make fs (cstr "/aaaaaaaaaaaaaaa")).bind fun r =>
      r.2.cur_directory.bind fun d =>
        (readdir_all r.2 17 d).map fun l =>
          (r.1, l.1, freeCount fs.store, freeCount r.2.store))
      = some (true, [], 58, 55)
    ∧ ((boot 64).bind fun fs =>
        (dir_lookup fs fs.cur_directory (cstr "/nodir")).map fun r =>
          (r.1, (dir_make fs (cstr "/nodir/x")).isNone))
      = some (none, true) := by
  constructor <;> decide!

/-! ## Writes that grow a file on a device without a free sector -/

set_option maxRecDepth 1000000 in
/-- C9 (never-written bytes read as zero), part (b), at a well-formed empty
file (inode sector 2, indirection block 3) on a device without a free sector:
`inode_write_at` of the one byte 7 at offset 600 returns 1 and leaves the
length at 601; the byte at position 88, inside the gap `[0, 600)` that was
never written, then reads as 7. -/
theorem gap_reads_written_byte :
    WF fullStore exampleInode
    ∧ ((inode_write_at fullStore exampleInode [7] 1 600).bind fun r =>
        (inode_read_at r.2.2 r.2.1 1 88).map fun q => (r.1, r.2.1.data.length, q))
      = some (1, 601, 1, [7]) :=
  ⟨fullStore_wf, by decide!⟩

set_option maxRecDepth 1000000 in
/-- C22 (`dir_add` links the child to its parent), on a device of 6 sectors,
all in use after formatting, on which `dir_make` was called for the 25 paths
`/a` to `/y` (each call returned true, having run `dir_add (root, name, 0)`):
the disk inode stored at sector 0 has length 4 and magic `INODE_MAGIC`;
`dir_add (root, "z", 0)` returns true, and afterwards the disk inode stored at
sector 0 has `parent_directory` 1, the root's sector, length 0 and magic
16777216. -/
theorem dir_add_overwrites_child_inode :
    ((boot 6).bind fun fs =>
      (run_calls ((List.range 25).map fun i => fun s => dir_make s [SLASH, 97 + i]) fs).bind fun r =>
        r.2.cur_directory.bind fun d =>
          (dir_add r.2 d (cstr "z") 0).map fun q =>
            (r.1, freeCount fs.store,
              [(inode_disk.ofBytes (block_read r.2.store 0)).length,
                (inode_disk.ofBytes (block_read r.2.store 0)).magic],
              q.1,
              [(inode_disk.ofBytes (block_read q.2.store 0)).parent_directory,
                (inode_disk.ofBytes (block_read q.2.store 0)).length,
                (inode_disk.ofBytes (block_read q.2.store 0)).magic]))
      = some (List.replicate 25 true, 0, [4, INODE_MAGIC], true, [1, 0, 16777216]) := by
  decide!

end Pintos
